import Mathlib

/-!
# LineAtlas (mbgl/geometry/line_atlas.cpp)

A shallow embedding of `mbgl::LineAtlas` and theorems about it.

Modelling conventions

* `float` and `double` values are exact rationals (`ℚ`): rounding, infinities and NaN
  are not modelled.  The two places where the source takes a square root convert the
  result to `int` at once, and the truncated value of the real-number expression is
  computed exactly (`truncSqrt`, `truncSubSqrt`).  The bytes and the position fields
  that the model computes can therefore differ from those of the program by the
  effect of rounding.  The statements are made where rounding has no part (the
  cursor, the cache, the indices of the stores, the calls on the context), up to
  rounding (`IsBinary32`, `NearRowRange`), or for every way of computing the walk and
  the signed distance (`rowLoopWith`, `bandLoopWith`).
* Rounding is modelled for the butt cap and for the returned position:
  `roundBinary32` and `roundBinary64` round a rational to the nearest `float` and
  `double` (ties to even); `addDashButtR` and `positionR` are `addDash` at the butt cap
  and the computation of lines 111-114 with every floating-point operation rounded by
  a given function.  With the identity they are the exact model
  (`addDashButtR_id`, `positionR_id`); with `roundBinary32` and `roundBinary64` they
  are the computation in IEEE 754 arithmetic as long as nothing overflows.  The round
  cap is not modelled with rounding: the type in which `sqrt` and `fabs` are
  evaluated there depends on the overloads that `<cmath>` puts in the global
  namespace.
* `uint16_t` dimensions are natural numbers; `int` values are integers.  In every
  reachable state `0 ≤ nextRow ≤ height` (`reachable_cursor`), so the sums on
  `nextRow` stay far inside the range of `int`.  The product `width * row` can
  leave the range of a 32-bit `int` for very large atlases and is wrapped
  (`wrapInt32`).
* Reading a `std::vector` outside its bounds is undefined behaviour; the model
  returns `none` there, so `addDash` and `getDashPosition` are `Option`-valued.
* `image.data` is a map from cell index to byte.  The cells of the buffer are
  `0 ≤ i < width * height`.  A store outside the buffer is undefined behaviour in the
  source; the model records it in the map and goes on, so `Reachable` holds every
  state of the program and more.  `runInImage` marks the sequences of calls without
  such a store.
* `boost::hash_combine<float>` is library code and is a parameter `hc` of the
  model.
* `Log::Warning` calls are recorded in the field `log`; calls on the
  `gl::Context` are recorded in `Context.calls`.
* To speak about the individual stores `image.data[index + x] = ...`, the loops of
  `addDash` have a second form that records the stores instead of applying them
  (`rowStores`, `rasterRowStores`, `bandStores`, `addDashStores`); the lemmas
  `rowLoop_eq_stores`, `rasterRow_eq_stores`, `bandLoop_eq_stores` and
  `addDash_eq_stores` show that the loops apply exactly these stores.
-/

namespace mbgl

/-! ## Data model -/

/-- Cap style of a dash pattern (`LinePatternCap`); the source only tests
`patternCap == LinePatternCap::Round`. -/
inductive LinePatternCap where
  | Butt
  | Round
  deriving DecidableEq, Repr

/-- Position of a stripe in the atlas (`LinePatternPos`): three `float` fields. -/
structure LinePatternPos where
  width : ℚ
  height : ℚ
  y : ℚ
  deriving DecidableEq, Repr

/-- Value-initialised position `LinePatternPos()`: every field is zero. -/
def LinePatternPos.empty : LinePatternPos :=
  { width := 0, height := 0, y := 0 }

/-- Modelled from the spec: the raw image container (`AlphaImage`, declared outside
`line_atlas.cpp`): a `width × height` grid of single-channel bytes, addressed by
`data[index]`. -/
structure AlphaImage where
  width : Nat
  height : Nat
  data : Int → Nat

/-- Modelled from the spec: `AlphaImage(width, height)` allocates a zero-filled
buffer. -/
def AlphaImage.create (w h : Nat) : AlphaImage :=
  { width := w, height := h, data := fun _ => 0 }

/-- The handle type `gl::Texture`, an identifier handed out by the context. -/
abbrev Texture := Nat

/-- The type `gl::TextureUnit`. -/
abbrev TextureUnit := Nat

/-- Sampling filter `gl::TextureFilter`. -/
inductive TextureFilter where
  | Nearest
  | Linear
  deriving DecidableEq, Repr

/-- Mip-map switch `gl::TextureMipMap`. -/
inductive TextureMipMap where
  | No
  | Yes
  deriving DecidableEq, Repr

/-- Wrap mode `gl::TextureWrap`. -/
inductive TextureWrap where
  | Clamp
  | Repeat
  deriving DecidableEq, Repr

/-- One call made on the graphics context. -/
inductive GLCall where
  | createTexture (image : AlphaImage) (unit : TextureUnit)
  | updateTexture (texture : Texture) (image : AlphaImage) (unit : TextureUnit)
  | bindTexture (texture : Texture) (unit : TextureUnit) (filter : TextureFilter)
      (mipmap : TextureMipMap) (wrapX wrapY : TextureWrap)

/-- Modelled from the spec: the graphics context collaborator (`gl::Context`, declared
outside `line_atlas.cpp`), exposing `createTexture(image, unit) → handle`,
`updateTexture(handle, image, unit)` and `bindTexture(handle, unit, ...)`.  The
model records the calls in order and hands out fresh handles. -/
structure Context where
  calls : List GLCall
  nextTexture : Nat

/-- A context on which no call has been made. -/
def Context.fresh : Context :=
  { calls := [], nextTexture := 0 }

/-- Modelled from the spec: `context.createTexture(image, unit)` returns a handle. -/
def Context.createTexture (c : Context) (image : AlphaImage) (unit : TextureUnit) :
    Texture × Context :=
  (c.nextTexture,
    { calls := c.calls ++ [GLCall.createTexture image unit],
      nextTexture := c.nextTexture + 1 })

/-- Modelled from the spec: `context.updateTexture(texture, image, unit)`. -/
def Context.updateTexture (c : Context) (t : Texture) (image : AlphaImage)
    (unit : TextureUnit) : Context :=
  { c with calls := c.calls ++ [GLCall.updateTexture t image unit] }

/-- Modelled from the spec: `context.bindTexture(texture, unit, filter, mipmap,
wrapX, wrapY)`. -/
def Context.bindTexture (c : Context) (t : Texture) (unit : TextureUnit)
    (filter : TextureFilter) (mipmap : TextureMipMap) (wrapX wrapY : TextureWrap) :
    Context :=
  { c with calls := c.calls ++ [GLCall.bindTexture t unit filter mipmap wrapX wrapY] }

/-- The members of `class LineAtlas`, and the warnings it has logged so far. -/
structure LineAtlas where
  width : Nat
  height : Nat
  image : AlphaImage
  dirty : Bool
  texture : Option Texture
  nextRow : Int
  positions : List (Nat × LinePatternPos)
  log : List String

/-- Constructor `LineAtlas::LineAtlas(uint16_t w, uint16_t h)`.
Modelled from the spec: the member initialiser `nextRow = 0`, the empty map and the
absent texture come from the class declaration, which is outside `line_atlas.cpp`. -/
def LineAtlas.create (w h : Nat) : LineAtlas :=
  { width := w
    height := h
    image := AlphaImage.create w h
    dirty := true
    texture := none
    nextRow := 0
    positions := []
    log := [] }

/-! ## Arithmetic helpers -/

/-- Two-complement wrap of an integer into the range of a 32-bit `int`. -/
def wrapInt32 (v : Int) : Int :=
  (v + 2147483648) % 4294967296 - 2147483648

/-- Conversion of a `float` to `int`: truncation toward zero. -/
def truncate (q : ℚ) : Int :=
  if 0 ≤ q then ⌊q⌋ else ⌈q⌉

/-- Integer square root, digit by digit in base 2: `isqrtLoop fuel n` is `⌊sqrt n⌋` as
soon as `n ≤ fuel`. -/
def isqrtLoop : Nat → Nat → Nat
  | 0, _ => 0
  | fuel + 1, n =>
    if n = 0 then 0
    else
      let r := 2 * isqrtLoop fuel (n / 4)
      if (r + 1) * (r + 1) ≤ n then r + 1 else r

/-- Integer square root `⌊sqrt n⌋`. -/
def isqrt (n : Nat) : Nat :=
  isqrtLoop n n

/-- The `int` value of `sqrt(q)` for `q ≥ 0`: the integer square root of `⌊q⌋`. -/
def truncSqrt (q : ℚ) : Int :=
  (isqrt ⌊q⌋.toNat : Int)

/-- The `int` value of `h - sqrt(q)` for `q ≥ 0`, computed without leaving the
rationals: with `m = ⌊sqrt q⌋` the value lies in `(h - m - 1, h - m]`. -/
def truncSubSqrt (h q : ℚ) : Int :=
  let m : Int := truncSqrt q
  if 0 ≤ h ∧ q ≤ h * h then
    -- `0 ≤ h - sqrt q`: the floor is `⌊h - m⌋` or one less
    let k : Int := ⌊h - m⌋
    if q ≤ (h - k) * (h - k) then k else k - 1
  else
    -- `h - sqrt q < 0`: minus the floor of `sqrt q - h`, which is `⌊m - h⌋` or one more
    let k : Int := ⌊(m : ℚ) - h⌋
    if h + (k + 1) ≤ 0 ∨ (h + (k + 1)) * (h + (k + 1)) ≤ q then -(k + 1) else -k

/-- The byte stored for a signed distance: `fmax(0, fmin(255, v))` as `uint8_t`. -/
def clampByte (v : Int) : Nat :=
  (max 0 (min 255 v)).toNat

/-! ## The rasterizer and the allocator (`LineAtlas::addDash`) -/

/-- The local variables `left`, `right` and `partIndex` of the segment walk. -/
structure Segment where
  left : ℚ
  right : ℚ
  partIndex : Nat
  deriving DecidableEq, Repr

/-- The loop `while (right < x / stretch) { ... }` with `target = x / stretch`.
Every iteration reads `dasharray[partIndex]` and increments `partIndex`, so from
`partIndex = p` at most `dasharray.size() - p` iterations read inside the vector; the
first argument counts them down, and `none` is a read past the end. -/
def advanceLoop (dasharray : List ℚ) (oddLength : Bool) (target : ℚ) :
    Nat → Segment → Option Segment
  | 0, seg => if seg.right < target then none else some seg
  | fuel + 1, seg =>
    if seg.right < target then
      match dasharray[seg.partIndex]?, dasharray.head? with
      | some part, some front =>
        let right := seg.right + part
        let right :=
          if oddLength && seg.partIndex == dasharray.length - 1 then right + front
          else right
        advanceLoop dasharray oddLength target fuel
          { left := seg.right, right := right, partIndex := seg.partIndex + 1 }
      | _, _ => none
    else some seg

/-- The segment walk for one pixel column: `while (right < x / stretch)`. -/
def advance (dasharray : List ℚ) (oddLength : Bool) (target : ℚ) (seg : Segment) :
    Option Segment :=
  advanceLoop dasharray oddLength target (dasharray.length - seg.partIndex) seg

/-- The `int signedDistance` of one pixel (lines 88-105 of the source). -/
def signedDistance (patternCap : LinePatternCap) (n y x : Int) (stretch halfWidth : ℚ)
    (seg : Segment) : Int :=
  let distLeft : ℚ := |(x : ℚ) - seg.left * stretch|
  let distRight : ℚ := |(x : ℚ) - seg.right * stretch|
  let dist : ℚ := min distLeft distRight
  let inside : Bool := seg.partIndex % 2 == 1
  if patternCap = LinePatternCap.Round then
    let distMiddle : ℚ := if n ≠ 0 then (y : ℚ) / (n : ℚ) * (halfWidth + 1) else 0
    if inside then
      let distEdge : ℚ := halfWidth - |distMiddle|
      truncSqrt (dist * dist + distEdge * distEdge)
    else
      truncSubSqrt halfWidth (dist * dist + distMiddle * distMiddle)
  else
    truncate ((if inside then 1 else -1) * dist)

/-- The loop `for (int x = 0; x < width; x++)` of one row: the first argument is the
number of columns still to do.  Each column walks the segment on, then stores
`fmax(0, fmin(255, signedDistance + offset))` at `image.data[index + x]`. -/
def rowLoop (dasharray : List ℚ) (oddLength : Bool) (patternCap : LinePatternCap)
    (n y : Int) (stretch halfWidth : ℚ) (index : Int) :
    Nat → Int → Segment → (Int → Nat) → Option (Int → Nat)
  | 0, _, _, data => some data
  | k + 1, x, seg, data =>
    match advance dasharray oddLength ((x : ℚ) / stretch) seg with
    | none => none
    | some seg1 =>
      let v := clampByte (signedDistance patternCap n y x stretch halfWidth seg1 + 128)
      rowLoop dasharray oddLength patternCap n y stretch halfWidth index k (x + 1) seg1
        (Function.update data (wrapInt32 (index + x)) v)

/-- The body of the loop over `y` (lines 64-108): set up the walk and rasterize the
row `nextRow + n + y`. -/
def rasterRow (width : Nat) (nextRow : Int) (dasharray : List ℚ) (oddLength : Bool)
    (patternCap : LinePatternCap) (n y : Int) (stretch halfWidth : ℚ)
    (data : Int → Nat) : Option (Int → Nat) :=
  let row : Int := nextRow + n + y
  let index : Int := wrapInt32 ((width : Int) * row)
  match dasharray[0]?, dasharray.getLast? with
  | some first, some last =>
    let left : ℚ := if oddLength then 0 - last else 0
    rowLoop dasharray oddLength patternCap n y stretch halfWidth index width 0
      { left := left, right := first, partIndex := 1 } data
  | _, _ => none

/-- The loop `for (int y = -n; y <= n; y++)`: the first argument is the number of rows
still to do. -/
def bandLoop (width : Nat) (nextRow : Int) (dasharray : List ℚ) (oddLength : Bool)
    (patternCap : LinePatternCap) (n : Int) (stretch halfWidth : ℚ) :
    Nat → Int → (Int → Nat) → Option (Int → Nat)
  | 0, _, data => some data
  | k + 1, y, data =>
    match rasterRow width nextRow dasharray oddLength patternCap n y stretch halfWidth
        data with
    | none => none
    | some data1 =>
      bandLoop width nextRow dasharray oddLength patternCap n stretch halfWidth k (y + 1)
        data1

/-- The value `int n = patternCap == LinePatternCap::Round ? 7 : 0`. -/
def capN (patternCap : LinePatternCap) : Int :=
  if patternCap = LinePatternCap.Round then 7 else 0

/-- The loop `for (const float part : dasharray) length += part`. -/
def dashLength (dasharray : List ℚ) : ℚ :=
  dasharray.foldl (fun length part => length + part) 0

/-- The message of the overflow warning. -/
def overflowWarning : String := "line atlas bitmap overflow"

/-- Member function `LineAtlas::addDash`: the returned position and the atlas
afterwards, or `none` when the source reads outside `dasharray`. -/
def addDash (s : LineAtlas) (dasharray : List ℚ) (patternCap : LinePatternCap) :
    Option (LinePatternPos × LineAtlas) :=
  let n : Int := capN patternCap
  let dashheight : Int := 2 * n + 1
  if s.nextRow + dashheight > (s.height : Int) then
    some (LinePatternPos.empty, { s with log := s.log ++ [overflowWarning] })
  else
    let length : ℚ := dashLength dasharray
    let stretch : ℚ := (s.width : ℚ) / length
    let halfWidth : ℚ := stretch * (1 / 2)
    let oddLength : Bool := dasharray.length % 2 == 1
    match bandLoop s.width s.nextRow dasharray oddLength patternCap n stretch halfWidth
        dashheight.toNat (-n) s.image.data with
    | none => none
    | some data =>
      let position : LinePatternPos :=
        { y := ((1 / 2 : ℚ) + (s.nextRow : ℚ) + (n : ℚ)) / (s.height : ℚ)
          height := (2 * (n : ℚ)) / (s.height : ℚ)
          width := length }
      some (position,
        { s with
          image := { s.image with data := data }
          nextRow := s.nextRow + dashheight
          dirty := true })

/-! ## The pattern cache (`LineAtlas::getDashPosition`) -/

/-- The key of a pattern: the seed is `numeric_limits<size_t>::min()` for Round and
`numeric_limits<size_t>::max()` otherwise, and `hc` (`boost::hash_combine<float>`) is
applied to every entry in order. -/
def dashKey (hc : Nat → ℚ → Nat) (dasharray : List ℚ) (patternCap : LinePatternCap) :
    Nat :=
  dasharray.foldl hc (if patternCap = LinePatternCap.Round then 0 else 18446744073709551615)

/-- The call `positions.emplace(key, value)` of `std::unordered_map`: inserts unless the
key is present; returns the map, the mapped value at the key afterwards, and whether
an insertion took place. -/
def emplace (positions : List (Nat × LinePatternPos)) (key : Nat) (value : LinePatternPos) :
    List (Nat × LinePatternPos) × LinePatternPos × Bool :=
  match positions.lookup key with
  | some old => (positions, old, false)
  | none => ((key, value) :: positions, value, true)

/-- Member function `LineAtlas::getDashPosition`. -/
def getDashPosition (hc : Nat → ℚ → Nat) (s : LineAtlas) (dasharray : List ℚ)
    (patternCap : LinePatternCap) : Option (LinePatternPos × LineAtlas) :=
  let key := dashKey hc dasharray patternCap
  match s.positions.lookup key with
  | none =>
    match addDash s dasharray patternCap with
    | none => none
    | some (value, s1) =>
      let inserted := emplace s1.positions key value
      some (inserted.2.1, { s1 with positions := inserted.1 })
  | some position => some (position, s)

/-! ## The upload step (`LineAtlas::upload`, `LineAtlas::bind`) -/

/-- Member function `LineAtlas::bind`.  After the first `if` the optional `texture`
holds a handle `t`, the value of `*texture` in the rest of the body. -/
def bind (s : LineAtlas) (context : Context) (unit : TextureUnit) : LineAtlas × Context :=
  let created : Texture × LineAtlas × Context :=
    match s.texture with
    | none =>
      let r := context.createTexture s.image unit
      (r.1, { s with texture := some r.1, dirty := false }, r.2)
    | some t => (t, s, context)
  let t := created.1
  let s1 := created.2.1
  let c1 := created.2.2
  let updated : LineAtlas × Context :=
    if s1.dirty then ({ s1 with dirty := false }, c1.updateTexture t s1.image unit)
    else (s1, c1)
  (updated.1,
    updated.2.bindTexture t unit TextureFilter.Linear TextureMipMap.No TextureWrap.Repeat
      TextureWrap.Clamp)

/-- Member function `LineAtlas::upload`. -/
def upload (s : LineAtlas) (context : Context) (unit : TextureUnit) : LineAtlas × Context :=
  if s.dirty then bind s context unit else (s, context)

/-! ## Sequences of calls -/

/-- A call made by the renderer. -/
inductive Op where
  | getDashPosition (dasharray : List ℚ) (patternCap : LinePatternCap)
  | upload (unit : TextureUnit)

/-- One call on an atlas and a context. -/
def step (hc : Nat → ℚ → Nat) (st : LineAtlas × Context) : Op → Option (LineAtlas × Context)
  | Op.getDashPosition dasharray patternCap =>
    match getDashPosition hc st.1 dasharray patternCap with
    | none => none
    | some r => some (r.2, st.2)
  | Op.upload unit => some (upload st.1 st.2 unit)

/-- A sequence of calls, left to right. -/
def run (hc : Nat → ℚ → Nat) : LineAtlas × Context → List Op → Option (LineAtlas × Context)
  | st, [] => some st
  | st, op :: ops =>
    match step hc st op with
    | none => none
    | some st1 => run hc st1 ops

/-- States reached from a freshly constructed `w × h` atlas and a fresh context. -/
def Reachable (hc : Nat → ℚ → Nat) (w h : Nat) (st : LineAtlas × Context) : Prop :=
  ∃ ops : List Op, run hc (LineAtlas.create w h, Context.fresh) ops = some st

/-! ## Vocabulary of the statements -/

/-- A dash pattern as the spec describes it: non-empty, every length positive. -/
def ValidPattern (dasharray : List ℚ) : Prop :=
  dasharray ≠ [] ∧ ∀ d ∈ dasharray, 0 < d

/-- A concrete stand-in for `boost::hash_combine<float>`, used only to evaluate the
model on concrete inputs; the general theorems hold for every `hc`. -/
def sampleHashCombine (seed : Nat) (part : ℚ) : Nat :=
  (31 * seed + part.num.toNat + part.den) % 18446744073709551616

/-- The same lookup made `k` times in a row: the positions returned, in order, and the
atlas afterwards. -/
def lookups (hc : Nat → ℚ → Nat) (dasharray : List ℚ) (patternCap : LinePatternCap) :
    Nat → LineAtlas → Option (List LinePatternPos × LineAtlas)
  | 0, s => some ([], s)
  | k + 1, s =>
    match getDashPosition hc s dasharray patternCap with
    | none => none
    | some (p, s1) =>
      match lookups hc dasharray patternCap k s1 with
      | none => none
      | some (ps, s2) => some (p :: ps, s2)

/-- The row range of a stored position lies within the atlas: the position has the form
`y = (0.5 + startRow + n) / height`, `height = 2n / height` with `n` 0 or 7 and the rows
`[startRow, startRow + 2n + 1)` inside `[0, height)`. -/
def RowRange (height : Nat) (p : LinePatternPos) : Prop :=
  ∃ startRow n : Int, (n = 0 ∨ n = 7) ∧ 0 ≤ startRow ∧
    startRow + 2 * n + 1 ≤ (height : Int) ∧
    p.y = ((1 / 2 : ℚ) + (startRow : ℚ) + (n : ℚ)) / (height : ℚ) ∧
    p.height = (2 * (n : ℚ)) / (height : ℚ)

/-- Whether a call on the context is `createTexture`. -/
def GLCall.isCreate : GLCall → Bool
  | GLCall.createTexture _ _ => true
  | _ => false

/-- Whether a call on the context is `updateTexture`. -/
def GLCall.isUpdate : GLCall → Bool
  | GLCall.updateTexture _ _ _ => true
  | _ => false

/-- Number of `createTexture` calls made on a context. -/
def createCount (c : Context) : Nat :=
  c.calls.countP GLCall.isCreate

/-- The image handed over by a call: `createTexture` and `updateTexture` pass one. -/
def GLCall.uploaded : GLCall → Option AlphaImage
  | GLCall.createTexture image _ => some image
  | GLCall.updateTexture _ image _ => some image
  | GLCall.bindTexture _ _ _ _ _ _ => none

/-- The image that was last passed to `createTexture` or `updateTexture`. -/
def lastUploaded : List GLCall → Option AlphaImage
  | [] => none
  | call :: calls =>
    match lastUploaded calls with
    | some image => some image
    | none => call.uploaded

/-- Whether a call of the renderer is `upload`. -/
def Op.isUpload : Op → Bool
  | Op.upload _ => true
  | _ => false

/-- Number of keys of the map. -/
def mapSize (positions : List (Nat × LinePatternPos)) : Nat :=
  (positions.map (fun e => e.1)).dedup.length

/-- One execution of the store `image.data[index + x] = ...` (line 107): the loop
variables `y` and `x`, the walk state after the `while` loop of that column, the index
`index + x` and the byte stored. -/
structure Store where
  y : Int
  x : Int
  seg : Segment
  index : Int
  value : Nat
  deriving DecidableEq, Repr

/-- The stores made by `rowLoop`, in order: the same loop, recording each store instead
of applying it to the image. -/
def rowStores (dasharray : List ℚ) (oddLength : Bool) (patternCap : LinePatternCap)
    (n y : Int) (stretch halfWidth : ℚ) (index : Int) :
    Nat → Int → Segment → Option (List Store)
  | 0, _, _ => some []
  | k + 1, x, seg =>
    match advance dasharray oddLength ((x : ℚ) / stretch) seg with
    | none => none
    | some seg1 =>
      match rowStores dasharray oddLength patternCap n y stretch halfWidth index k (x + 1)
          seg1 with
      | none => none
      | some rest =>
        some ({ y := y, x := x, seg := seg1, index := wrapInt32 (index + x),
                value := clampByte
                  (signedDistance patternCap n y x stretch halfWidth seg1 + 128) } :: rest)

/-- The stores made by `rasterRow`, in order. -/
def rasterRowStores (width : Nat) (nextRow : Int) (dasharray : List ℚ) (oddLength : Bool)
    (patternCap : LinePatternCap) (n y : Int) (stretch halfWidth : ℚ) :
    Option (List Store) :=
  let row : Int := nextRow + n + y
  let index : Int := wrapInt32 ((width : Int) * row)
  match dasharray[0]?, dasharray.getLast? with
  | some first, some last =>
    let left : ℚ := if oddLength then 0 - last else 0
    rowStores dasharray oddLength patternCap n y stretch halfWidth index width 0
      { left := left, right := first, partIndex := 1 }
  | _, _ => none

/-- The stores made by `bandLoop`, in order. -/
def bandStores (width : Nat) (nextRow : Int) (dasharray : List ℚ) (oddLength : Bool)
    (patternCap : LinePatternCap) (n : Int) (stretch halfWidth : ℚ) :
    Nat → Int → Option (List Store)
  | 0, _ => some []
  | k + 1, y =>
    match rasterRowStores width nextRow dasharray oddLength patternCap n y stretch
        halfWidth with
    | none => none
    | some stores =>
      match bandStores width nextRow dasharray oddLength patternCap n stretch halfWidth k
          (y + 1) with
      | none => none
      | some rest => some (stores ++ rest)

/-- The stores made by a call of `addDash`, in order: none when the request overflows. -/
def addDashStores (s : LineAtlas) (dasharray : List ℚ) (patternCap : LinePatternCap) :
    Option (List Store) :=
  let n : Int := capN patternCap
  let dashheight : Int := 2 * n + 1
  if s.nextRow + dashheight > (s.height : Int) then some []
  else
    let length : ℚ := dashLength dasharray
    let stretch : ℚ := (s.width : ℚ) / length
    let halfWidth : ℚ := stretch * (1 / 2)
    let oddLength : Bool := dasharray.length % 2 == 1
    bandStores s.width s.nextRow dasharray oddLength patternCap n stretch halfWidth
      dashheight.toNat (-n)

/-- The image bytes after a list of stores. -/
def applyStores (data : Int → Nat) (stores : List Store) : Int → Nat :=
  stores.foldl (fun d st => Function.update d st.index st.value) data

/-- The sum `S_k` of the first `k` entries of a pattern. -/
def takeSum (dasharray : List ℚ) (k : Nat) : ℚ :=
  (dasharray.take k).sum

/-- What the walk state is at a column whose target `x / stretch` is `t`: with
`k = partIndex`, `1 ≤ k ≤ size`, `right` is `S_k` (or more, once the last entry of an
odd-length pattern has been consumed), and once the walk has moved (`k ≥ 2`) `left` is
`S_(k-1)`, which lies before the target. -/
def WalkAt (dasharray : List ℚ) (oddLength : Bool) (t : ℚ) (seg : Segment) : Prop :=
  1 ≤ seg.partIndex ∧ seg.partIndex ≤ dasharray.length ∧
  takeSum dasharray seg.partIndex ≤ seg.right ∧
  (seg.partIndex < dasharray.length ∨ oddLength = false →
    seg.right = takeSum dasharray seg.partIndex) ∧
  (2 ≤ seg.partIndex →
    seg.left = takeSum dasharray (seg.partIndex - 1) ∧
    takeSum dasharray (seg.partIndex - 1) < t) ∧
  (seg.partIndex = 1 →
    seg.left = if oddLength then 0 - dasharray.getLast?.getD 0 else 0)

/-- The calls `getDashPosition([1], Round)`, ..., `getDashPosition([j], Round)`: `j`
requests with different patterns. -/
def roundOps (j : Nat) : List Op :=
  (List.range j).map (fun (i : Nat) => Op.getDashPosition [(i : ℚ) + 1] LinePatternCap.Round)

/-- The row band of a call, when the call is a successful allocation: a
`getDashPosition` whose key is not cached and for which `addDash` returns a non-empty
position.  The band is the pair of the first row `nextRow` and `n`; its rows are
`[nextRow, nextRow + 2n + 1)`. -/
def stepBand (hc : Nat → ℚ → Nat) (st : LineAtlas × Context) : Op → Option (Int × Int)
  | Op.getDashPosition dasharray patternCap =>
    match st.1.positions.lookup (dashKey hc dasharray patternCap) with
    | some _ => none
    | none =>
      match addDash st.1 dasharray patternCap with
      | none => none
      | some (p, _) =>
        if p = LinePatternPos.empty then none else some (st.1.nextRow, capN patternCap)
  | Op.upload _ => none

/-- The row bands of the successful allocations of a sequence of calls, in order. -/
def runBands (hc : Nat → ℚ → Nat) : LineAtlas × Context → List Op → List (Int × Int)
  | _, [] => []
  | st, op :: ops =>
    match step hc st op with
    | none => []
    | some st1 =>
      match stepBand hc st op with
      | none => runBands hc st1 ops
      | some band => band :: runBands hc st1 ops

/-- Bands that follow one another without a gap from row `c` to row `c1`, each with `n`
0 or 7. -/
def Consecutive : Int → List (Int × Int) → Int → Prop
  | c, [], c1 => c = c1
  | c, band :: bands, c1 =>
    band.1 = c ∧ (band.2 = 0 ∨ band.2 = 7) ∧ Consecutive (c + (2 * band.2 + 1)) bands c1

/-- The finite values of a `float` (IEEE 754 binary32): `m * 2^e` with a significand of
at most 24 bits and `-149 ≤ e ≤ 104`. -/
def IsBinary32 (q : ℚ) : Prop :=
  ∃ m e : Int, |m| < 16777216 ∧ -149 ≤ e ∧ e ≤ 104 ∧ q = (m : ℚ) * (2 : ℚ) ^ e

/-- The form of `RowRange` up to the rounding of the two `float` fields: for integers
`startRow` and `n ∈ {0, 7}` with the rows `[startRow, startRow + 2n + 1)` inside the
atlas, `y` lies within `2^-23` of `(0.5 + startRow + n) / height` and `height` within
`2^-23` of `2n / height`.  Both values lie in `[0, 1)`, where a `float` is less than
`2^-24` away from the number it rounds. -/
def NearRowRange (height : Nat) (p : LinePatternPos) : Prop :=
  ∃ startRow n : Int, (n = 0 ∨ n = 7) ∧ 0 ≤ startRow ∧
    startRow + 2 * n + 1 ≤ (height : Int) ∧
    |p.y - ((1 / 2 : ℚ) + (startRow : ℚ) + (n : ℚ)) / (height : ℚ)| ≤ 1 / 8388608 ∧
    |p.height - (2 * (n : ℚ)) / (height : ℚ)| ≤ 1 / 8388608

/-- What it means for a call to keep its stores inside the image buffer: a
`getDashPosition` whose key is not cached runs `addDash`, and every store
`image.data[index + x] = ...` of that run computes `index + x` without overflow, as
`width * (nextRow + n + y) + x`, and has `0 ≤ index + x < width * height`.  A cache hit
and an `upload` store nothing. -/
def stepInImage (hc : Nat → ℚ → Nat) (st : LineAtlas × Context) : Op → Prop
  | Op.getDashPosition dasharray patternCap =>
    st.1.positions.lookup (dashKey hc dasharray patternCap) = none →
      ∃ stores, addDashStores st.1 dasharray patternCap = some stores ∧
        ∀ e ∈ stores,
          e.index = (st.1.width : Int) * (st.1.nextRow + capN patternCap + e.y) + e.x ∧
          0 ≤ e.index ∧ e.index < (st.1.width : Int) * (st.1.height : Int)
  | Op.upload _ => True

/-- A sequence of calls that runs to its end with every store of every call inside the
image buffer, so that no call of the sequence has undefined behaviour on the way: each
call `op` of the sequence, made in the state `st1` that the calls before it lead to,
keeps its stores inside the image. -/
def runInImage (hc : Nat → ℚ → Nat) (st : LineAtlas × Context) (ops : List Op) : Prop :=
  (∃ st2, run hc st ops = some st2) ∧
  ∀ (pre : List Op) (op : Op) (post : List Op) (st1 : LineAtlas × Context),
    ops = pre ++ op :: post → run hc st pre = some st1 → stepInImage hc st1 op

/-- Number of binary digits of `n`, the first argument bounding the number of
halvings. -/
def bitLengthLoop : Nat → Nat → Nat
  | 0, _ => 0
  | fuel + 1, n => if n = 0 then 0 else bitLengthLoop fuel (n / 2) + 1

/-- Number of binary digits of `n`: `2^(bitLength n - 1) ≤ n < 2^(bitLength n)` for
`n > 0`. -/
def bitLength (n : Nat) : Nat :=
  bitLengthLoop n n

/-- The power `2^e` for an integer exponent. -/
def pow2 (e : Int) : ℚ :=
  if 0 ≤ e then ((2 ^ e.toNat : Nat) : ℚ) else 1 / ((2 ^ (-e).toNat : Nat) : ℚ)

/-- The exponent `⌊log2 q⌋` of a positive rational: `2^e ≤ q < 2^(e+1)`. -/
def floorLog2 (q : ℚ) : Int :=
  let e : Int := (bitLength q.num.natAbs : Int) - (bitLength q.den : Int)
  if q < pow2 e then e - 1 else e

/-- Rounding to the nearest integer, ties to the even one. -/
def roundHalfEven (q : ℚ) : Int :=
  let f : Int := ⌊q⌋
  let r : ℚ := q - f
  if r < 1 / 2 then f
  else if 1 / 2 < r then f + 1
  else if f % 2 = 0 then f else f + 1

/-- Rounding of a real number to a binary floating-point format with `prec` significant
bits and least exponent `emin` (IEEE 754, round to nearest, ties to even): the unit in
the last place is `2^u` with `u = max (⌊log2 |q|⌋ - (prec - 1)) emin`.  Overflow to
infinity is not modelled. -/
def roundFloat (prec emin : Int) (q : ℚ) : ℚ :=
  if q = 0 then 0
  else
    let u : Int := max (floorLog2 |q| - (prec - 1)) emin
    (roundHalfEven (q / pow2 u) : ℚ) * pow2 u

/-- Rounding to a `float` (binary32). -/
def roundBinary32 (q : ℚ) : ℚ :=
  roundFloat 24 (-149) q

/-- Rounding to a `double` (binary64). -/
def roundBinary64 (q : ℚ) : ℚ :=
  roundFloat 53 (-1074) q

/-- The position that `addDash` returns for a request that fits (lines 111-114), with
the operations on `double` values rounded by `fld` and the conversions to `float`
rounded by `fl`: `0.5 + nextRow`, `... + n`, `... / height` and `2.0 * n`,
`... / height` are computed in `double`, the fields are `float`.  `length` is the
`float` of lines 52-55. -/
def positionR (fl fld : ℚ → ℚ) (nextRow n : Int) (height : Nat) (length : ℚ) :
    LinePatternPos :=
  { y := fl (fld (fld (fld ((1 / 2 : ℚ) + (nextRow : ℚ)) + (n : ℚ)) / (height : ℚ)))
    height := fl (fld (fld (2 * (n : ℚ)) / (height : ℚ)))
    width := length }

theorem isqrtLoop_spec : ∀ (fuel n : Nat), n ≤ fuel →
    isqrtLoop fuel n * isqrtLoop fuel n ≤ n ∧
      n < (isqrtLoop fuel n + 1) * (isqrtLoop fuel n + 1) := by
  intro fuel
  induction fuel with
  | zero =>
    intro n hn
    have h0 : n = 0 := by omega
    subst h0
    simp [isqrtLoop]
  | succ fuel ih =>
    intro n hn
    rw [isqrtLoop]
    by_cases h0 : n = 0
    · simp [h0]
    · simp only [h0, if_false]
      obtain ⟨h1, h2⟩ := ih (n / 4) (by omega)
      generalize isqrtLoop fuel (n / 4) = q at h1 h2 ⊢
      have h3 : 4 * (n / 4) ≤ n := by omega
      have h4 : n < 4 * (n / 4) + 4 := by omega
      split
      · rename_i h5
        exact ⟨h5, by nlinarith⟩
      · rename_i h5
        exact ⟨by nlinarith, by omega⟩

/-- The integer square root is the floor of the square root. -/
theorem isqrt_spec (n : Nat) : isqrt n * isqrt n ≤ n ∧ n < (isqrt n + 1) * (isqrt n + 1) :=
  isqrtLoop_spec n n (le_refl n)

/-- The model of `(int) sqrt(q)`: `truncSqrt q` is the floor of the real square root. -/
theorem truncSqrt_spec (q : ℚ) (hq : 0 ≤ q) :
    0 ≤ truncSqrt q ∧ ((truncSqrt q : Int) : ℝ) ≤ Real.sqrt (q : ℝ) ∧
      Real.sqrt (q : ℝ) < ((truncSqrt q : Int) : ℝ) + 1 := by
  obtain ⟨h1, h2⟩ := isqrt_spec ⌊q⌋.toNat
  have hfl : (0 : Int) ≤ ⌊q⌋ := Int.floor_nonneg.mpr hq
  have hn : ((⌊q⌋.toNat : Int)) = ⌊q⌋ := Int.toNat_of_nonneg hfl
  have hle : ((⌊q⌋.toNat : ℕ) : ℝ) ≤ (q : ℝ) := by
    have h3 : ((⌊q⌋ : Int) : ℚ) ≤ q := Int.floor_le q
    have h4 : ((⌊q⌋.toNat : ℕ) : ℚ) = ((⌊q⌋ : Int) : ℚ) := by exact_mod_cast hn
    have h5 : ((⌊q⌋.toNat : ℕ) : ℚ) ≤ q := by rw [h4]; exact h3
    exact_mod_cast h5
  have hlt : (q : ℝ) < ((⌊q⌋.toNat : ℕ) : ℝ) + 1 := by
    have h3 : q < ((⌊q⌋ : Int) : ℚ) + 1 := Int.lt_floor_add_one q
    have h4 : ((⌊q⌋.toNat : ℕ) : ℚ) = ((⌊q⌋ : Int) : ℚ) := by exact_mod_cast hn
    have h5 : q < ((⌊q⌋.toNat : ℕ) : ℚ) + 1 := by rw [h4]; exact h3
    exact_mod_cast h5
  have h1r : ((isqrt ⌊q⌋.toNat : ℕ) : ℝ) * (isqrt ⌊q⌋.toNat : ℕ) ≤ ((⌊q⌋.toNat : ℕ) : ℝ) := by
    exact_mod_cast h1
  have h2r : ((⌊q⌋.toNat : ℕ) : ℝ) + 1 ≤
      (((isqrt ⌊q⌋.toNat : ℕ) : ℝ) + 1) * (((isqrt ⌊q⌋.toNat : ℕ) : ℝ) + 1) := by
    have : ⌊q⌋.toNat + 1 ≤ (isqrt ⌊q⌋.toNat + 1) * (isqrt ⌊q⌋.toNat + 1) := h2
    exact_mod_cast this
  have hr0 : (0 : ℝ) ≤ ((isqrt ⌊q⌋.toNat : ℕ) : ℝ) := Nat.cast_nonneg _
  refine ⟨by simp [truncSqrt], ?_, ?_⟩
  · simp only [truncSqrt, Int.cast_natCast]
    apply Real.le_sqrt_of_sq_le
    nlinarith
  · simp only [truncSqrt, Int.cast_natCast]
    rw [Real.sqrt_lt' (by linarith)]
    nlinarith


/-- The model of `(int) (h - sqrt(q))`: `truncSubSqrt h q` is the real number
`h - sqrt q` truncated toward zero. -/
theorem truncSubSqrt_spec (h q : ℚ) (hq : 0 ≤ q) :
    truncSubSqrt h q =
      if 0 ≤ (h : ℝ) - Real.sqrt (q : ℝ) then ⌊(h : ℝ) - Real.sqrt (q : ℝ)⌋
      else ⌈(h : ℝ) - Real.sqrt (q : ℝ)⌉ := by
  obtain ⟨hm0, hm1, hm2⟩ := truncSqrt_spec q hq
  have hm0r : (0 : ℝ) ≤ ((truncSqrt q : Int) : ℝ) := by exact_mod_cast hm0
  have hs0 : 0 ≤ Real.sqrt (q : ℝ) := Real.sqrt_nonneg _
  have hqr : (0 : ℝ) ≤ (q : ℝ) := by exact_mod_cast hq
  unfold truncSubSqrt
  by_cases hA : 0 ≤ h ∧ q ≤ h * h
  · have hsh : Real.sqrt (q : ℝ) ≤ (h : ℝ) := by
      rw [Real.sqrt_le_iff]
      refine ⟨by exact_mod_cast hA.1, ?_⟩
      have : (q : ℝ) ≤ (h : ℝ) * (h : ℝ) := by exact_mod_cast hA.2
      nlinarith
    have hnn : 0 ≤ (h : ℝ) - Real.sqrt (q : ℝ) := by linarith
    simp only [hA, and_self, if_true, hnn]
    have hk1 : ((⌊h - ((truncSqrt q : Int) : ℚ)⌋ : Int) : ℝ) ≤ (h : ℝ) - ((truncSqrt q : Int) : ℝ) := by
      have := Int.floor_le (h - ((truncSqrt q : Int) : ℚ))
      exact_mod_cast this
    have hk2 : (h : ℝ) - ((truncSqrt q : Int) : ℝ) < ((⌊h - ((truncSqrt q : Int) : ℚ)⌋ : Int) : ℝ) + 1 := by
      have := Int.lt_floor_add_one (h - ((truncSqrt q : Int) : ℚ))
      exact_mod_cast this
    generalize ⌊h - ((truncSqrt q : Int) : ℚ)⌋ = k at hk1 hk2 ⊢
    by_cases hB : q ≤ (h - (k : ℚ)) * (h - (k : ℚ))
    · simp only [hB, if_true]
      symm
      rw [Int.floor_eq_iff]
      have hBr : (q : ℝ) ≤ ((h : ℝ) - (k : ℝ)) * ((h : ℝ) - (k : ℝ)) := by exact_mod_cast hB
      have : Real.sqrt (q : ℝ) ≤ (h : ℝ) - (k : ℝ) := by
        rw [Real.sqrt_le_iff]
        exact ⟨by linarith, by nlinarith⟩
      constructor <;> linarith
    · simp only [hB, if_false]
      symm
      rw [Int.floor_eq_iff]
      have hBr : ((h : ℝ) - (k : ℝ)) * ((h : ℝ) - (k : ℝ)) < (q : ℝ) := by
        have := lt_of_not_ge hB
        exact_mod_cast this
      have : (h : ℝ) - (k : ℝ) < Real.sqrt (q : ℝ) := by
        rw [Real.lt_sqrt (by linarith)]
        nlinarith
      push_cast
      constructor <;> linarith
  · have hsh : (h : ℝ) < Real.sqrt (q : ℝ) := by
      by_cases h0 : 0 ≤ h
      · have hq2 : h * h < q := by
          by_contra hc
          exact hA ⟨h0, le_of_not_lt hc⟩
        have hq2r : (h : ℝ) * (h : ℝ) < (q : ℝ) := by exact_mod_cast hq2
        rw [Real.lt_sqrt (by exact_mod_cast h0)]
        nlinarith
      · have : (h : ℝ) < 0 := by
          have := lt_of_not_ge h0
          exact_mod_cast this
        linarith
    have hneg : ¬ 0 ≤ (h : ℝ) - Real.sqrt (q : ℝ) := by linarith
    simp only [hA, if_false, hneg]
    have hk1 : ((⌊((truncSqrt q : Int) : ℚ) - h⌋ : Int) : ℝ) ≤ ((truncSqrt q : Int) : ℝ) - (h : ℝ) := by
      have := Int.floor_le (((truncSqrt q : Int) : ℚ) - h)
      exact_mod_cast this
    have hk2 : ((truncSqrt q : Int) : ℝ) - (h : ℝ) < ((⌊((truncSqrt q : Int) : ℚ) - h⌋ : Int) : ℝ) + 1 := by
      have := Int.lt_floor_add_one (((truncSqrt q : Int) : ℚ) - h)
      exact_mod_cast this
    generalize ⌊((truncSqrt q : Int) : ℚ) - h⌋ = k at hk1 hk2 ⊢
    by_cases hB : h + ((k : ℚ) + 1) ≤ 0 ∨ (h + ((k : ℚ) + 1)) * (h + ((k : ℚ) + 1)) ≤ q
    · simp only [hB, if_true]
      symm
      rw [Int.ceil_eq_iff]
      have : (h : ℝ) + ((k : ℝ) + 1) ≤ Real.sqrt (q : ℝ) := by
        rcases hB with hB | hB
        · have : (h : ℝ) + ((k : ℝ) + 1) ≤ 0 := by exact_mod_cast hB
          linarith
        · have hBr : ((h : ℝ) + ((k : ℝ) + 1)) * ((h : ℝ) + ((k : ℝ) + 1)) ≤ (q : ℝ) := by
            exact_mod_cast hB
          apply Real.le_sqrt_of_sq_le
          nlinarith
      push_cast
      constructor <;> linarith
    · simp only [hB, if_false]
      symm
      rw [Int.ceil_eq_iff]
      push_neg at hB
      have hB1 : 0 < (h : ℝ) + ((k : ℝ) + 1) := by exact_mod_cast hB.1
      have hB2 : (q : ℝ) < ((h : ℝ) + ((k : ℝ) + 1)) * ((h : ℝ) + ((k : ℝ) + 1)) := by
        exact_mod_cast hB.2
      have : Real.sqrt (q : ℝ) < (h : ℝ) + ((k : ℝ) + 1) := by
        rw [Real.sqrt_lt' hB1]
        nlinarith
      push_cast
      constructor <;> linarith

theorem lookup_emplace (m : List (Nat × LinePatternPos)) (k : Nat) (v : LinePatternPos) :
    (emplace m k v).1.lookup k = some (emplace m k v).2.1 := by
  unfold emplace
  cases hm : m.lookup k with
  | some old => simp [hm]
  | none => simp [List.lookup]

theorem capN_cases (cap : LinePatternCap) :
    2 * capN cap + 1 = if cap = LinePatternCap.Round then 15 else 1 := by
  cases cap <;> simp [capN]

theorem foldl_add_eq (l : List ℚ) (a : ℚ) :
    l.foldl (fun length part => length + part) a = a + l.sum := by
  induction l generalizing a with
  | nil => simp
  | cons b t ih => simp [ih, add_assoc]

theorem dashLength_eq_sum (dasharray : List ℚ) : dashLength dasharray = dasharray.sum := by
  simp [dashLength, foldl_add_eq]

theorem sum_pos_of_valid {dasharray : List ℚ} (hv : ValidPattern dasharray) :
    0 < dasharray.sum := by
  obtain ⟨hne, hpos⟩ := hv
  cases dasharray with
  | nil => exact absurd rfl hne
  | cons a t =>
    have ha : 0 < a := hpos a (by simp)
    have ht : 0 ≤ t.sum := List.sum_nonneg (fun x hx => le_of_lt (hpos x (by simp [hx])))
    simp only [List.sum_cons]
    linarith

theorem take_succ_sum (l : List ℚ) (p : Nat) (part : ℚ) (h : l[p]? = some part) :
    (l.take (p + 1)).sum = (l.take p).sum + part := by
  rw [List.take_succ, h]
  simp

/-- The walk of one column does not read past the end of a pattern of positive
lengths, provided the target lies before the end of the pattern. -/
theorem advanceLoop_some (dasharray : List ℚ) (oddLength : Bool) (target : ℚ)
    (hpos : ∀ d ∈ dasharray, 0 < d) (ht : target < dasharray.sum) :
    ∀ (fuel : Nat) (seg : Segment), seg.partIndex ≤ dasharray.length →
      dasharray.length - seg.partIndex ≤ fuel →
      (dasharray.take seg.partIndex).sum ≤ seg.right →
      ∃ seg1, advanceLoop dasharray oddLength target fuel seg = some seg1 ∧
        seg.partIndex ≤ seg1.partIndex ∧ seg1.partIndex ≤ dasharray.length ∧
        (dasharray.take seg1.partIndex).sum ≤ seg1.right := by
  intro fuel
  induction fuel with
  | zero =>
    intro seg hle hfuel hsum
    have hp : seg.partIndex = dasharray.length := by omega
    have hr : dasharray.sum ≤ seg.right := by
      rw [hp, List.take_length] at hsum
      exact hsum
    have hn : ¬ seg.right < target := by linarith
    exact ⟨seg, by simp [advanceLoop, hn], le_refl _, hle, hsum⟩
  | succ fuel ih =>
    intro seg hle hfuel hsum
    by_cases hlt : seg.right < target
    · have hp : seg.partIndex < dasharray.length := by
        rcases Nat.lt_or_ge seg.partIndex dasharray.length with h | h
        · exact h
        · have hp : seg.partIndex = dasharray.length := by omega
          rw [hp, List.take_length] at hsum
          linarith
      have hget : dasharray[seg.partIndex]? = some dasharray[seg.partIndex] :=
        List.getElem?_eq_getElem hp
      obtain ⟨front, hfront⟩ : ∃ front, dasharray.head? = some front := by
        cases dasharray with
        | nil => simp at hp
        | cons a t => exact ⟨a, rfl⟩
      have hfpos : 0 < front := hpos front (List.mem_of_mem_head? hfront)
      have hstep := take_succ_sum dasharray seg.partIndex _ hget
      obtain ⟨seg1, h1, h2, h3, h4⟩ := ih
        { left := seg.right
          right := if oddLength && seg.partIndex == dasharray.length - 1 then
            seg.right + dasharray[seg.partIndex] + front else seg.right + dasharray[seg.partIndex]
          partIndex := seg.partIndex + 1 }
        (by simpa using hp) (by simp only; omega)
        (by
          simp only [hstep]
          split <;> linarith)
      refine ⟨seg1, ?_, by simp only at h2; omega, h3, h4⟩
      rw [advanceLoop]
      simp only [hlt, if_true, hget, hfront]
      exact h1
    · exact ⟨seg, by simp [advanceLoop, hlt], le_refl _, hle, hsum⟩

/-- In a column `x < width` the walk target `x / stretch` lies before the end of the
pattern. -/
theorem target_lt_sum (width : Nat) (x : Int) (len : ℚ) (hlen : 0 < len) (hx0 : 0 ≤ x)
    (hx : x < (width : Int)) : (x : ℚ) / ((width : ℚ) / len) < len := by
  have hw : (0 : ℚ) < (width : ℚ) := by
    have : (0 : Int) < (width : Int) := by omega
    exact_mod_cast this
  have hxw : (x : ℚ) < (width : ℚ) := by exact_mod_cast hx
  rw [div_div_eq_mul_div, div_lt_iff₀ hw]
  nlinarith

theorem rowLoop_some (dasharray : List ℚ) (oddLength : Bool) (patternCap : LinePatternCap)
    (n y : Int) (halfWidth : ℚ) (index : Int) (width : Nat)
    (hv : ValidPattern dasharray) :
    ∀ (k : Nat) (x : Int) (seg : Segment) (data : Int → Nat), 0 ≤ x →
      x + (k : Int) = (width : Int) → seg.partIndex ≤ dasharray.length →
      (dasharray.take seg.partIndex).sum ≤ seg.right →
      ∃ data1, rowLoop dasharray oddLength patternCap n y ((width : ℚ) / dasharray.sum)
        halfWidth index k x seg data = some data1 := by
  intro k
  induction k with
  | zero => intro x seg data _ _ _ _; exact ⟨data, rfl⟩
  | succ k ih =>
    intro x seg data hx0 hxk hle hsum
    have hx : x < (width : Int) := by push_cast at hxk; omega
    obtain ⟨seg1, h1, _, h3, h4⟩ := advanceLoop_some dasharray oddLength
      ((x : ℚ) / ((width : ℚ) / dasharray.sum)) hv.2
      (target_lt_sum width x _ (sum_pos_of_valid hv) hx0 hx)
      (dasharray.length - seg.partIndex) seg hle (le_refl _) hsum
    obtain ⟨data1, hd⟩ := ih (x + 1) seg1
      (Function.update data (wrapInt32 (index + x))
        (clampByte (signedDistance patternCap n y x ((width : ℚ) / dasharray.sum) halfWidth
          seg1 + 128)))
      (by omega) (by push_cast at hxk ⊢; omega) h3 h4
    refine ⟨data1, ?_⟩
    rw [rowLoop]
    simp only [advance, h1]
    exact hd

theorem rasterRow_some (width : Nat) (nextRow : Int) (dasharray : List ℚ) (oddLength : Bool)
    (patternCap : LinePatternCap) (n y : Int) (halfWidth : ℚ) (data : Int → Nat)
    (hv : ValidPattern dasharray) :
    ∃ data1, rasterRow width nextRow dasharray oddLength patternCap n y
      ((width : ℚ) / dasharray.sum) halfWidth data = some data1 := by
  obtain ⟨hne, hpos⟩ := hv
  cases hd : dasharray with
  | nil => exact absurd hd hne
  | cons a t =>
    have hv1 : ValidPattern (a :: t) := hd ▸ ⟨hne, hpos⟩
    obtain ⟨last, hlast⟩ : ∃ last, (a :: t).getLast? = some last :=
      ⟨(a :: t).getLast (by simp), List.getLast?_eq_getLast _ _⟩
    obtain ⟨data1, h1⟩ := rowLoop_some (a :: t) oddLength patternCap n y halfWidth
      (wrapInt32 ((width : Int) * (nextRow + n + y))) width hv1 width 0
      { left := if oddLength then 0 - last else 0, right := a, partIndex := 1 } data
      (le_refl _) (by simp) (by simp) (by simp)
    refine ⟨data1, ?_⟩
    unfold rasterRow
    simp only [hlast, List.getElem?_cons_zero]
    exact h1

theorem bandLoop_some (width : Nat) (nextRow : Int) (dasharray : List ℚ) (oddLength : Bool)
    (patternCap : LinePatternCap) (n : Int) (halfWidth : ℚ) (hv : ValidPattern dasharray) :
    ∀ (k : Nat) (y : Int) (data : Int → Nat),
      ∃ data1, bandLoop width nextRow dasharray oddLength patternCap n
        ((width : ℚ) / dasharray.sum) halfWidth k y data = some data1 := by
  intro k
  induction k with
  | zero => intro y data; exact ⟨data, rfl⟩
  | succ k ih =>
    intro y data
    obtain ⟨d1, h1⟩ := rasterRow_some width nextRow dasharray oddLength patternCap n y
      halfWidth data hv
    obtain ⟨d2, h2⟩ := ih (y + 1) d1
    refine ⟨d2, ?_⟩
    rw [bandLoop]
    simp only [h1]
    exact h2

/-- A request that overflows: `addDash` logs the warning and returns the empty
position; nothing else changes. -/
theorem addDash_overflow_eq (s : LineAtlas) (dasharray : List ℚ) (patternCap : LinePatternCap)
    (h : s.nextRow + (2 * capN patternCap + 1) > (s.height : Int)) :
    addDash s dasharray patternCap =
      some (LinePatternPos.empty, { s with log := s.log ++ [overflowWarning] }) := by
  unfold addDash
  simp only [h, if_true]

/-- A request that fits: `addDash` returns the position computed from the cursor and
moves the cursor on (the new image bytes are `data`). -/
theorem addDash_fits (s : LineAtlas) (dasharray : List ℚ) (patternCap : LinePatternCap)
    (hv : ValidPattern dasharray)
    (hfit : s.nextRow + (2 * capN patternCap + 1) ≤ (s.height : Int)) :
    ∃ data, addDash s dasharray patternCap = some
      ({ y := ((1 / 2 : ℚ) + (s.nextRow : ℚ) + (capN patternCap : ℚ)) / (s.height : ℚ)
         height := (2 * (capN patternCap : ℚ)) / (s.height : ℚ)
         width := dasharray.sum },
       { s with
         image := { s.image with data := data }
         nextRow := s.nextRow + (2 * capN patternCap + 1)
         dirty := true }) := by
  obtain ⟨data, hd⟩ := bandLoop_some s.width s.nextRow dasharray
    (dasharray.length % 2 == 1) patternCap (capN patternCap)
    ((s.width : ℚ) / dasharray.sum * (1 / 2)) hv (2 * capN patternCap + 1).toNat
    (-capN patternCap) s.image.data
  refine ⟨data, ?_⟩
  have hno : ¬ s.nextRow + (2 * capN patternCap + 1) > (s.height : Int) := by omega
  unfold addDash
  simp only [hno, if_false, dashLength_eq_sum, hd]

/-- A cache miss runs `addDash` and stores its value under the key. -/
theorem getDashPosition_miss (hc : Nat → ℚ → Nat) (s : LineAtlas) (dasharray : List ℚ)
    (patternCap : LinePatternCap) (value : LinePatternPos) (s1 : LineAtlas)
    (hmiss : s.positions.lookup (dashKey hc dasharray patternCap) = none)
    (hadd : addDash s dasharray patternCap = some (value, s1))
    (hpos : s1.positions = s.positions) :
    getDashPosition hc s dasharray patternCap = some (value,
      { s1 with positions := (dashKey hc dasharray patternCap, value) :: s.positions }) := by
  unfold getDashPosition
  simp only [hmiss, hadd, emplace, hpos]

/-- A cache hit returns the stored value and changes nothing. -/
theorem getDashPosition_hit (hc : Nat → ℚ → Nat) (s : LineAtlas) (dasharray : List ℚ)
    (patternCap : LinePatternCap) (position : LinePatternPos)
    (hhit : s.positions.lookup (dashKey hc dasharray patternCap) = some position) :
    getDashPosition hc s dasharray patternCap = some (position, s) := by
  unfold getDashPosition
  simp only [hhit]

theorem validPattern_two_two : ValidPattern [2, 2] := by
  refine ⟨by simp, ?_⟩
  intro d hd
  simp at hd
  subst hd
  norm_num

/-- A miss that fits: the returned position and the atlas afterwards. -/
theorem getDashPosition_fits (hc : Nat → ℚ → Nat) (s : LineAtlas) (dasharray : List ℚ)
    (patternCap : LinePatternCap) (hv : ValidPattern dasharray)
    (hmiss : s.positions.lookup (dashKey hc dasharray patternCap) = none)
    (hfit : s.nextRow + (2 * capN patternCap + 1) ≤ (s.height : Int)) :
    ∃ s1, getDashPosition hc s dasharray patternCap = some
        ({ y := ((1 / 2 : ℚ) + (s.nextRow : ℚ) + (capN patternCap : ℚ)) / (s.height : ℚ)
           height := (2 * (capN patternCap : ℚ)) / (s.height : ℚ)
           width := dasharray.sum }, s1) ∧
      s1.nextRow = s.nextRow + (2 * capN patternCap + 1) ∧ s1.dirty = true ∧
      s1.height = s.height ∧ s1.width = s.width ∧ s1.texture = s.texture ∧
      s1.log = s.log ∧
      s1.positions = (dashKey hc dasharray patternCap,
        { y := ((1 / 2 : ℚ) + (s.nextRow : ℚ) + (capN patternCap : ℚ)) / (s.height : ℚ)
          height := (2 * (capN patternCap : ℚ)) / (s.height : ℚ)
          width := dasharray.sum }) :: s.positions := by
  obtain ⟨data, hd⟩ := addDash_fits s dasharray patternCap hv hfit
  exact ⟨_, getDashPosition_miss hc s dasharray patternCap _ _ hmiss hd rfl, rfl, rfl, rfl,
    rfl, rfl, rfl, rfl⟩

/-- The end-to-end scenario of the spec: the first lookup of `[2, 2]` with a round cap on
a fresh 256 × 64 atlas. -/
theorem scenario_first (hc : Nat → ℚ → Nat) :
    ∃ s1, getDashPosition hc (LineAtlas.create 256 64) [2, 2] LinePatternCap.Round =
      some ({ width := 4, height := 14 / 64, y := (15 / 2) / 64 }, s1) ∧ s1.nextRow = 15 := by
  obtain ⟨s1, h1, h2, _⟩ := getDashPosition_fits hc (LineAtlas.create 256 64) [2, 2]
    LinePatternCap.Round validPattern_two_two rfl (by decide)
  refine ⟨s1, ?_, ?_⟩
  · rw [h1]
    norm_num [capN, LineAtlas.create]
  · rw [h2]
    simp [capN, LineAtlas.create]

/-- The two ways `addDash` returns. -/
theorem addDash_cases (s : LineAtlas) (dasharray : List ℚ) (patternCap : LinePatternCap)
    (p : LinePatternPos) (s1 : LineAtlas) (h : addDash s dasharray patternCap = some (p, s1)) :
    (s.nextRow + (2 * capN patternCap + 1) > (s.height : Int) ∧ p = LinePatternPos.empty ∧
      s1 = { s with log := s.log ++ [overflowWarning] }) ∨
    (s.nextRow + (2 * capN patternCap + 1) ≤ (s.height : Int) ∧ ∃ data,
      p = { y := ((1 / 2 : ℚ) + (s.nextRow : ℚ) + (capN patternCap : ℚ)) / (s.height : ℚ)
            height := (2 * (capN patternCap : ℚ)) / (s.height : ℚ)
            width := dasharray.sum } ∧
      s1 = { s with
             image := { s.image with data := data }
             nextRow := s.nextRow + (2 * capN patternCap + 1)
             dirty := true }) := by
  by_cases hov : s.nextRow + (2 * capN patternCap + 1) > (s.height : Int)
  · left
    rw [addDash_overflow_eq s dasharray patternCap hov] at h
    simp only [Option.some.injEq, Prod.mk.injEq] at h
    exact ⟨hov, h.1.symm, h.2.symm⟩
  · right
    refine ⟨by omega, ?_⟩
    unfold addDash at h
    simp only [hov, if_false, dashLength_eq_sum] at h
    split at h
    · exact absurd h (by simp)
    · rename_i data _
      simp only [Option.some.injEq, Prod.mk.injEq] at h
      exact ⟨data, h.1.symm, h.2.symm⟩

/-- The three ways `getDashPosition` returns: a hit, a miss that overflows, a miss
that allocates. -/
theorem getDashPosition_cases (hc : Nat → ℚ → Nat) (s : LineAtlas) (dasharray : List ℚ)
    (patternCap : LinePatternCap) (p : LinePatternPos) (s1 : LineAtlas)
    (h : getDashPosition hc s dasharray patternCap = some (p, s1)) :
    (s.positions.lookup (dashKey hc dasharray patternCap) = some p ∧ s1 = s) ∨
    (s.positions.lookup (dashKey hc dasharray patternCap) = none ∧
      s.nextRow + (2 * capN patternCap + 1) > (s.height : Int) ∧ p = LinePatternPos.empty ∧
      s1 = { s with
             log := s.log ++ [overflowWarning]
             positions := (dashKey hc dasharray patternCap, LinePatternPos.empty) ::
               s.positions }) ∨
    (s.positions.lookup (dashKey hc dasharray patternCap) = none ∧
      s.nextRow + (2 * capN patternCap + 1) ≤ (s.height : Int) ∧ ∃ data,
      p = { y := ((1 / 2 : ℚ) + (s.nextRow : ℚ) + (capN patternCap : ℚ)) / (s.height : ℚ)
            height := (2 * (capN patternCap : ℚ)) / (s.height : ℚ)
            width := dasharray.sum } ∧
      s1 = { s with
             image := { s.image with data := data }
             nextRow := s.nextRow + (2 * capN patternCap + 1)
             dirty := true
             positions := (dashKey hc dasharray patternCap, p) :: s.positions }) := by
  cases hl : s.positions.lookup (dashKey hc dasharray patternCap) with
  | some pos =>
    left
    rw [getDashPosition_hit hc s dasharray patternCap pos hl] at h
    simp only [Option.some.injEq, Prod.mk.injEq] at h
    exact ⟨by rw [h.1], h.2.symm⟩
  | none =>
    right
    cases ha : addDash s dasharray patternCap with
    | none =>
      unfold getDashPosition at h
      simp [hl, ha] at h
    | some r =>
      obtain ⟨value, s0⟩ := r
      rcases addDash_cases s dasharray patternCap value s0 ha with ⟨hov, hp, hs⟩ | ⟨hfit, data, hp, hs⟩
      · left
        subst hs
        rw [getDashPosition_miss hc s dasharray patternCap value _ hl ha rfl] at h
        simp only [Option.some.injEq, Prod.mk.injEq] at h
        subst hp
        exact ⟨rfl, hov, h.1.symm, h.2.symm⟩
      · right
        subst hs
        rw [getDashPosition_miss hc s dasharray patternCap value _ hl ha rfl] at h
        simp only [Option.some.injEq, Prod.mk.injEq] at h
        obtain ⟨h1, h2⟩ := h
        subst h1
        exact ⟨rfl, hfit, data, hp, h2.symm⟩

/-- Repeating a lookup whose key is in the map returns the stored value every time and
changes nothing. -/
theorem lookups_hit (hc : Nat → ℚ → Nat) (s : LineAtlas) (dasharray : List ℚ)
    (patternCap : LinePatternCap) (position : LinePatternPos)
    (hhit : s.positions.lookup (dashKey hc dasharray patternCap) = some position) (k : Nat) :
    lookups hc dasharray patternCap k s = some (List.replicate k position, s) := by
  induction k with
  | zero => rfl
  | succ k ih =>
    rw [lookups, getDashPosition_hit hc s dasharray patternCap position hhit]
    simp only [ih, List.replicate_succ]

/-- A miss that overflows stores the empty position under the key. -/
theorem getDashPosition_overflow (hc : Nat → ℚ → Nat) (s : LineAtlas) (dasharray : List ℚ)
    (patternCap : LinePatternCap)
    (hmiss : s.positions.lookup (dashKey hc dasharray patternCap) = none)
    (hov : s.nextRow + (2 * capN patternCap + 1) > (s.height : Int)) :
    getDashPosition hc s dasharray patternCap = some (LinePatternPos.empty,
      { s with
        log := s.log ++ [overflowWarning]
        positions := (dashKey hc dasharray patternCap, LinePatternPos.empty) ::
          s.positions }) :=
  getDashPosition_miss hc s dasharray patternCap _ _ hmiss
    (addDash_overflow_eq s dasharray patternCap hov) rfl

/-- The value of `bind` when no texture exists yet: `createTexture`, then `bindTexture`. -/
theorem bind_none (s : LineAtlas) (context : Context) (unit : TextureUnit)
    (ht : s.texture = none) :
    bind s context unit =
      ({ s with texture := some context.nextTexture, dirty := false },
       { calls := context.calls ++ [GLCall.createTexture s.image unit,
           GLCall.bindTexture context.nextTexture unit TextureFilter.Linear TextureMipMap.No
             TextureWrap.Repeat TextureWrap.Clamp]
         nextTexture := context.nextTexture + 1 }) := by
  simp [bind, ht, Context.createTexture, Context.bindTexture]

/-- The value of `bind` when a texture exists and the atlas is dirty: `updateTexture`,
then `bindTexture`. -/
theorem bind_some_dirty (s : LineAtlas) (context : Context) (unit : TextureUnit) (t : Texture)
    (ht : s.texture = some t) (hd : s.dirty = true) :
    bind s context unit =
      ({ s with dirty := false },
       { context with
         calls := context.calls ++ [GLCall.updateTexture t s.image unit,
           GLCall.bindTexture t unit TextureFilter.Linear TextureMipMap.No
             TextureWrap.Repeat TextureWrap.Clamp] }) := by
  simp [bind, ht, hd, Context.updateTexture, Context.bindTexture]

/-- The three ways `upload` goes. -/
theorem upload_cases (s : LineAtlas) (context : Context) (unit : TextureUnit) :
    (s.dirty = false ∧ upload s context unit = (s, context)) ∨
    (s.dirty = true ∧ s.texture = none ∧ upload s context unit =
      ({ s with texture := some context.nextTexture, dirty := false },
       { calls := context.calls ++ [GLCall.createTexture s.image unit,
           GLCall.bindTexture context.nextTexture unit TextureFilter.Linear TextureMipMap.No
             TextureWrap.Repeat TextureWrap.Clamp]
         nextTexture := context.nextTexture + 1 })) ∨
    (s.dirty = true ∧ ∃ t, s.texture = some t ∧ upload s context unit =
      ({ s with dirty := false },
       { context with
         calls := context.calls ++ [GLCall.updateTexture t s.image unit,
           GLCall.bindTexture t unit TextureFilter.Linear TextureMipMap.No
             TextureWrap.Repeat TextureWrap.Clamp] })) := by
  by_cases hd : s.dirty = true
  · right
    obtain ht | ⟨t, ht⟩ : s.texture = none ∨ ∃ t, s.texture = some t := by
      cases s.texture <;> simp
    · left
      exact ⟨hd, ht, by rw [upload, if_pos hd]; exact bind_none s context unit ht⟩
    · right
      exact ⟨hd, t, ht, by rw [upload, if_pos hd]; exact bind_some_dirty s context unit t ht hd⟩
  · left
    exact ⟨by simpa using hd, by rw [upload, if_neg hd]⟩

/-- The upload step touches only the dirty flag and the texture handle. -/
theorem upload_frame (s : LineAtlas) (context : Context) (unit : TextureUnit) :
    (upload s context unit).1.nextRow = s.nextRow ∧
    (upload s context unit).1.positions = s.positions ∧
    (upload s context unit).1.image = s.image ∧
    (upload s context unit).1.height = s.height ∧
    (upload s context unit).1.width = s.width ∧
    (upload s context unit).1.log = s.log := by
  rcases upload_cases s context unit with ⟨_, h⟩ | ⟨_, _, h⟩ | ⟨_, t, _, h⟩ <;>
    rw [h] <;> exact ⟨rfl, rfl, rfl, rfl, rfl, rfl⟩

/-- A key that is in the map stays in the map, with the same value, whatever is called. -/
theorem step_lookup (hc : Nat → ℚ → Nat) (st st1 : LineAtlas × Context) (op : Op)
    (key : Nat) (position : LinePatternPos) (hstep : step hc st op = some st1)
    (hk : st.1.positions.lookup key = some position) :
    st1.1.positions.lookup key = some position := by
  cases op with
  | upload unit =>
    simp only [step, Option.some.injEq] at hstep
    subst hstep
    rw [(upload_frame st.1 st.2 unit).2.1]
    exact hk
  | getDashPosition dasharray patternCap =>
    simp only [step] at hstep
    cases hg : getDashPosition hc st.1 dasharray patternCap with
    | none => simp [hg] at hstep
    | some r =>
      obtain ⟨p, s1⟩ := r
      simp only [hg, Option.some.injEq] at hstep
      subst hstep
      rcases getDashPosition_cases hc st.1 dasharray patternCap p s1 hg with
        ⟨_, hs⟩ | ⟨hmiss, _, _, hs⟩ | ⟨hmiss, _, _, _, hs⟩
      · subst hs; exact hk
      · subst hs
        have hne : (key == dashKey hc dasharray patternCap) = false := by
          rw [beq_eq_false_iff_ne]
          intro he; rw [he, hmiss] at hk; exact absurd hk (by simp)
        simp only [List.lookup_cons, hne]
        exact hk
      · subst hs
        have hne : (key == dashKey hc dasharray patternCap) = false := by
          rw [beq_eq_false_iff_ne]
          intro he; rw [he, hmiss] at hk; exact absurd hk (by simp)
        simp only [List.lookup_cons, hne]
        exact hk

theorem run_lookup (hc : Nat → ℚ → Nat) (key : Nat) (position : LinePatternPos) :
    ∀ (ops : List Op) (st st1 : LineAtlas × Context), run hc st ops = some st1 →
      st.1.positions.lookup key = some position →
      st1.1.positions.lookup key = some position := by
  intro ops
  induction ops with
  | nil =>
    intro st st1 hrun hk
    simp only [run, Option.some.injEq] at hrun
    subst hrun
    exact hk
  | cons op ops ih =>
    intro st st1 hrun hk
    rw [run] at hrun
    cases hs : step hc st op with
    | none => simp [hs] at hrun
    | some st2 =>
      simp only [hs] at hrun
      exact ih st2 st1 hrun (step_lookup hc st st2 op key position hs hk)

/-- Lookups in a row of a pattern whose allocation overflows: the first stores the empty
position and logs the warning, the others are answered from the map. -/
theorem lookups_overflow (hc : Nat → ℚ → Nat) (s : LineAtlas) (dasharray : List ℚ)
    (patternCap : LinePatternCap)
    (hmiss : s.positions.lookup (dashKey hc dasharray patternCap) = none)
    (hov : s.nextRow + (2 * capN patternCap + 1) > (s.height : Int)) (k : Nat) :
    lookups hc dasharray patternCap (k + 1) s =
      some (List.replicate (k + 1) LinePatternPos.empty,
        { s with
          log := s.log ++ [overflowWarning]
          positions := (dashKey hc dasharray patternCap, LinePatternPos.empty) ::
            s.positions }) := by
  rw [lookups, getDashPosition_overflow hc s dasharray patternCap hmiss hov]
  simp only
  rw [lookups_hit hc _ dasharray patternCap LinePatternPos.empty (by simp [List.lookup]) k]
  rfl

/-- After a call has returned, the same call returns the same position and leaves the
atlas as it is. -/
theorem getDashPosition_again (hc : Nat → ℚ → Nat) (s : LineAtlas) (dasharray : List ℚ)
    (patternCap : LinePatternCap) (p1 : LinePatternPos) (s1 : LineAtlas)
    (h : getDashPosition hc s dasharray patternCap = some (p1, s1)) :
    getDashPosition hc s1 dasharray patternCap = some (p1, s1) := by
  unfold getDashPosition at h
  cases hl : s.positions.lookup (dashKey hc dasharray patternCap) with
  | some pos =>
    simp only [hl] at h
    cases h
    simp [getDashPosition, hl]
  | none =>
    simp only [hl] at h
    cases ha : addDash s dasharray patternCap with
    | none => simp [ha] at h
    | some r =>
      obtain ⟨value, s0⟩ := r
      simp only [ha] at h
      cases h
      simp [getDashPosition, lookup_emplace]

theorem capN_nonneg (cap : LinePatternCap) : 0 ≤ capN cap := by
  cases cap <;> simp [capN]

theorem capN_eq (cap : LinePatternCap) : capN cap = 0 ∨ capN cap = 7 := by
  cases cap <;> simp [capN]

/-- A property that holds before a sequence of calls and is kept by every call holds
after it. -/
theorem run_invariant (hc : Nat → ℚ → Nat) (P : LineAtlas × Context → Prop)
    (hstep : ∀ st op st1, P st → step hc st op = some st1 → P st1) :
    ∀ (ops : List Op) (st st1 : LineAtlas × Context), P st → run hc st ops = some st1 →
      P st1 := by
  intro ops
  induction ops with
  | nil =>
    intro st st1 hp hrun
    simp only [run, Option.some.injEq] at hrun
    subst hrun
    exact hp
  | cons op ops ih =>
    intro st st1 hp hrun
    rw [run] at hrun
    cases hs : step hc st op with
    | none => simp [hs] at hrun
    | some st2 =>
      simp only [hs] at hrun
      exact ih st2 st1 (hstep st op st2 hp hs) hrun

/-- Running two sequences one after the other. -/
theorem run_append (hc : Nat → ℚ → Nat) :
    ∀ (ops1 ops2 : List Op) (st : LineAtlas × Context),
      run hc st (ops1 ++ ops2) =
        match run hc st ops1 with
        | none => none
        | some st1 => run hc st1 ops2 := by
  intro ops1
  induction ops1 with
  | nil => intro ops2 st; rfl
  | cons op ops ih =>
    intro ops2 st
    simp only [List.cons_append, run]
    cases hs : step hc st op with
    | none => rfl
    | some st2 => exact ih ops2 st2

/-- What `getDashPosition` does to the cursor and the height. -/
theorem getDashPosition_cursor (hc : Nat → ℚ → Nat) (s : LineAtlas) (dasharray : List ℚ)
    (patternCap : LinePatternCap) (p : LinePatternPos) (s1 : LineAtlas)
    (h : getDashPosition hc s dasharray patternCap = some (p, s1)) :
    s1.height = s.height ∧ s.nextRow ≤ s1.nextRow ∧
      (s.nextRow ≤ (s.height : Int) → s1.nextRow ≤ (s1.height : Int)) := by
  have hn := capN_nonneg patternCap
  rcases getDashPosition_cases hc s dasharray patternCap p s1 h with
    ⟨_, hs⟩ | ⟨_, _, _, hs⟩ | ⟨_, hfit, _, _, hs⟩
  · subst hs; exact ⟨rfl, le_refl _, fun hle => hle⟩
  · subst hs; exact ⟨rfl, le_refl _, fun hle => hle⟩
  · subst hs
    refine ⟨rfl, ?_, fun _ => hfit⟩
    show s.nextRow ≤ s.nextRow + (2 * capN patternCap + 1)
    omega

/-- What one call does to the cursor and the height. -/
theorem step_cursor (hc : Nat → ℚ → Nat) (st st1 : LineAtlas × Context) (op : Op)
    (hs : step hc st op = some st1) :
    st1.1.height = st.1.height ∧ st.1.nextRow ≤ st1.1.nextRow ∧
      (st.1.nextRow ≤ (st.1.height : Int) → st1.1.nextRow ≤ (st1.1.height : Int)) := by
  cases op with
  | upload unit =>
    simp only [step, Option.some.injEq] at hs
    subst hs
    obtain ⟨h1, _, _, h4, _⟩ := upload_frame st.1 st.2 unit
    rw [h1, h4]
    exact ⟨rfl, le_refl _, fun hle => hle⟩
  | getDashPosition dasharray patternCap =>
    simp only [step] at hs
    cases hg : getDashPosition hc st.1 dasharray patternCap with
    | none => simp [hg] at hs
    | some r =>
      obtain ⟨p, s1⟩ := r
      simp only [hg, Option.some.injEq] at hs
      subst hs
      exact getDashPosition_cursor hc st.1 dasharray patternCap p s1 hg

/-- In every reachable state the cursor lies between 0 and the height the atlas was
constructed with. -/
theorem reachable_cursor (hc : Nat → ℚ → Nat) (w h : Nat) (st : LineAtlas × Context)
    (hr : Reachable hc w h st) :
    st.1.height = h ∧ 0 ≤ st.1.nextRow ∧ st.1.nextRow ≤ (st.1.height : Int) := by
  obtain ⟨ops, hrun⟩ := hr
  refine run_invariant hc
    (fun st => st.1.height = h ∧ 0 ≤ st.1.nextRow ∧ st.1.nextRow ≤ (st.1.height : Int))
    ?_ ops _ st ?_ hrun
  · intro st0 op st1 hp hs
    obtain ⟨h1, h2, h3⟩ := step_cursor hc st0 st1 op hs
    exact ⟨by rw [h1]; exact hp.1, le_trans hp.2.1 h2, h3 hp.2.2⟩
  · exact ⟨rfl, le_refl _, by simp [LineAtlas.create]⟩

/-- The calls of the scenario of the spec, followed by an upload, run to a state with the
cursor at 15. -/
theorem scenario_reachable (hc : Nat → ℚ → Nat) :
    ∃ st, run hc (LineAtlas.create 256 64, Context.fresh)
        [Op.getDashPosition [2, 2] LinePatternCap.Round,
         Op.getDashPosition [2, 2] LinePatternCap.Round, Op.upload 0] = some st ∧
      st.1.nextRow = 15 := by
  obtain ⟨s1, h1, h2⟩ := scenario_first hc
  have h3 := getDashPosition_again hc _ _ _ _ _ h1
  refine ⟨upload s1 Context.fresh 0, ?_, ?_⟩
  · simp only [run, step, h1, h3]
  · rw [(upload_frame s1 Context.fresh 0).1, h2]

/-- The empty position never has a row range inside the atlas. -/
theorem not_rowRange_empty (h : Nat) : ¬ RowRange h LinePatternPos.empty := by
  rintro ⟨startRow, n, hn, h0, hle, hy, _⟩
  have hh : (0 : ℚ) < (h : ℚ) := by
    have : (0 : Int) < (h : Int) := by omega
    exact_mod_cast this
  simp only [LinePatternPos.empty] at hy
  have hnum : (1 / 2 : ℚ) + (startRow : ℚ) + (n : ℚ) = 0 := by
    rcases div_eq_zero_iff.mp hy.symm with h1 | h1
    · exact h1
    · exact absurd h1 (ne_of_gt hh)
  have h2 : ((2 * startRow + 2 * n + 1 : Int) : ℚ) = 0 := by
    push_cast
    linarith
  have h3 : (2 * startRow + 2 * n + 1 : Int) = 0 := by exact_mod_cast h2
  omega

/-- What `getDashPosition` does to the map: nothing, or one new entry that is the empty
position or has its row range between the old cursor and the new one. -/
theorem getDashPosition_range (hc : Nat → ℚ → Nat) (s : LineAtlas) (dasharray : List ℚ)
    (patternCap : LinePatternCap) (p : LinePatternPos) (s1 : LineAtlas) (h : Nat)
    (hg : getDashPosition hc s dasharray patternCap = some (p, s1))
    (hh : s.height = h) (h0 : 0 ≤ s.nextRow)
    (hinv : ∀ e ∈ s.positions, e.2 = LinePatternPos.empty ∨ RowRange h e.2) :
    ∀ e ∈ s1.positions, e.2 = LinePatternPos.empty ∨ RowRange h e.2 := by
  rcases getDashPosition_cases hc s dasharray patternCap p s1 hg with
    ⟨_, hs⟩ | ⟨_, _, _, hs⟩ | ⟨_, hfit, data, hp, hs⟩
  · subst hs; exact hinv
  · subst hs
    intro e he
    simp only [List.mem_cons] at he
    rcases he with he | he
    · left; rw [he]
    · exact hinv e he
  · subst hs
    intro e he
    simp only [List.mem_cons] at he
    rcases he with he | he
    · right
      rw [he, hp]
      refine ⟨s.nextRow, capN patternCap, capN_eq patternCap, h0, ?_, ?_, ?_⟩
      · rw [← hh]; omega
      · rw [← hh]
      · rw [← hh]
    · exact hinv e he

/-- In every reachable state every stored position is the empty position or has its row
range inside the atlas. -/
theorem reachable_range (hc : Nat → ℚ → Nat) (w h : Nat) (st : LineAtlas × Context)
    (hr : Reachable hc w h st) :
    ∀ e ∈ st.1.positions, e.2 = LinePatternPos.empty ∨ RowRange h e.2 := by
  obtain ⟨ops, hrun⟩ := hr
  have key := run_invariant hc
    (fun st => (st.1.height = h ∧ 0 ≤ st.1.nextRow) ∧
      ∀ e ∈ st.1.positions, e.2 = LinePatternPos.empty ∨ RowRange h e.2)
    ?_ ops _ st ?_ hrun
  · exact key.2
  · intro st0 op st1 hp hs
    obtain ⟨h1, h2, _⟩ := step_cursor hc st0 st1 op hs
    refine ⟨⟨by rw [h1]; exact hp.1.1, le_trans hp.1.2 h2⟩, ?_⟩
    cases op with
    | upload unit =>
      simp only [step, Option.some.injEq] at hs
      subst hs
      rw [(upload_frame st0.1 st0.2 unit).2.1]
      exact hp.2
    | getDashPosition dasharray patternCap =>
      simp only [step] at hs
      cases hg : getDashPosition hc st0.1 dasharray patternCap with
      | none => simp [hg] at hs
      | some r =>
        obtain ⟨p, s1⟩ := r
        simp only [hg, Option.some.injEq] at hs
        subst hs
        exact getDashPosition_range hc st0.1 dasharray patternCap p s1 h hg hp.1.1 hp.1.2 hp.2
  · exact ⟨⟨rfl, le_refl _⟩, by simp [LineAtlas.create]⟩

/-- One overflowing lookup on a fresh 256 × 10 atlas runs to a state whose map holds the
empty position. -/
theorem overflow_reachable (hc : Nat → ℚ → Nat) :
    ∃ st, run hc (LineAtlas.create 256 10, Context.fresh)
        [Op.getDashPosition [2, 2] LinePatternCap.Round] = some st ∧
      st.1.positions = [(dashKey hc [2, 2] LinePatternCap.Round, LinePatternPos.empty)] := by
  have h1 := getDashPosition_overflow hc (LineAtlas.create 256 10) [2, 2]
    LinePatternCap.Round rfl (by decide)
  refine ⟨({ LineAtlas.create 256 10 with
      log := (LineAtlas.create 256 10).log ++ [overflowWarning]
      positions := (dashKey hc [2, 2] LinePatternCap.Round, LinePatternPos.empty) ::
        (LineAtlas.create 256 10).positions }, Context.fresh), ?_, ?_⟩
  · simp only [run, step, h1]
  · rfl

/-- The `y` of an allocated position is not zero, and is positive when the cursor is not
negative. -/
theorem alloc_y (nextRow n : Int) (height : Nat) (hh : 0 < height) (hn : 0 ≤ n) :
    ((1 / 2 : ℚ) + (nextRow : ℚ) + (n : ℚ)) / (height : ℚ) ≠ 0 ∧
    (0 ≤ nextRow → 0 < ((1 / 2 : ℚ) + (nextRow : ℚ) + (n : ℚ)) / (height : ℚ)) := by
  have hh1 : (0 : ℚ) < (height : ℚ) := by exact_mod_cast hh
  constructor
  · intro h
    rcases div_eq_zero_iff.mp h with h1 | h1
    · have h2 : ((2 * nextRow + 2 * n + 1 : Int) : ℚ) = 0 := by
        push_cast
        linarith
      have h3 : (2 * nextRow + 2 * n + 1 : Int) = 0 := by exact_mod_cast h2
      omega
    · exact absurd h1 (ne_of_gt hh1)
  · intro h0
    have h1 : (0 : ℚ) ≤ (nextRow : ℚ) := by exact_mod_cast h0
    have h2 : (0 : ℚ) ≤ (n : ℚ) := by exact_mod_cast hn
    apply div_pos _ hh1
    linarith



/-- What `getDashPosition` leaves alone: the texture handle, the dimensions; and a dirty
atlas stays dirty. -/
theorem getDashPosition_frame (hc : Nat → ℚ → Nat) (s : LineAtlas) (dasharray : List ℚ)
    (patternCap : LinePatternCap) (p : LinePatternPos) (s1 : LineAtlas)
    (h : getDashPosition hc s dasharray patternCap = some (p, s1)) :
    s1.texture = s.texture ∧ s1.width = s.width ∧ s1.height = s.height ∧
      (s.dirty = true → s1.dirty = true) := by
  rcases getDashPosition_cases hc s dasharray patternCap p s1 h with
    ⟨_, hs⟩ | ⟨_, _, _, hs⟩ | ⟨_, _, _, _, hs⟩ <;> subst hs
  · exact ⟨rfl, rfl, rfl, fun hd => hd⟩
  · exact ⟨rfl, rfl, rfl, fun hd => hd⟩
  · exact ⟨rfl, rfl, rfl, fun _ => rfl⟩

/-- A `getDashPosition` step: the context is untouched. -/
theorem step_getDashPosition (hc : Nat → ℚ → Nat) (st st1 : LineAtlas × Context)
    (dasharray : List ℚ) (patternCap : LinePatternCap)
    (hs : step hc st (Op.getDashPosition dasharray patternCap) = some st1) :
    ∃ p, getDashPosition hc st.1 dasharray patternCap = some (p, st1.1) ∧ st1.2 = st.2 := by
  simp only [step] at hs
  cases hg : getDashPosition hc st.1 dasharray patternCap with
  | none => simp [hg] at hs
  | some r =>
    obtain ⟨p, s1⟩ := r
    simp only [hg, Option.some.injEq] at hs
    subst hs
    exact ⟨p, rfl, rfl⟩

/-- Once a texture exists, no call replaces it or creates another. -/
theorem step_texture (hc : Nat → ℚ → Nat) (st st1 : LineAtlas × Context) (op : Op)
    (t : Texture) (hs : step hc st op = some st1) (ht : st.1.texture = some t) :
    st1.1.texture = some t ∧ createCount st1.2 = createCount st.2 := by
  cases op with
  | getDashPosition dasharray patternCap =>
    obtain ⟨p, hg, hc2⟩ := step_getDashPosition hc st st1 dasharray patternCap hs
    obtain ⟨h1, _⟩ := getDashPosition_frame hc st.1 dasharray patternCap p st1.1 hg
    exact ⟨by rw [h1, ht], by rw [hc2]⟩
  | upload unit =>
    simp only [step, Option.some.injEq] at hs
    subst hs
    rcases upload_cases st.1 st.2 unit with ⟨_, h⟩ | ⟨_, h1, _⟩ | ⟨_, t1, _, h⟩
    · rw [h]; exact ⟨ht, rfl⟩
    · rw [ht] at h1; exact absurd h1 (by simp)
    · rw [h]
      refine ⟨ht, ?_⟩
      simp [createCount, List.countP_append, List.countP_cons, GLCall.isCreate]

theorem run_texture (hc : Nat → ℚ → Nat) (t : Texture) :
    ∀ (ops : List Op) (st st1 : LineAtlas × Context), run hc st ops = some st1 →
      st.1.texture = some t →
      st1.1.texture = some t ∧ createCount st1.2 = createCount st.2 := by
  intro ops st st1 hrun ht
  have key := run_invariant hc
    (fun st0 => st0.1.texture = some t ∧ createCount st0.2 = createCount st.2)
    ?_ ops st st1 ⟨ht, rfl⟩ hrun
  · exact key
  · intro st0 op st2 hp hs
    obtain ⟨h1, h2⟩ := step_texture hc st0 st2 op t hs hp.1
    exact ⟨h1, by rw [h2, hp.2]⟩

/-- From a dirty atlas without a texture: as long as no upload is called the atlas stays
dirty and without a texture and nothing is created; the first upload creates the
texture, and that is the only creation. -/
theorem run_create (hc : Nat → ℚ → Nat) :
    ∀ (ops : List Op) (st st1 : LineAtlas × Context), run hc st ops = some st1 →
      st.1.texture = none → st.1.dirty = true →
      (ops.any Op.isUpload = false →
        st1.1.texture = none ∧ st1.1.dirty = true ∧ st1.2 = st.2) ∧
      (ops.any Op.isUpload = true →
        st1.1.texture.isSome = true ∧ createCount st1.2 = createCount st.2 + 1) := by
  intro ops
  induction ops with
  | nil =>
    intro st st1 hrun ht hd
    simp only [run, Option.some.injEq] at hrun
    subst hrun
    exact ⟨fun _ => ⟨ht, hd, rfl⟩, fun h => by simp at h⟩
  | cons op ops ih =>
    intro st st1 hrun ht hd
    rw [run] at hrun
    cases hs : step hc st op with
    | none => simp [hs] at hrun
    | some st2 =>
      simp only [hs] at hrun
      cases op with
      | getDashPosition dasharray patternCap =>
        obtain ⟨p, hg, hc2⟩ := step_getDashPosition hc st st2 dasharray patternCap hs
        obtain ⟨h1, _, _, h4⟩ := getDashPosition_frame hc st.1 dasharray patternCap p st2.1 hg
        obtain ⟨ih1, ih2⟩ := ih st2 st1 hrun (by rw [h1, ht]) (h4 hd)
        simp only [List.any_cons, Op.isUpload, Bool.false_or]
        rw [← hc2]
        exact ⟨ih1, ih2⟩
      | upload unit =>
        simp only [step, Option.some.injEq] at hs
        subst hs
        simp only [List.any_cons, Op.isUpload, Bool.true_or]
        refine ⟨fun h => by simp at h, fun _ => ?_⟩
        rcases upload_cases st.1 st.2 unit with ⟨h1, _⟩ | ⟨_, _, h⟩ | ⟨_, t, h1, _⟩
        · rw [hd] at h1; exact absurd h1 (by simp)
        · rw [h] at hrun
          obtain ⟨h2, h3⟩ := run_texture hc st.2.nextTexture ops _ st1 hrun rfl
          refine ⟨by simp [h2], ?_⟩
          rw [h3]
          simp [createCount, List.countP_append, List.countP_cons, GLCall.isCreate]
        · rw [ht] at h1; exact absurd h1 (by simp)

theorem lastUploaded_append (cs ds : List GLCall) :
    lastUploaded (cs ++ ds) =
      match lastUploaded ds with
      | some image => some image
      | none => lastUploaded cs := by
  induction cs with
  | nil =>
    simp only [List.nil_append, lastUploaded]
    cases lastUploaded ds <;> rfl
  | cons c cs ih =>
    rw [List.cons_append, lastUploaded, ih]
    cases lastUploaded ds with
    | some image => rfl
    | none => simp only [lastUploaded]

/-- After an upload the atlas is not dirty. -/
theorem upload_clean (s : LineAtlas) (context : Context) (unit : TextureUnit) :
    (upload s context unit).1.dirty = false := by
  rcases upload_cases s context unit with ⟨h1, h⟩ | ⟨_, _, h⟩ | ⟨_, t, _, h⟩ <;> rw [h]
  exact h1

/-- One call keeps: a clean atlas holds the image that was last handed to the context. -/
theorem step_synced (hc : Nat → ℚ → Nat) (st st1 : LineAtlas × Context) (op : Op)
    (hs : step hc st op = some st1)
    (hp : st.1.dirty = false → lastUploaded st.2.calls = some st.1.image) :
    st1.1.dirty = false → lastUploaded st1.2.calls = some st1.1.image := by
  cases op with
  | getDashPosition dasharray patternCap =>
    obtain ⟨p, hg, hc2⟩ := step_getDashPosition hc st st1 dasharray patternCap hs
    rw [hc2]
    rcases getDashPosition_cases hc st.1 dasharray patternCap p st1.1 hg with
      ⟨_, h⟩ | ⟨_, _, _, h⟩ | ⟨_, _, _, _, h⟩ <;> rw [h]
    · exact hp
    · exact hp
    · intro hd
      exact absurd hd (by simp)
  | upload unit =>
    simp only [step, Option.some.injEq] at hs
    subst hs
    rcases upload_cases st.1 st.2 unit with ⟨_, h⟩ | ⟨_, _, h⟩ | ⟨_, t, _, h⟩ <;> rw [h]
    · exact hp
    · intro _
      simp [lastUploaded_append, lastUploaded, GLCall.uploaded]
    · intro _
      simp [lastUploaded_append, lastUploaded, GLCall.uploaded]

/-- The scenario of the spec followed by an upload ends in a clean atlas. -/
theorem scenario_clean (hc : Nat → ℚ → Nat) :
    ∃ st, run hc (LineAtlas.create 256 64, Context.fresh)
        [Op.getDashPosition [2, 2] LinePatternCap.Round,
         Op.getDashPosition [2, 2] LinePatternCap.Round, Op.upload 0] = some st ∧
      st.1.dirty = false := by
  obtain ⟨s1, h1, _⟩ := scenario_first hc
  have h3 := getDashPosition_again hc _ _ _ _ _ h1
  refine ⟨upload s1 Context.fresh 0, ?_, upload_clean s1 Context.fresh 0⟩
  simp only [run, step, h1, h3]

theorem lookup_eq_none_iff (m : List (Nat × LinePatternPos)) (k : Nat) :
    m.lookup k = none ↔ k ∉ m.map (fun e => e.1) := by
  induction m with
  | nil => simp [List.lookup]
  | cons e t ih =>
    obtain ⟨a, b⟩ := e
    by_cases h : k = a
    · subst h
      simp [List.lookup]
    · have hb : (k == a) = false := by simpa using h
      simp only [List.lookup_cons, hb, ih, List.map_cons, List.mem_cons, h, false_or]

theorem validPattern_singleton (a : ℚ) (ha : 0 < a) : ValidPattern [a] := by
  refine ⟨by simp, ?_⟩
  intro d hd
  simp at hd
  subst hd
  exact ha

theorem applyStores_cons (data : Int → Nat) (st : Store) (rest : List Store) :
    applyStores data (st :: rest) =
      applyStores (Function.update data st.index st.value) rest := rfl

theorem applyStores_append (data : Int → Nat) (a b : List Store) :
    applyStores data (a ++ b) = applyStores (applyStores data a) b := by
  simp [applyStores, List.foldl_append]

/-- A cell that no store addresses keeps its byte. -/
theorem applyStores_frame (stores : List Store) :
    ∀ (data : Int → Nat) (i : Int), (∀ st ∈ stores, st.index ≠ i) →
      applyStores data stores i = data i := by
  induction stores with
  | nil => intro data i _; rfl
  | cons st rest ih =>
    intro data i h
    rw [applyStores_cons, ih _ i (fun s hs => h s (List.mem_cons_of_mem _ hs))]
    have hne : i ≠ st.index := fun he => h st (List.mem_cons_self _ _) he.symm
    simp [Function.update, hne]

/-- The loop over the columns applies its stores to the image. -/
theorem rowLoop_eq_stores (dasharray : List ℚ) (oddLength : Bool)
    (patternCap : LinePatternCap) (n y : Int) (stretch halfWidth : ℚ) (index : Int) :
    ∀ (k : Nat) (x : Int) (seg : Segment) (data : Int → Nat),
      rowLoop dasharray oddLength patternCap n y stretch halfWidth index k x seg data =
        (rowStores dasharray oddLength patternCap n y stretch halfWidth index k x seg).map
          (applyStores data) := by
  intro k
  induction k with
  | zero => intro x seg data; rfl
  | succ k ih =>
    intro x seg data
    rw [rowLoop, rowStores]
    cases advance dasharray oddLength ((x : ℚ) / stretch) seg with
    | none => rfl
    | some seg1 =>
      simp only
      rw [ih]
      cases rowStores dasharray oddLength patternCap n y stretch halfWidth index k (x + 1)
        seg1 with
      | none => rfl
      | some rest => rfl

theorem rasterRow_eq_stores (width : Nat) (nextRow : Int) (dasharray : List ℚ)
    (oddLength : Bool) (patternCap : LinePatternCap) (n y : Int) (stretch halfWidth : ℚ)
    (data : Int → Nat) :
    rasterRow width nextRow dasharray oddLength patternCap n y stretch halfWidth data =
      (rasterRowStores width nextRow dasharray oddLength patternCap n y stretch
        halfWidth).map (applyStores data) := by
  unfold rasterRow rasterRowStores
  cases dasharray[0]? with
  | none => rfl
  | some first =>
    cases dasharray.getLast? with
    | none => rfl
    | some last => exact rowLoop_eq_stores _ _ _ _ _ _ _ _ _ _ _ _

theorem bandLoop_eq_stores (width : Nat) (nextRow : Int) (dasharray : List ℚ)
    (oddLength : Bool) (patternCap : LinePatternCap) (n : Int) (stretch halfWidth : ℚ) :
    ∀ (k : Nat) (y : Int) (data : Int → Nat),
      bandLoop width nextRow dasharray oddLength patternCap n stretch halfWidth k y data =
        (bandStores width nextRow dasharray oddLength patternCap n stretch halfWidth k
          y).map (applyStores data) := by
  intro k
  induction k with
  | zero => intro y data; rfl
  | succ k ih =>
    intro y data
    rw [bandLoop, bandStores, rasterRow_eq_stores]
    cases rasterRowStores width nextRow dasharray oddLength patternCap n y stretch
      halfWidth with
    | none => rfl
    | some stores =>
      simp only [Option.map_some']
      rw [ih]
      cases bandStores width nextRow dasharray oddLength patternCap n stretch halfWidth k
        (y + 1) with
      | none => rfl
      | some rest => simp [applyStores_append]

/-- A call of `addDash` that returns has applied its stores to the image. -/
theorem addDash_eq_stores (s : LineAtlas) (dasharray : List ℚ) (patternCap : LinePatternCap)
    (p : LinePatternPos) (s1 : LineAtlas) (h : addDash s dasharray patternCap = some (p, s1)) :
    ∃ stores, addDashStores s dasharray patternCap = some stores ∧
      s1.image.data = applyStores s.image.data stores := by
  by_cases hov : s.nextRow + (2 * capN patternCap + 1) > (s.height : Int)
  · rw [addDash_overflow_eq s dasharray patternCap hov] at h
    simp only [Option.some.injEq, Prod.mk.injEq] at h
    refine ⟨[], by simp [addDashStores, hov], ?_⟩
    rw [← h.2]
    rfl
  · unfold addDash at h
    simp only [hov, if_false, bandLoop_eq_stores] at h
    unfold addDashStores
    simp only [hov, if_false]
    cases hb : bandStores s.width s.nextRow dasharray (dasharray.length % 2 == 1) patternCap
      (capN patternCap) ((s.width : ℚ) / dashLength dasharray)
      ((s.width : ℚ) / dashLength dasharray * (1 / 2)) (2 * capN patternCap + 1).toNat
      (-capN patternCap) with
    | none =>
      simp only [hb, Option.map_none'] at h
      exact absurd h (by simp)
    | some stores =>
      simp only [hb, Option.map_some', Option.some.injEq, Prod.mk.injEq] at h
      refine ⟨stores, rfl, ?_⟩
      rw [← h.2]

theorem takeSum_succ (dasharray : List ℚ) (k : Nat) (part : ℚ)
    (h : dasharray[k]? = some part) :
    takeSum dasharray (k + 1) = takeSum dasharray k + part :=
  take_succ_sum dasharray k part h

theorem takeSum_length (dasharray : List ℚ) : takeSum dasharray dasharray.length = dasharray.sum := by
  simp [takeSum]

/-- A walk state that fits a target fits every later target. -/
theorem walkAt_mono (dasharray : List ℚ) (oddLength : Bool) (t t1 : ℚ) (seg : Segment)
    (h : t ≤ t1) (hw : WalkAt dasharray oddLength t seg) :
    WalkAt dasharray oddLength t1 seg := by
  obtain ⟨h1, h2, h3, h4, h5, h6⟩ := hw
  exact ⟨h1, h2, h3, h4, fun hk => ⟨(h5 hk).1, lt_of_lt_of_le (h5 hk).2 h⟩, h6⟩

/-- The `while` loop of one column, exactly: it returns, with `right` at or beyond the
target, and the walk state fits the target. -/
theorem advanceLoop_walk (dasharray : List ℚ) (oddLength : Bool) (t : ℚ)
    (hpos : ∀ d ∈ dasharray, 0 < d) (ht : t < dasharray.sum) :
    ∀ (fuel : Nat) (seg : Segment), dasharray.length - seg.partIndex ≤ fuel →
      WalkAt dasharray oddLength t seg →
      ∃ seg1, advanceLoop dasharray oddLength t fuel seg = some seg1 ∧
        WalkAt dasharray oddLength t seg1 ∧ t ≤ seg1.right ∧
        seg.partIndex ≤ seg1.partIndex := by
  intro fuel
  induction fuel with
  | zero =>
    intro seg hfuel hw
    obtain ⟨h1, h2, h3, h4, h5, h6⟩ := hw
    have hp : seg.partIndex = dasharray.length := by omega
    have hr : dasharray.sum ≤ seg.right := by
      rw [hp, takeSum_length] at h3
      exact h3
    have hn : ¬ seg.right < t := by linarith
    exact ⟨seg, by simp [advanceLoop, hn], ⟨h1, h2, h3, h4, h5, h6⟩, by linarith, le_refl _⟩
  | succ fuel ih =>
    intro seg hfuel hw
    by_cases hlt : seg.right < t
    · obtain ⟨h1, h2, h3, h4, h5, h6⟩ := hw
      have hp : seg.partIndex < dasharray.length := by
        rcases Nat.lt_or_ge seg.partIndex dasharray.length with h | h
        · exact h
        · have hp : seg.partIndex = dasharray.length := by omega
          rw [hp, takeSum_length] at h3
          linarith
      have hright : seg.right = takeSum dasharray seg.partIndex := h4 (Or.inl hp)
      have hget : dasharray[seg.partIndex]? = some dasharray[seg.partIndex] :=
        List.getElem?_eq_getElem hp
      obtain ⟨front, hfront⟩ : ∃ front, dasharray.head? = some front := by
        cases dasharray with
        | nil => simp at hp
        | cons a t => exact ⟨a, rfl⟩
      have hfpos : 0 < front := hpos front (List.mem_of_mem_head? hfront)
      have hstep := takeSum_succ dasharray seg.partIndex _ hget
      have hw1 : WalkAt dasharray oddLength t
          { left := seg.right
            right := if oddLength && seg.partIndex == dasharray.length - 1 then
              seg.right + dasharray[seg.partIndex] + front
              else seg.right + dasharray[seg.partIndex]
            partIndex := seg.partIndex + 1 } := by
        refine ⟨by simp, by simpa using hp, ?_, ?_, ?_, ?_⟩
        · simp only [hstep, hright]
          split <;> linarith
        · intro hor
          simp only [hstep, hright]
          have hc : (oddLength && seg.partIndex == dasharray.length - 1) = false := by
            rcases hor with h | h
            · have hne : seg.partIndex ≠ dasharray.length - 1 := by
                simp only at h
                omega
              simp [hne]
            · simp [h]
          simp [hc]
        · intro _
          simp only [Nat.add_sub_cancel]
          exact ⟨hright, by rw [← hright]; exact hlt⟩
        · intro hk
          simp only at hk
          omega
      obtain ⟨seg1, e1, e2, e3, e4⟩ := ih _ (by simp only; omega) hw1
      refine ⟨seg1, ?_, e2, e3, by simp only at e4; omega⟩
      rw [advanceLoop]
      simp only [hlt, if_true, hget, hfront]
      exact e1
    · exact ⟨seg, by simp [advanceLoop, hlt], hw, le_of_not_lt hlt, le_refl _⟩

/-- Shape of the stores of one row: the columns in order, and for each store its `y`, its
index and its byte. -/
theorem rowStores_shape (dasharray : List ℚ) (oddLength : Bool) (patternCap : LinePatternCap)
    (n y : Int) (stretch halfWidth : ℚ) (index : Int) :
    ∀ (k : Nat) (x : Int) (seg : Segment) (stores : List Store),
      rowStores dasharray oddLength patternCap n y stretch halfWidth index k x seg =
        some stores →
      stores.map (fun st => st.x) = (List.range k).map (fun (j : Nat) => x + (j : Int)) ∧
      ∀ st ∈ stores, st.y = y ∧ st.index = wrapInt32 (index + st.x) ∧
        st.value = clampByte
          (signedDistance patternCap n y st.x stretch halfWidth st.seg + 128) := by
  intro k
  induction k with
  | zero =>
    intro x seg stores h
    simp only [rowStores, Option.some.injEq] at h
    subst h
    simp
  | succ k ih =>
    intro x seg stores h
    rw [rowStores] at h
    cases ha : advance dasharray oddLength ((x : ℚ) / stretch) seg with
    | none => simp [ha] at h
    | some seg1 =>
      simp only [ha] at h
      cases hr : rowStores dasharray oddLength patternCap n y stretch halfWidth index k
        (x + 1) seg1 with
      | none => simp [hr] at h
      | some rest =>
        simp only [hr, Option.some.injEq] at h
        subst h
        obtain ⟨i1, i2⟩ := ih (x + 1) seg1 rest hr
        constructor
        · rw [List.map_cons, i1, List.range_succ_eq_map, List.map_cons, List.map_map]
          refine congrArg₂ List.cons (by simp) ?_
          apply List.map_congr_left
          intro j _
          simp only [Function.comp, Nat.cast_succ]
          ring
        · intro st hst
          rcases List.mem_cons.mp hst with h1 | h1
          · subst h1
            exact ⟨rfl, rfl, rfl⟩
          · exact i2 st h1

theorem stretch_nonneg (width : Nat) (dasharray : List ℚ) (hv : ValidPattern dasharray) :
    0 ≤ (width : ℚ) / dasharray.sum :=
  div_nonneg (Nat.cast_nonneg _) (le_of_lt (sum_pos_of_valid hv))

/-- The walk states recorded in the stores of one row, for a pattern of positive
lengths: each fits the target of its column, and `right` is at or beyond the target. -/
theorem rowStores_walk (dasharray : List ℚ) (oddLength : Bool) (patternCap : LinePatternCap)
    (n y : Int) (halfWidth : ℚ) (index : Int) (width : Nat) (hv : ValidPattern dasharray) :
    ∀ (k : Nat) (x : Int) (seg : Segment), 0 ≤ x → x + (k : Int) = (width : Int) →
      WalkAt dasharray oddLength ((x : ℚ) / ((width : ℚ) / dasharray.sum)) seg →
      ∃ stores, rowStores dasharray oddLength patternCap n y ((width : ℚ) / dasharray.sum)
          halfWidth index k x seg = some stores ∧
        ∀ st ∈ stores,
          WalkAt dasharray oddLength ((st.x : ℚ) / ((width : ℚ) / dasharray.sum)) st.seg ∧
          (st.x : ℚ) / ((width : ℚ) / dasharray.sum) ≤ st.seg.right := by
  intro k
  induction k with
  | zero => intro x seg _ _ _; exact ⟨[], rfl, by simp⟩
  | succ k ih =>
    intro x seg hx0 hxk hw
    have hx : x < (width : Int) := by push_cast at hxk; omega
    obtain ⟨seg1, h1, h2, h3, _⟩ := advanceLoop_walk dasharray oddLength
      ((x : ℚ) / ((width : ℚ) / dasharray.sum)) hv.2
      (target_lt_sum width x _ (sum_pos_of_valid hv) hx0 hx)
      (dasharray.length - seg.partIndex) seg (le_refl _) hw
    have hmono : (x : ℚ) / ((width : ℚ) / dasharray.sum) ≤
        ((x + 1 : Int) : ℚ) / ((width : ℚ) / dasharray.sum) := by
      apply div_le_div_of_nonneg_right _ (stretch_nonneg width dasharray hv)
      push_cast
      linarith
    obtain ⟨rest, hr, hrest⟩ := ih (x + 1) seg1 (by omega) (by push_cast at hxk ⊢; omega)
      (walkAt_mono _ _ _ _ _ hmono h2)
    refine ⟨{ y := y, x := x, seg := seg1, index := wrapInt32 (index + x),
              value := clampByte (signedDistance patternCap n y x
                ((width : ℚ) / dasharray.sum) halfWidth seg1 + 128) } :: rest, ?_, ?_⟩
    · rw [rowStores]
      simp only [advance, h1, hr]
    · intro st hst
      rcases List.mem_cons.mp hst with he | he
      · subst he
        exact ⟨h2, h3⟩
      · exact hrest st he

/-- The first walk state of a row fits every target. -/
theorem walkAt_start (dasharray : List ℚ) (oddLength : Bool) (t first last : ℚ)
    (h0 : dasharray[0]? = some first) (hl : dasharray.getLast? = some last) :
    WalkAt dasharray oddLength t
      { left := if oddLength then 0 - last else 0, right := first, partIndex := 1 } := by
  have hlen : 1 ≤ dasharray.length := by
    cases dasharray with
    | nil => simp at h0
    | cons a t => simp
  have h1 : takeSum dasharray 1 = first := by
    have := takeSum_succ dasharray 0 first h0
    simpa [takeSum] using this
  refine ⟨le_refl _, hlen, by rw [h1], fun _ => by rw [h1], fun h => ?_, fun _ => ?_⟩
  · simp only at h
    omega
  · simp [hl]

/-- Membership in a list whose columns are `x0, x0 + 1, ..., x0 + k - 1`. -/
theorem columns_mem (stores : List Store) (k : Nat) (x0 : Int)
    (h : stores.map (fun st => st.x) = (List.range k).map (fun (j : Nat) => x0 + (j : Int))) :
    (∀ st ∈ stores, x0 ≤ st.x ∧ st.x < x0 + (k : Int)) ∧
    (∀ x : Int, x0 ≤ x → x < x0 + (k : Int) → ∃ st ∈ stores, st.x = x) := by
  constructor
  · intro st hst
    have hm : st.x ∈ stores.map (fun st => st.x) := List.mem_map_of_mem _ hst
    rw [h] at hm
    obtain ⟨j, hj, he⟩ := List.mem_map.mp hm
    have := List.mem_range.mp hj
    omega
  · intro x h1 h2
    have hm : x ∈ (List.range k).map (fun (j : Nat) => x0 + (j : Int)) := by
      refine List.mem_map.mpr ⟨(x - x0).toNat, List.mem_range.mpr ?_, ?_⟩
      · omega
      · omega
    rw [← h] at hm
    obtain ⟨st, hst, he⟩ := List.mem_map.mp hm
    exact ⟨st, hst, he⟩

/-- Shape of the stores of a band of `k` rows starting at `y0`: every store lies in a
row of the band and a column of the atlas, every cell of the band has a store, and
each store has the index and the byte computed by the source. -/
theorem bandStores_shape (width : Nat) (nextRow : Int) (dasharray : List ℚ)
    (oddLength : Bool) (patternCap : LinePatternCap) (n : Int) (stretch halfWidth : ℚ) :
    ∀ (k : Nat) (y0 : Int) (stores : List Store),
      bandStores width nextRow dasharray oddLength patternCap n stretch halfWidth k y0 =
        some stores →
      (∀ st ∈ stores, y0 ≤ st.y ∧ st.y < y0 + (k : Int) ∧ 0 ≤ st.x ∧ st.x < (width : Int) ∧
        st.index = wrapInt32 (wrapInt32 ((width : Int) * (nextRow + n + st.y)) + st.x) ∧
        st.value = clampByte
          (signedDistance patternCap n st.y st.x stretch halfWidth st.seg + 128)) ∧
      (∀ y x : Int, y0 ≤ y → y < y0 + (k : Int) → 0 ≤ x → x < (width : Int) →
        ∃ st ∈ stores, st.y = y ∧ st.x = x) := by
  intro k
  induction k with
  | zero =>
    intro y0 stores h
    simp only [bandStores, Option.some.injEq] at h
    subst h
    exact ⟨by simp, fun y x h1 h2 => by simp at h2; omega⟩
  | succ k ih =>
    intro y0 stores h
    rw [bandStores] at h
    cases hrow : rasterRowStores width nextRow dasharray oddLength patternCap n y0 stretch
      halfWidth with
    | none => simp [hrow] at h
    | some row =>
      simp only [hrow] at h
      cases hrest : bandStores width nextRow dasharray oddLength patternCap n stretch
        halfWidth k (y0 + 1) with
      | none => simp [hrest] at h
      | some rest =>
        simp only [hrest, Option.some.injEq] at h
        subst h
        obtain ⟨i1, i2⟩ := ih (y0 + 1) rest hrest
        have hshape : row.map (fun st => st.x) =
              (List.range width).map (fun (j : Nat) => (0 : Int) + (j : Int)) ∧
            ∀ st ∈ row, st.y = y0 ∧
              st.index = wrapInt32 (wrapInt32 ((width : Int) * (nextRow + n + y0)) + st.x) ∧
              st.value = clampByte
                (signedDistance patternCap n y0 st.x stretch halfWidth st.seg + 128) := by
          unfold rasterRowStores at hrow
          cases h0 : dasharray[0]? with
          | none => simp [h0] at hrow
          | some first =>
            cases hl : dasharray.getLast? with
            | none => simp [h0, hl] at hrow
            | some last =>
              simp only [h0, hl] at hrow
              exact rowStores_shape _ _ _ _ _ _ _ _ _ _ _ _ hrow
        obtain ⟨c1, c2⟩ := columns_mem row width 0 hshape.1
        constructor
        · intro st hst
          rcases List.mem_append.mp hst with hm | hm
          · obtain ⟨e1, e2, e3⟩ := hshape.2 st hm
            obtain ⟨b1, b2⟩ := c1 st hm
            refine ⟨by omega, by push_cast; omega, by omega, by omega, ?_, ?_⟩
            · rw [e2, e1]
            · rw [e3, e1]
          · obtain ⟨a1, a2, a3, a4, a5, a6⟩ := i1 st hm
            exact ⟨by omega, by push_cast; omega, a3, a4, a5, a6⟩
        · intro y x h1 h2 h3 h4
          by_cases hy : y = y0
          · obtain ⟨st, hst, hx⟩ := c2 x (by omega) (by omega)
            exact ⟨st, List.mem_append_left _ hst, by rw [(hshape.2 st hst).1, hy], hx⟩
          · obtain ⟨st, hst, e⟩ := i2 y x (by omega) (by push_cast at h2; omega) h3 h4
            exact ⟨st, List.mem_append_right _ hst, e⟩

/-- The stores of a band for a pattern of positive lengths exist, and their walk states
fit the targets of their columns. -/
theorem bandStores_walk (width : Nat) (nextRow : Int) (dasharray : List ℚ)
    (oddLength : Bool) (patternCap : LinePatternCap) (n : Int) (halfWidth : ℚ)
    (hv : ValidPattern dasharray) :
    ∀ (k : Nat) (y0 : Int),
      ∃ stores, bandStores width nextRow dasharray oddLength patternCap n
          ((width : ℚ) / dasharray.sum) halfWidth k y0 = some stores ∧
        ∀ st ∈ stores,
          WalkAt dasharray oddLength ((st.x : ℚ) / ((width : ℚ) / dasharray.sum)) st.seg ∧
          (st.x : ℚ) / ((width : ℚ) / dasharray.sum) ≤ st.seg.right := by
  intro k
  induction k with
  | zero => intro y0; exact ⟨[], rfl, by simp⟩
  | succ k ih =>
    intro y0
    obtain ⟨first, h0⟩ : ∃ first, dasharray[0]? = some first := by
      cases hd : dasharray with
      | nil => exact absurd hd hv.1
      | cons a t => exact ⟨a, by simp⟩
    obtain ⟨last, hl⟩ : ∃ last, dasharray.getLast? = some last := by
      cases hd : dasharray with
      | nil => exact absurd hd hv.1
      | cons a t => exact ⟨(a :: t).getLast (by simp), List.getLast?_eq_getLast _ _⟩
    obtain ⟨row, hrow, hrw⟩ := rowStores_walk dasharray oddLength patternCap n y0 halfWidth
      (wrapInt32 ((width : Int) * (nextRow + n + y0))) width hv width 0
      { left := if oddLength then 0 - last else 0, right := first, partIndex := 1 }
      (le_refl _) (by simp) (walkAt_start dasharray oddLength _ first last h0 hl)
    obtain ⟨rest, hrest, hrs⟩ := ih (y0 + 1)
    refine ⟨row ++ rest, ?_, ?_⟩
    · rw [bandStores]
      unfold rasterRowStores
      simp only [h0, hl, hrow, hrest]
    · intro st hst
      rcases List.mem_append.mp hst with hm | hm
      · exact hrw st hm
      · exact hrs st hm

/-- The stores of a call of `addDash` that fits, on a pattern of positive lengths: they
exist; each lies in a row `y` of `-n .. n` and a column of the atlas, with the index and
the byte computed by the source and a walk state that fits the target of its column;
and every row `y` and column `x` has a store. -/
theorem addDashStores_spec (s : LineAtlas) (dasharray : List ℚ) (patternCap : LinePatternCap)
    (hv : ValidPattern dasharray)
    (hfit : s.nextRow + (2 * capN patternCap + 1) ≤ (s.height : Int)) :
    ∃ stores, addDashStores s dasharray patternCap = some stores ∧
      (∀ st ∈ stores, -capN patternCap ≤ st.y ∧ st.y ≤ capN patternCap ∧ 0 ≤ st.x ∧
        st.x < (s.width : Int) ∧
        st.index = wrapInt32 (wrapInt32 ((s.width : Int) *
          (s.nextRow + capN patternCap + st.y)) + st.x) ∧
        st.value = clampByte (signedDistance patternCap (capN patternCap) st.y st.x
          ((s.width : ℚ) / dasharray.sum) ((s.width : ℚ) / dasharray.sum * (1 / 2))
          st.seg + 128) ∧
        WalkAt dasharray (dasharray.length % 2 == 1)
          ((st.x : ℚ) / ((s.width : ℚ) / dasharray.sum)) st.seg ∧
        (st.x : ℚ) / ((s.width : ℚ) / dasharray.sum) ≤ st.seg.right) ∧
      (∀ y x : Int, -capN patternCap ≤ y → y ≤ capN patternCap → 0 ≤ x →
        x < (s.width : Int) → ∃ st ∈ stores, st.y = y ∧ st.x = x) := by
  have hn := capN_nonneg patternCap
  obtain ⟨stores, hs, hw⟩ := bandStores_walk s.width s.nextRow dasharray
    (dasharray.length % 2 == 1) patternCap (capN patternCap)
    ((s.width : ℚ) / dasharray.sum * (1 / 2)) hv (2 * capN patternCap + 1).toNat
    (-capN patternCap)
  obtain ⟨h1, h2⟩ := bandStores_shape _ _ _ _ _ _ _ _ _ _ _ hs
  have hno : ¬ s.nextRow + (2 * capN patternCap + 1) > (s.height : Int) := by omega
  have hk : (((2 * capN patternCap + 1).toNat : Nat) : Int) = 2 * capN patternCap + 1 :=
    Int.toNat_of_nonneg (by omega)
  refine ⟨stores, ?_, ?_, ?_⟩
  · unfold addDashStores
    simp only [hno, if_false, dashLength_eq_sum]
    exact hs
  · intro st hst
    obtain ⟨a1, a2, a3, a4, a5, a6⟩ := h1 st hst
    obtain ⟨w1, w2⟩ := hw st hst
    exact ⟨a1, by omega, a3, a4, a5, a6, w1, w2⟩
  · intro y x hy1 hy2 hx1 hx2
    exact h2 y x hy1 (by omega) hx1 hx2

/-- The integers that a 32-bit `int` holds are not changed by the wrap. -/
theorem wrapInt32_eq (v : Int) (h1 : -2147483648 ≤ v) (h2 : v < 2147483648) :
    wrapInt32 v = v := by
  unfold wrapInt32
  omega

/-- The cell of row `r` and column `x` of an atlas of at most `2^31` cells: its index is
computed without overflow and lies inside the image. -/
theorem cell_index (width height : Nat) (r x : Int)
    (hsize : (width : Int) * (height : Int) ≤ 2147483648)
    (hr0 : 0 ≤ r) (hr : r < (height : Int)) (hx0 : 0 ≤ x) (hx : x < (width : Int)) :
    wrapInt32 (wrapInt32 ((width : Int) * r) + x) = (width : Int) * r + x ∧
      0 ≤ (width : Int) * r + x ∧ (width : Int) * r + x < (width : Int) * (height : Int) := by
  have hw : (0 : Int) ≤ (width : Int) := Int.natCast_nonneg _
  have h1 : 0 ≤ (width : Int) * r := mul_nonneg hw hr0
  have h2 : (width : Int) * (r + 1) ≤ (width : Int) * (height : Int) :=
    mul_le_mul_of_nonneg_left (by omega) hw
  have h3 : (width : Int) * (r + 1) = (width : Int) * r + (width : Int) := by ring
  rw [wrapInt32_eq ((width : Int) * r) (by omega) (by omega),
    wrapInt32_eq ((width : Int) * r + x) (by omega) (by omega)]
  exact ⟨rfl, by omega, by omega⟩

/-- Band-confined writes for an atlas of at most `2^31` cells: a call of `addDash` that
fits, on a pattern of positive lengths, stores only at cells of the rows
`[nextRow, nextRow + 2n + 1)`, inside the image; it stores at every cell of those rows;
every other cell keeps its byte. -/
theorem addDash_band (s : LineAtlas) (dasharray : List ℚ) (patternCap : LinePatternCap)
    (hv : ValidPattern dasharray) (h0 : 0 ≤ s.nextRow)
    (hfit : s.nextRow + (2 * capN patternCap + 1) ≤ (s.height : Int))
    (hsize : (s.width : Int) * (s.height : Int) ≤ 2147483648) :
    ∃ p s1 stores, addDash s dasharray patternCap = some (p, s1) ∧
      addDashStores s dasharray patternCap = some stores ∧
      s1.image.data = applyStores s.image.data stores ∧
      (∀ st ∈ stores, ∃ r : Int, s.nextRow ≤ r ∧ r < s.nextRow + (2 * capN patternCap + 1) ∧
        st.index = (s.width : Int) * r + st.x ∧ 0 ≤ st.x ∧ st.x < (s.width : Int) ∧
        0 ≤ st.index ∧ st.index < (s.width : Int) * (s.height : Int)) ∧
      (∀ r x : Int, s.nextRow ≤ r → r < s.nextRow + (2 * capN patternCap + 1) → 0 ≤ x →
        x < (s.width : Int) → ∃ st ∈ stores, st.index = (s.width : Int) * r + x) ∧
      (∀ i : Int, (i < (s.width : Int) * s.nextRow ∨
          (s.width : Int) * (s.nextRow + (2 * capN patternCap + 1)) ≤ i) →
        s1.image.data i = s.image.data i) := by
  have hn := capN_nonneg patternCap
  obtain ⟨data, ha⟩ := addDash_fits s dasharray patternCap hv hfit
  obtain ⟨stores, hs, h1, h2⟩ := addDashStores_spec s dasharray patternCap hv hfit
  obtain ⟨stores1, hs1, hdata⟩ := addDash_eq_stores s dasharray patternCap _ _ ha
  rw [hs] at hs1
  simp only [Option.some.injEq] at hs1
  subst hs1
  have hcell : ∀ st ∈ stores, ∃ r : Int, s.nextRow ≤ r ∧
      r < s.nextRow + (2 * capN patternCap + 1) ∧
      st.index = (s.width : Int) * r + st.x ∧ 0 ≤ st.x ∧ st.x < (s.width : Int) ∧
      0 ≤ st.index ∧ st.index < (s.width : Int) * (s.height : Int) := by
    intro st hst
    obtain ⟨a1, a2, a3, a4, a5, _⟩ := h1 st hst
    obtain ⟨c1, c2, c3⟩ := cell_index s.width s.height (s.nextRow + capN patternCap + st.y)
      st.x hsize (by omega) (by omega) a3 a4
    rw [c1] at a5
    exact ⟨s.nextRow + capN patternCap + st.y, by omega, by omega, a5, a3, a4,
      by rw [a5]; exact c2, by rw [a5]; exact c3⟩
  refine ⟨_, _, stores, ha, hs, hdata, hcell, ?_, ?_⟩
  · intro r x hr1 hr2 hx1 hx2
    obtain ⟨st, hst, hy, hx⟩ := h2 (r - s.nextRow - capN patternCap) x (by omega) (by omega)
      hx1 hx2
    obtain ⟨_, _, a3, a4, a5, _⟩ := h1 st hst
    obtain ⟨c1, _, _⟩ := cell_index s.width s.height (s.nextRow + capN patternCap + st.y)
      st.x hsize (by omega) (by omega) a3 a4
    refine ⟨st, hst, ?_⟩
    rw [a5, c1, hy, hx]
    congr 2
    ring
  · intro i hi
    rw [hdata]
    apply applyStores_frame
    intro st hst he
    obtain ⟨r, r1, r2, e, x1, x2, _, _⟩ := hcell st hst
    have hw : (0 : Int) ≤ (s.width : Int) := Int.natCast_nonneg _
    have h3 : (s.width : Int) * s.nextRow ≤ (s.width : Int) * r :=
      mul_le_mul_of_nonneg_left r1 hw
    have h4 : (s.width : Int) * (r + 1) ≤
        (s.width : Int) * (s.nextRow + (2 * capN patternCap + 1)) :=
      mul_le_mul_of_nonneg_left (by omega) hw
    have h5 : (s.width : Int) * (r + 1) = (s.width : Int) * r + (s.width : Int) := by ring
    rcases hi with hi | hi <;> omega

theorem sampleKey_round (i : Nat) (hi : i + 2 < 18446744073709551616) :
    dashKey sampleHashCombine [(i : ℚ) + 1] LinePatternCap.Round = i + 2 := by
  have hq : (i : ℚ) + 1 = ((i + 1 : ℕ) : ℚ) := by push_cast; ring
  simp only [dashKey, List.foldl, sampleHashCombine, if_true, hq, Rat.num_natCast,
    Rat.den_natCast, Int.toNat_ofNat]
  omega

/-- On a 65535 × 65535 atlas, `j ≤ 4369` round-cap requests with different patterns are
all allocated: the cursor reaches `15 j`. -/
theorem roundOps_run (j : Nat) (hj : j ≤ 4369) :
    ∃ st, run sampleHashCombine (LineAtlas.create 65535 65535, Context.fresh) (roundOps j) =
        some st ∧
      st.1.nextRow = 15 * (j : Int) ∧ st.1.width = 65535 ∧ st.1.height = 65535 ∧
      ∀ e ∈ st.1.positions, 2 ≤ e.1 ∧ e.1 < j + 2 := by
  induction j with
  | zero =>
    exact ⟨_, rfl, rfl, rfl, rfl, by simp [LineAtlas.create]⟩
  | succ j ih =>
    obtain ⟨st, hrun, h1, h2, h3, h4⟩ := ih (by omega)
    have hkey := sampleKey_round j (by omega)
    have hmiss : st.1.positions.lookup
        (dashKey sampleHashCombine [(j : ℚ) + 1] LinePatternCap.Round) = none := by
      rw [lookup_eq_none_iff, hkey]
      intro hm
      obtain ⟨e, he, hk⟩ := List.mem_map.mp hm
      have := (h4 e he).2
      omega
    have hv : ValidPattern [(j : ℚ) + 1] :=
      validPattern_singleton _ (by positivity)
    obtain ⟨s1, g1, g2, _, g4, g5, _, _, g8⟩ := getDashPosition_fits sampleHashCombine st.1
      [(j : ℚ) + 1] LinePatternCap.Round hv hmiss (by rw [h1, h3]; simp [capN]; omega)
    refine ⟨(s1, st.2), ?_, ?_, by rw [g5, h2], by rw [g4, h3], ?_⟩
    · rw [roundOps, List.range_succ, List.map_append, run_append]
      have hrun1 : run sampleHashCombine (LineAtlas.create 65535 65535, Context.fresh)
          (List.map (fun (i : Nat) => Op.getDashPosition [(i : ℚ) + 1] LinePatternCap.Round)
            (List.range j)) = some st := hrun
      simp only [hrun1, List.map_cons, List.map_nil, run, step, g1]
    · show s1.nextRow = 15 * ((j + 1 : ℕ) : Int)
      rw [g2, h1]
      simp [capN]
      ring
    · show ∀ e ∈ s1.positions, 2 ≤ e.1 ∧ e.1 < j + 1 + 2
      rw [g8]
      intro e he
      rcases List.mem_cons.mp he with h | h
      · rw [h, hkey]
        simp
      · have := h4 e h
        omega

/-- The stores of one row for a pattern of positive lengths: the row loop returns, with
one store for each column in order, and the walk never leaves the pattern. -/
theorem rasterRowStores_walk (width : Nat) (nextRow : Int) (dasharray : List ℚ)
    (oddLength : Bool) (patternCap : LinePatternCap) (n y : Int) (halfWidth : ℚ)
    (hv : ValidPattern dasharray) :
    ∃ stores, rasterRowStores width nextRow dasharray oddLength patternCap n y
        ((width : ℚ) / dasharray.sum) halfWidth = some stores ∧
      stores.map (fun st => st.x) = (List.range width).map (fun (j : Nat) => (j : Int)) ∧
      ∀ st ∈ stores, 1 ≤ st.seg.partIndex ∧ st.seg.partIndex ≤ dasharray.length := by
  obtain ⟨first, h0⟩ : ∃ first, dasharray[0]? = some first := by
    cases hd : dasharray with
    | nil => exact absurd hd hv.1
    | cons a t => exact ⟨a, by simp⟩
  obtain ⟨last, hl⟩ : ∃ last, dasharray.getLast? = some last := by
    cases hd : dasharray with
    | nil => exact absurd hd hv.1
    | cons a t => exact ⟨(a :: t).getLast (by simp), List.getLast?_eq_getLast _ _⟩
  obtain ⟨row, hrow, hrw⟩ := rowStores_walk dasharray oddLength patternCap n y halfWidth
    (wrapInt32 ((width : Int) * (nextRow + n + y))) width hv width 0
    { left := if oddLength then 0 - last else 0, right := first, partIndex := 1 }
    (le_refl _) (by simp) (walkAt_start dasharray oddLength _ first last h0 hl)
  have hshape := (rowStores_shape _ _ _ _ _ _ _ _ _ _ _ _ hrow).1
  refine ⟨row, ?_, ?_, ?_⟩
  · unfold rasterRowStores
    simp only [h0, hl, hrow]
  · rw [hshape]
    apply List.map_congr_left
    intro j _
    simp
  · intro st hst
    obtain ⟨⟨w1, w2, _⟩, _⟩ := hrw st hst
    exact ⟨w1, w2⟩

/-- What one call does to the cursor, and whether it is a successful allocation. -/
theorem stepBand_cases (hc : Nat → ℚ → Nat) (st st1 : LineAtlas × Context) (op : Op)
    (h0 : 0 ≤ st.1.nextRow) (hs : step hc st op = some st1) :
    (stepBand hc st op = none ∧ st1.1.nextRow = st.1.nextRow) ∨
    (∃ n : Int, (n = 0 ∨ n = 7) ∧ stepBand hc st op = some (st.1.nextRow, n) ∧
      st1.1.nextRow = st.1.nextRow + (2 * n + 1) ∧
      ∃ e ∈ st1.1.positions,
        e.2.y = ((1 / 2 : ℚ) + (st.1.nextRow : ℚ) + (n : ℚ)) / (st.1.height : ℚ) ∧
        e.2.height = (2 * (n : ℚ)) / (st.1.height : ℚ)) := by
  cases op with
  | upload unit =>
    left
    simp only [step, Option.some.injEq] at hs
    subst hs
    exact ⟨rfl, (upload_frame st.1 st.2 unit).1⟩
  | getDashPosition dasharray patternCap =>
    obtain ⟨p, hg, _⟩ := step_getDashPosition hc st st1 dasharray patternCap hs
    rcases getDashPosition_cases hc st.1 dasharray patternCap p st1.1 hg with
      ⟨hl, he⟩ | ⟨hl, hov, hp, he⟩ | ⟨hl, hfit, data, hp, he⟩
    · left
      exact ⟨by simp [stepBand, hl], by rw [he]⟩
    · left
      refine ⟨?_, by rw [he]⟩
      simp [stepBand, hl, addDash_overflow_eq st.1 dasharray patternCap hov]
    · right
      have hn := capN_nonneg patternCap
      have hh : 0 < st.1.height := by
        have : (0 : Int) < (st.1.height : Int) := by omega
        exact_mod_cast this
      have hy := (alloc_y st.1.nextRow (capN patternCap) st.1.height hh hn).1
      have hne : p ≠ LinePatternPos.empty := by
        intro hpe
        have := congrArg LinePatternPos.y hpe
        rw [hp] at this
        exact hy this
      have ha : ∃ s0, addDash st.1 dasharray patternCap = some (p, s0) := by
        cases ha : addDash st.1 dasharray patternCap with
        | none =>
          unfold getDashPosition at hg
          simp [hl, ha] at hg
        | some r =>
          obtain ⟨v, s0⟩ := r
          rcases addDash_cases st.1 dasharray patternCap v s0 ha with ⟨hov, _, _⟩ | ⟨_, _, hv, _⟩
          · omega
          · exact ⟨s0, by rw [hv, hp]⟩
      obtain ⟨s0, ha⟩ := ha
      refine ⟨capN patternCap, capN_eq patternCap, ?_, by rw [he], ?_⟩
      · simp [stepBand, hl, ha, hne]
      · refine ⟨(dashKey hc dasharray patternCap, p), by rw [he]; simp, ?_, ?_⟩
        · rw [hp]
        · rw [hp]

/-- An entry of the map stays in the map. -/
theorem step_mem (hc : Nat → ℚ → Nat) (st st1 : LineAtlas × Context) (op : Op)
    (e : Nat × LinePatternPos) (hs : step hc st op = some st1) (he : e ∈ st.1.positions) :
    e ∈ st1.1.positions := by
  cases op with
  | upload unit =>
    simp only [step, Option.some.injEq] at hs
    subst hs
    rw [(upload_frame st.1 st.2 unit).2.1]
    exact he
  | getDashPosition dasharray patternCap =>
    obtain ⟨p, hg, _⟩ := step_getDashPosition hc st st1 dasharray patternCap hs
    rcases getDashPosition_cases hc st.1 dasharray patternCap p st1.1 hg with
      ⟨_, h⟩ | ⟨_, _, _, h⟩ | ⟨_, _, _, _, h⟩ <;> rw [h]
    · exact he
    · exact List.mem_cons_of_mem _ he
    · exact List.mem_cons_of_mem _ he

theorem run_mem (hc : Nat → ℚ → Nat) (e : Nat × LinePatternPos) :
    ∀ (ops : List Op) (st st1 : LineAtlas × Context), run hc st ops = some st1 →
      e ∈ st.1.positions → e ∈ st1.1.positions := by
  intro ops st st1 hrun he
  exact run_invariant hc (fun s => e ∈ s.1.positions)
    (fun s op s1 hp hs => step_mem hc s s1 op e hs hp) ops st st1 he hrun

/-- The bands of a sequence of calls follow one another from the cursor before to the
cursor after, and the position of each is in the map afterwards. -/
theorem run_bands (hc : Nat → ℚ → Nat) :
    ∀ (ops : List Op) (st st1 : LineAtlas × Context), 0 ≤ st.1.nextRow →
      run hc st ops = some st1 →
      Consecutive st.1.nextRow (runBands hc st ops) st1.1.nextRow ∧
      ∀ b ∈ runBands hc st ops, ∃ e ∈ st1.1.positions,
        e.2.y = ((1 / 2 : ℚ) + (b.1 : ℚ) + (b.2 : ℚ)) / (st.1.height : ℚ) ∧
        e.2.height = (2 * (b.2 : ℚ)) / (st.1.height : ℚ) := by
  intro ops
  induction ops with
  | nil =>
    intro st st1 _ hrun
    simp only [run, Option.some.injEq] at hrun
    subst hrun
    exact ⟨rfl, by simp [runBands]⟩
  | cons op ops ih =>
    intro st st1 h0 hrun
    rw [run] at hrun
    cases hs : step hc st op with
    | none => simp [hs] at hrun
    | some st2 =>
      simp only [hs] at hrun
      have hh : st2.1.height = st.1.height := (step_cursor hc st st2 op hs).1
      rcases stepBand_cases hc st st2 op h0 hs with ⟨hb, hn⟩ | ⟨n, hn, hb, hrow, e, he, hy, hht⟩
      · obtain ⟨i1, i2⟩ := ih st2 st1 (by rw [hn]; exact h0) hrun
        rw [runBands]
        simp only [hs, hb]
        rw [hn, hh] at *
        exact ⟨i1, i2⟩
      · obtain ⟨i1, i2⟩ := ih st2 st1 (by rw [hrow]; omega) hrun
        rw [runBands]
        simp only [hs, hb]
        refine ⟨⟨rfl, hn, by rw [hrow] at i1; exact i1⟩, ?_⟩
        intro b hbm
        rcases List.mem_cons.mp hbm with h1 | h1
        · exact ⟨e, run_mem hc e ops st2 st1 hrun he, by rw [h1]; exact hy,
            by rw [h1]; exact hht⟩
        · rw [hh] at i2
          exact i2 b h1

/-- Consecutive bands are ordered and disjoint, cover exactly the rows between the two
cursors, and the distance between the cursors is 15 for each band with `n = 7` plus 1
for each band with `n = 0`. -/
theorem consecutive_facts :
    ∀ (bands : List (Int × Int)) (c c1 : Int), Consecutive c bands c1 →
      c ≤ c1 ∧
      (∀ b ∈ bands, c ≤ b.1 ∧ b.1 + (2 * b.2 + 1) ≤ c1 ∧ (b.2 = 0 ∨ b.2 = 7)) ∧
      bands.Pairwise (fun a b => a.1 + (2 * a.2 + 1) ≤ b.1) ∧
      (∀ r : Int, (c ≤ r ∧ r < c1) ↔ ∃ b ∈ bands, b.1 ≤ r ∧ r < b.1 + (2 * b.2 + 1)) ∧
      c1 = c + 15 * (bands.countP (fun b => b.2 = 7) : Int) +
        1 * (bands.countP (fun b => b.2 = 0) : Int) := by
  intro bands
  induction bands with
  | nil =>
    intro c c1 h
    simp only [Consecutive] at h
    subst h
    refine ⟨le_refl _, by simp, List.Pairwise.nil, ?_, by simp⟩
    intro r
    constructor
    · intro ⟨h1, h2⟩; omega
    · intro ⟨b, hb, _⟩; simp at hb
  | cons a bands ih =>
    intro c c1 h
    obtain ⟨ha, hn, hrest⟩ := h
    obtain ⟨i1, i2, i3, i4, i5⟩ := ih _ c1 hrest
    have hlen : 1 ≤ 2 * a.2 + 1 := by rcases hn with h | h <;> omega
    refine ⟨by omega, ?_, ?_, ?_, ?_⟩
    · intro b hb
      rcases List.mem_cons.mp hb with h1 | h1
      · rw [h1]; exact ⟨by omega, by omega, hn⟩
      · obtain ⟨b1, b2, b3⟩ := i2 b h1
        exact ⟨by omega, b2, b3⟩
    · refine List.Pairwise.cons ?_ i3
      intro b hb
      have := (i2 b hb).1
      omega
    · intro r
      constructor
      · intro ⟨h1, h2⟩
        by_cases hr : r < c + (2 * a.2 + 1)
        · exact ⟨a, List.mem_cons_self _ _, by omega, by omega⟩
        · obtain ⟨b, hb, hb1⟩ := (i4 r).mp ⟨by omega, h2⟩
          exact ⟨b, List.mem_cons_of_mem _ hb, hb1⟩
      · intro ⟨b, hb, h1, h2⟩
        rcases List.mem_cons.mp hb with h3 | h3
        · rw [h3] at h1 h2; omega
        · have := (i4 r).mpr ⟨b, h3, h1, h2⟩
          omega
    · rw [i5, List.countP_cons, List.countP_cons]
      rcases hn with h | h <;> simp [h] <;> ring

/-- The cell of row `r` and column `x` when the rows up to `rows` hold at most `2^31`
cells: its index is computed without overflow. -/
theorem cell_index_rows (width : Nat) (rows r x : Int)
    (hsize : (width : Int) * rows ≤ 2147483648)
    (hr0 : 0 ≤ r) (hr : r < rows) (hx0 : 0 ≤ x) (hx : x < (width : Int)) :
    wrapInt32 (wrapInt32 ((width : Int) * r) + x) = (width : Int) * r + x ∧
      0 ≤ (width : Int) * r + x ∧ (width : Int) * r + x < (width : Int) * rows := by
  have hw : (0 : Int) ≤ (width : Int) := Int.natCast_nonneg _
  have h1 : 0 ≤ (width : Int) * r := mul_nonneg hw hr0
  have h2 : (width : Int) * (r + 1) ≤ (width : Int) * rows :=
    mul_le_mul_of_nonneg_left (by omega) hw
  have h3 : (width : Int) * (r + 1) = (width : Int) * r + (width : Int) := by ring
  rw [wrapInt32_eq ((width : Int) * r) (by omega) (by omega),
    wrapInt32_eq ((width : Int) * r + x) (by omega) (by omega)]
  exact ⟨rfl, by omega, by omega⟩

/-- A call of `addDash` that fits and whose band ends within the first `2^31` cells of the
image computes every index without overflow and stores inside the image only. -/
theorem stores_in_image (s : LineAtlas) (dasharray : List ℚ) (patternCap : LinePatternCap)
    (hv : ValidPattern dasharray) (h0 : 0 ≤ s.nextRow)
    (hfit : s.nextRow + (2 * capN patternCap + 1) ≤ (s.height : Int))
    (hsize : (s.width : Int) * (s.nextRow + (2 * capN patternCap + 1)) ≤ 2147483648) :
    ∃ stores, addDashStores s dasharray patternCap = some stores ∧
      ∀ e ∈ stores,
        e.index = (s.width : Int) * (s.nextRow + capN patternCap + e.y) + e.x ∧
        0 ≤ e.index ∧ e.index < (s.width : Int) * (s.height : Int) := by
  have hn := capN_nonneg patternCap
  obtain ⟨stores, hs, h1, _⟩ := addDashStores_spec s dasharray patternCap hv hfit
  refine ⟨stores, hs, ?_⟩
  intro e he
  obtain ⟨a1, a2, a3, a4, a5, _⟩ := h1 e he
  obtain ⟨c1, c2, c3⟩ := cell_index_rows s.width (s.nextRow + (2 * capN patternCap + 1))
    (s.nextRow + capN patternCap + e.y) e.x hsize (by omega) (by omega) a3 a4
  have hw : (0 : Int) ≤ (s.width : Int) := Int.natCast_nonneg _
  have h4 : (s.width : Int) * (s.nextRow + (2 * capN patternCap + 1)) ≤
      (s.width : Int) * (s.height : Int) := mul_le_mul_of_nonneg_left hfit hw
  rw [a5, c1]
  exact ⟨rfl, c2, by omega⟩

theorem runInImage_concat (hc : Nat → ℚ → Nat) (st st1 st2 : LineAtlas × Context)
    (ops : List Op) (op : Op) (hrun : run hc st ops = some st1)
    (hops : runInImage hc st ops) (hop : stepInImage hc st1 op)
    (hstep : step hc st1 op = some st2) :
    runInImage hc st (ops ++ [op]) := by
  refine ⟨⟨st2, ?_⟩, ?_⟩
  · rw [run_append]
    simp only [hrun, run, hstep]
  · intro pre op1 post st3 heq hpre
    rcases List.eq_nil_or_concat post with hp | ⟨post1, last, hp⟩
    · subst hp
      have h1 : ops ++ [op] = pre ++ [op1] := heq
      obtain ⟨h2, h3⟩ := List.append_inj' h1 rfl
      simp only [List.cons.injEq, and_true] at h3
      subst h2
      subst h3
      rw [hrun] at hpre
      simp only [Option.some.injEq] at hpre
      subst hpre
      exact hop
    · subst hp
      have h1 : ops ++ [op] = (pre ++ op1 :: post1) ++ [last] := by
        rw [heq]
        simp
      obtain ⟨h2, _⟩ := List.append_inj' h1 rfl
      exact hops.2 pre op1 post1 st3 h2 hpre

/-- On a 65535 × 65535 atlas the first 2184 round-cap requests with different patterns
keep every store inside the image: their bands end at row 32760 at most, and
`65535 * 32760 < 2^31`. -/
theorem roundOps_inImage (j : Nat) (hj : j ≤ 2184) :
    runInImage sampleHashCombine (LineAtlas.create 65535 65535, Context.fresh)
      (roundOps j) := by
  induction j with
  | zero =>
    refine ⟨⟨_, rfl⟩, ?_⟩
    intro pre op post st1 heq _
    simp [roundOps] at heq
  | succ j ih =>
    obtain ⟨st, hrun, h1, h2, h3, h4⟩ := roundOps_run j (by omega)
    obtain ⟨st1, hrun1, _⟩ := roundOps_run (j + 1) (by omega)
    have hv : ValidPattern [(j : ℚ) + 1] :=
      validPattern_singleton _ (by positivity)
    have hsplit : roundOps (j + 1) =
        roundOps j ++ [Op.getDashPosition [(j : ℚ) + 1] LinePatternCap.Round] := by
      simp [roundOps, List.range_succ]
    rw [hsplit] at hrun1 ⊢
    rw [run_append] at hrun1
    simp only [hrun] at hrun1
    cases hstep : step sampleHashCombine st
        (Op.getDashPosition [(j : ℚ) + 1] LinePatternCap.Round) with
    | none => simp [run, hstep] at hrun1
    | some st2 =>
      refine runInImage_concat _ _ _ st2 _ _ hrun (ih (by omega)) ?_ hstep
      intro _
      have hcap : capN LinePatternCap.Round = 7 := rfl
      exact stores_in_image st.1 _ LinePatternCap.Round hv (by rw [h1]; omega)
        (by rw [h1, h3, hcap]; push_cast; omega) (by rw [h1, h2, hcap]; push_cast; omega)

theorem nearRowRange_of_rowRange (height : Nat) (p : LinePatternPos)
    (h : RowRange height p) : NearRowRange height p := by
  obtain ⟨startRow, n, hn, h0, hle, hy, hh⟩ := h
  refine ⟨startRow, n, hn, h0, hle, ?_, ?_⟩
  · rw [hy, sub_self, abs_zero]
    norm_num
  · rw [hh, sub_self, abs_zero]
    norm_num

/-- For an atlas height that a `uint16_t` holds, the all-zero position is not of the
form `NearRowRange`: `(0.5 + startRow + n) / height` is at least `1 / 131070`. -/
theorem not_nearRowRange_empty (height : Nat) (hh : height ≤ 65535) :
    ¬ NearRowRange height LinePatternPos.empty := by
  rintro ⟨startRow, n, hn, h0, hle, hy, _⟩
  have hpos : (0 : Int) < (height : Int) := by omega
  have hq : (0 : ℚ) < (height : ℚ) := by exact_mod_cast hpos
  have hq2 : (height : ℚ) ≤ 65535 := by exact_mod_cast hh
  have hs : (0 : ℚ) ≤ (startRow : ℚ) := by exact_mod_cast h0
  have hnq : (0 : ℚ) ≤ (n : ℚ) := by
    rcases hn with h | h <;> rw [h] <;> norm_num
  simp only [LinePatternPos.empty, zero_sub, abs_neg] at hy
  have hy1 := (abs_le.mp hy).2
  rw [div_le_iff₀ hq] at hy1
  nlinarith

theorem bitLengthLoop_spec : ∀ (fuel n : Nat), n ≤ fuel → 0 < n →
    2 ^ (bitLengthLoop fuel n - 1) ≤ n ∧ n < 2 ^ bitLengthLoop fuel n ∧
      1 ≤ bitLengthLoop fuel n := by
  intro fuel
  induction fuel with
  | zero => intro n h1 h2; omega
  | succ fuel ih =>
    intro n h1 h2
    rw [bitLengthLoop]
    have hn : n ≠ 0 := by omega
    simp only [hn, if_false, Nat.add_sub_cancel]
    by_cases h3 : n / 2 = 0
    · have h4 : n = 1 := by omega
      subst h4
      cases fuel with
      | zero => simp [bitLengthLoop]
      | succ f => simp [bitLengthLoop]
    · obtain ⟨a1, a2, a3⟩ := ih (n / 2) (by omega) (by omega)
      refine ⟨?_, ?_, by omega⟩
      · have h5 : bitLengthLoop fuel (n / 2) = (bitLengthLoop fuel (n / 2) - 1) + 1 := by omega
        rw [h5, pow_succ]
        omega
      · rw [pow_succ]
        omega

theorem bitLength_spec (n : Nat) (hn : 0 < n) :
    2 ^ (bitLength n - 1) ≤ n ∧ n < 2 ^ bitLength n ∧ 1 ≤ bitLength n :=
  bitLengthLoop_spec n n (le_refl _) hn

theorem pow2_eq (e : Int) : pow2 e = (2 : ℚ) ^ e := by
  unfold pow2
  by_cases h : 0 ≤ e
  · simp only [h, if_true]
    obtain ⟨k, rfl⟩ := Int.eq_ofNat_of_zero_le h
    simp
  · simp only [h, if_false]
    obtain ⟨n, hn⟩ : ∃ n : Nat, e = -(n : Int) := ⟨(-e).toNat, by omega⟩
    subst hn
    rw [zpow_neg, zpow_natCast]
    simp

theorem pow2_pos (e : Int) : 0 < pow2 e := by
  rw [pow2_eq]
  positivity

theorem pow2_add (a b : Int) : pow2 (a + b) = pow2 a * pow2 b := by
  rw [pow2_eq, pow2_eq, pow2_eq, zpow_add₀ (by norm_num)]

theorem pow2_lt (a b : Int) (h : pow2 a < pow2 b) : a < b := by
  rw [pow2_eq, pow2_eq] at h
  exact (zpow_lt_zpow_iff_right₀ (by norm_num)).mp h

/-- The exponent found by `floorLog2`. -/
theorem floorLog2_spec (q : ℚ) (hq : 0 < q) :
    pow2 (floorLog2 q) ≤ q ∧ q < pow2 (floorLog2 q + 1) := by
  have hnum : 0 < q.num := Rat.num_pos.mpr hq
  have hden : 0 < q.den := q.den_pos
  obtain ⟨n1, n2, n3⟩ := bitLength_spec q.num.natAbs (by omega)
  obtain ⟨d1, d2, d3⟩ := bitLength_spec q.den hden
  have hq1 : q = (q.num.natAbs : ℚ) / (q.den : ℚ) := by
    have h1 : (q.num.natAbs : Int) = q.num := Int.natAbs_of_nonneg (le_of_lt hnum)
    have h2 : (q.num.natAbs : ℚ) = (q.num : ℚ) := by
      rw [← Int.cast_natCast, h1]
    rw [h2]
    exact (Rat.num_div_den q).symm
  have hdq : (0 : ℚ) < (q.den : ℚ) := by exact_mod_cast hden
  set bn := bitLength q.num.natAbs with hbn
  set bd := bitLength q.den with hbd
  have hN1 : ((2 : ℚ) ^ (bn - 1)) ≤ (q.num.natAbs : ℚ) := by exact_mod_cast n1
  have hN2 : (q.num.natAbs : ℚ) < (2 : ℚ) ^ bn := by exact_mod_cast n2
  have hD1 : ((2 : ℚ) ^ (bd - 1)) ≤ (q.den : ℚ) := by exact_mod_cast d1
  have hD2 : (q.den : ℚ) < (2 : ℚ) ^ bd := by exact_mod_cast d2
  have hbn1 : ((bn : Int) - 1) = ((bn - 1 : Nat) : Int) := by omega
  have hbd1 : ((bd : Int) - 1) = ((bd - 1 : Nat) : Int) := by omega
  -- bounds: 2^(bn - bd - 1) < q < 2^(bn - bd + 1)
  have hlow : pow2 ((bn : Int) - (bd : Int) - 1) ≤ q := by
    rw [pow2_eq, hq1, le_div_iff₀ hdq]
    have h3 : (2 : ℚ) ^ ((bn : Int) - (bd : Int) - 1) * (2 : ℚ) ^ (bd : Int) =
        (2 : ℚ) ^ ((bn : Int) - 1) := by
      rw [← zpow_add₀ (by norm_num)]
      congr 1
      ring
    have h4 : (0 : ℚ) < (2 : ℚ) ^ ((bn : Int) - (bd : Int) - 1) := by positivity
    calc (2 : ℚ) ^ ((bn : Int) - (bd : Int) - 1) * (q.den : ℚ)
        ≤ (2 : ℚ) ^ ((bn : Int) - (bd : Int) - 1) * (2 : ℚ) ^ (bd : Int) := by
          apply mul_le_mul_of_nonneg_left _ (le_of_lt h4)
          rw [zpow_natCast]
          exact le_of_lt hD2
      _ = (2 : ℚ) ^ ((bn : Int) - 1) := h3
      _ = (2 : ℚ) ^ (bn - 1) := by rw [hbn1, zpow_natCast]
      _ ≤ (q.num.natAbs : ℚ) := hN1
  have hhigh : q < pow2 ((bn : Int) - (bd : Int) + 1) := by
    rw [pow2_eq, hq1, div_lt_iff₀ hdq]
    have h3 : (2 : ℚ) ^ ((bn : Int) - (bd : Int) + 1) * (2 : ℚ) ^ ((bd : Int) - 1) =
        (2 : ℚ) ^ (bn : Int) := by
      rw [← zpow_add₀ (by norm_num)]
      congr 1
      ring
    have h4 : (0 : ℚ) < (2 : ℚ) ^ ((bn : Int) - (bd : Int) + 1) := by positivity
    calc (q.num.natAbs : ℚ) < (2 : ℚ) ^ bn := hN2
      _ = (2 : ℚ) ^ (bn : Int) := by rw [zpow_natCast]
      _ = (2 : ℚ) ^ ((bn : Int) - (bd : Int) + 1) * (2 : ℚ) ^ ((bd : Int) - 1) := h3.symm
      _ ≤ (2 : ℚ) ^ ((bn : Int) - (bd : Int) + 1) * (q.den : ℚ) := by
          apply mul_le_mul_of_nonneg_left _ (le_of_lt h4)
          rw [hbd1, zpow_natCast]
          exact hD1
  unfold floorLog2
  simp only
  by_cases hlt : q < pow2 ((bn : Int) - (bd : Int))
  · simp only [hlt, if_true]
    refine ⟨hlow, ?_⟩
    rw [show (bn : Int) - (bd : Int) - 1 + 1 = (bn : Int) - (bd : Int) by ring]
    exact hlt
  · simp only [hlt, if_false]
    exact ⟨not_lt.mp hlt, hhigh⟩

theorem roundHalfEven_int (z : Int) : roundHalfEven (z : ℚ) = z := by
  unfold roundHalfEven
  simp only [Int.floor_intCast, sub_self]
  norm_num

/-- A value of the format is not changed by the rounding to the format. -/
theorem roundFloat_exact (prec emin : Int) (q : ℚ) (m k : Int) (hprec : 1 ≤ prec)
    (hm : |m| < 2 ^ prec.toNat) (hk : emin ≤ k) (hq : q = (m : ℚ) * (2 : ℚ) ^ k) :
    roundFloat prec emin q = q := by
  unfold roundFloat
  by_cases h0 : q = 0
  · simp [h0]
  · simp only [h0, if_false]
    have hm0 : m ≠ 0 := by
      intro h
      apply h0
      rw [hq, h]
      simp
    have hqabs : |q| = (|m| : ℚ) * (2 : ℚ) ^ k := by
      rw [hq, abs_mul, abs_of_pos (show (0 : ℚ) < (2 : ℚ) ^ k by positivity)]
    have hpos : 0 < |q| := abs_pos.mpr h0
    obtain ⟨e1, _⟩ := floorLog2_spec |q| hpos
    -- the exponent of the unit in the last place is at most k
    have hprecN : ((prec.toNat : Nat) : Int) = prec := Int.toNat_of_nonneg (by omega)
    have hlt : pow2 (floorLog2 |q|) < pow2 (k + prec) := by
      apply lt_of_le_of_lt e1
      rw [hqabs, pow2_eq, zpow_add₀ (by norm_num), mul_comm]
      apply mul_lt_mul_of_pos_left _ (by positivity)
      have h1 : ((|m| : Int) : ℚ) < ((2 ^ prec.toNat : Int) : ℚ) := by exact_mod_cast hm
      have h2 : (2 : ℚ) ^ prec = (2 : ℚ) ^ prec.toNat := by
        conv_lhs => rw [← hprecN]
        exact zpow_natCast _ _
      rw [h2]
      push_cast at h1
      exact h1
    have he := pow2_lt _ _ hlt
    set u : Int := max (floorLog2 |q| - (prec - 1)) emin with hu
    have huk : u ≤ k := by
      rw [hu]
      apply max_le <;> omega
    have hscaled : q / pow2 u = ((m * 2 ^ (k - u).toNat : Int) : ℚ) := by
      rw [hq, pow2_eq]
      have h3 : (2 : ℚ) ^ k = (2 : ℚ) ^ (k - u) * (2 : ℚ) ^ u := by
        rw [← zpow_add₀ (by norm_num)]
        congr 1
        ring
      have h4 : (2 : ℚ) ^ (k - u) = (2 : ℚ) ^ (k - u).toNat := by
        rw [← zpow_natCast, Int.toNat_of_nonneg (by omega)]
      have h5 : (2 : ℚ) ^ u ≠ 0 := by positivity
      rw [h3]
      push_cast
      rw [← h4]
      field_simp
      ring
    rw [hscaled, roundHalfEven_int, ← hscaled]
    have h5 : pow2 u ≠ 0 := ne_of_gt (pow2_pos u)
    field_simp

/-- A `float` value is not changed by the rounding to `float`. -/
theorem roundBinary32_exact (q : ℚ) (h : IsBinary32 q) : roundBinary32 q = q := by
  obtain ⟨m, e, hm, he1, _, hq⟩ := h
  exact roundFloat_exact 24 (-149) q m e (by norm_num) (by simpa using hm) he1 hq

theorem roundHalfEven_error (q : ℚ) : |(roundHalfEven q : ℚ) - q| ≤ 1 / 2 := by
  have h1 : ((⌊q⌋ : Int) : ℚ) ≤ q := Int.floor_le q
  have h2 : q < ((⌊q⌋ : Int) : ℚ) + 1 := Int.lt_floor_add_one q
  unfold roundHalfEven
  simp only
  rw [abs_le]
  split_ifs with c1 c2 c3
  · constructor <;> linarith
  · push_cast
    constructor <;> linarith
  · have h3 : q - ((⌊q⌋ : Int) : ℚ) = 1 / 2 := le_antisymm (not_lt.mp c2) (not_lt.mp c1)
    constructor <;> linarith
  · have h3 : q - ((⌊q⌋ : Int) : ℚ) = 1 / 2 := le_antisymm (not_lt.mp c2) (not_lt.mp c1)
    push_cast
    constructor <;> linarith

/-- The rounding error of a number in the normal range of the format is at most half a
unit in the last place: `|fl q - q| ≤ |q| / 2^prec`. -/
theorem roundFloat_error (prec emin : Int) (q : ℚ)
    (hn : pow2 (emin + prec - 1) ≤ |q|) :
    |roundFloat prec emin q - q| ≤ |q| * pow2 (-prec) := by
  have h0 : q ≠ 0 := by
    intro h
    rw [h, abs_zero] at hn
    exact absurd hn (not_le.mpr (pow2_pos _))
  have hpos : 0 < |q| := abs_pos.mpr h0
  obtain ⟨e1, e2⟩ := floorLog2_spec |q| hpos
  have he : emin + prec - 1 < floorLog2 |q| + 1 := pow2_lt _ _ (lt_of_le_of_lt hn e2)
  unfold roundFloat
  simp only [h0, if_false]
  have hu : max (floorLog2 |q| - (prec - 1)) emin = floorLog2 |q| - (prec - 1) :=
    max_eq_left (by omega)
  rw [hu]
  set u : Int := floorLog2 |q| - (prec - 1) with hudef
  have hup : 0 < pow2 u := pow2_pos u
  have herr := roundHalfEven_error (q / pow2 u)
  have h1 : (roundHalfEven (q / pow2 u) : ℚ) * pow2 u - q =
      ((roundHalfEven (q / pow2 u) : ℚ) - q / pow2 u) * pow2 u := by
    field_simp
  rw [h1, abs_mul, abs_of_pos hup]
  have h2 : pow2 u = pow2 (floorLog2 |q|) * pow2 (-prec) * 2 := by
    have : u = floorLog2 |q| + (-prec) + 1 := by omega
    rw [this, pow2_add, pow2_add]
    have h3 : pow2 1 = 2 := by norm_num [pow2]
    rw [h3]
  have hpp : 0 < pow2 (-prec) := pow2_pos _
  calc |(roundHalfEven (q / pow2 u) : ℚ) - q / pow2 u| * pow2 u
      ≤ 1 / 2 * pow2 u := mul_le_mul_of_nonneg_right herr (le_of_lt hup)
    _ = pow2 (floorLog2 |q|) * pow2 (-prec) := by rw [h2]; ring
    _ ≤ |q| * pow2 (-prec) := mul_le_mul_of_nonneg_right e1 (le_of_lt hpp)

/-- A `float` value is a `double` value: the rounding to `double` leaves it unchanged. -/
theorem roundBinary64_exact (q : ℚ) (h : IsBinary32 q) : roundBinary64 q = q := by
  obtain ⟨m, e, hm, he1, _, hq⟩ := h
  refine roundFloat_exact 53 (-1074) q m e (by norm_num) ?_ (by omega) hq
  have : |m| < 16777216 := hm
  have h2 : (2 : Int) ^ (53 : Int).toNat = 9007199254740992 := by
    have : (53 : Int).toNat = 53 := rfl
    rw [this]
    norm_num
  rw [h2]
  omega

/-- An integer or half-integer below `2^52` in absolute value is a `double` value. -/
theorem roundBinary64_half (z : Int) (hz : |z| < 9007199254740992) :
    roundBinary64 ((z : ℚ) / 2) = (z : ℚ) / 2 := by
  refine roundFloat_exact 53 (-1074) _ z (-1) (by norm_num) ?_ (by norm_num) ?_
  · have h2 : (2 : Int) ^ (53 : Int).toNat = 9007199254740992 := by
      have : (53 : Int).toNat = 53 := rfl
      rw [this]
      norm_num
    rw [h2]
    exact hz
  · rw [zpow_neg]
    norm_num
    ring

/-- The conversion to `float` of a quotient computed in `double`: for `c` between
`2^-100` and `2^100` the result is within one part in `2^23` of `c`, and it is `c` when
`c` is a value of a `float`. -/
theorem round_quotient (c : ℚ) (h1 : pow2 (-100) ≤ c) :
    |roundBinary32 (roundBinary64 c) - c| ≤ c / 8388608 ∧
      (IsBinary32 c → roundBinary32 (roundBinary64 c) = c) := by
  have hc : 0 < c := lt_of_lt_of_le (pow2_pos _) h1
  have habs : |c| = c := abs_of_pos hc
  have hd : |roundBinary64 c - c| ≤ |c| * pow2 (-53) := by
    apply roundFloat_error
    rw [habs]
    refine le_trans ?_ h1
    rw [pow2_eq, pow2_eq]
    exact zpow_le_zpow_right₀ (by norm_num) (by norm_num)
  rw [habs] at hd
  have hp53 : pow2 (-53) = 1 / 9007199254740992 := by
    rw [pow2_eq, zpow_neg]; norm_num
  have hp24 : pow2 (-24) = 1 / 16777216 := by
    rw [pow2_eq, zpow_neg]; norm_num
  have hp100 : pow2 (-100) = 1 / 1267650600228229401496703205376 := by
    rw [pow2_eq, zpow_neg]; norm_num
  have hp126 : pow2 (-149 + 24 - 1) = 1 / 85070591730234615865843651857942052864 := by
    rw [pow2_eq, show (-149 + 24 - 1 : Int) = -126 by norm_num, zpow_neg]; norm_num
  rw [hp53] at hd
  rw [hp100] at h1
  have hd2 := abs_le.mp hd
  have hdpos : 0 < roundBinary64 c := by linarith [hd2.1]
  have hs : |roundBinary32 (roundBinary64 c) - roundBinary64 c| ≤
      |roundBinary64 c| * pow2 (-24) := by
    apply roundFloat_error
    rw [abs_of_pos hdpos, hp126]
    linarith [hd2.1]
  rw [abs_of_pos hdpos, hp24] at hs
  have hs2 := abs_le.mp hs
  refine ⟨?_, ?_⟩
  · rw [abs_le]
    constructor <;> linarith [hd2.1, hd2.2, hs2.1, hs2.2]
  · intro hb
    rw [roundBinary64_exact c hb, roundBinary32_exact c hb]

/-- The position computed in binary32 for a band inside an atlas whose height a
`uint16_t` holds: `y` and `height` are within one part in `2^23` of
`(0.5 + nextRow + n) / height` and `2n / height`, and equal to them when these are
values of a `float`. -/
theorem position_binary32 (nextRow n : Int) (height : Nat) (length : ℚ)
    (h0 : 0 ≤ nextRow) (hn : n = 0 ∨ n = 7) (hfit : nextRow + (2 * n + 1) ≤ (height : Int))
    (hh : height ≤ 65535) :
    |(positionR roundBinary32 roundBinary64 nextRow n height length).y -
        ((1 / 2 : ℚ) + (nextRow : ℚ) + (n : ℚ)) / (height : ℚ)| ≤
      ((1 / 2 : ℚ) + (nextRow : ℚ) + (n : ℚ)) / (height : ℚ) / 8388608 ∧
    (IsBinary32 (((1 / 2 : ℚ) + (nextRow : ℚ) + (n : ℚ)) / (height : ℚ)) →
      (positionR roundBinary32 roundBinary64 nextRow n height length).y =
        ((1 / 2 : ℚ) + (nextRow : ℚ) + (n : ℚ)) / (height : ℚ)) ∧
    |(positionR roundBinary32 roundBinary64 nextRow n height length).height -
        (2 * (n : ℚ)) / (height : ℚ)| ≤ (2 * (n : ℚ)) / (height : ℚ) / 8388608 ∧
    (IsBinary32 ((2 * (n : ℚ)) / (height : ℚ)) →
      (positionR roundBinary32 roundBinary64 nextRow n height length).height =
        (2 * (n : ℚ)) / (height : ℚ)) ∧
    (positionR roundBinary32 roundBinary64 nextRow n height length).width = length := by
  have hhpos : (0 : Int) < (height : Int) := by rcases hn with h | h <;> omega
  have hq : (0 : ℚ) < (height : ℚ) := by exact_mod_cast hhpos
  have hq2 : (height : ℚ) ≤ 65535 := by exact_mod_cast hh
  have hnr : (0 : ℚ) ≤ (nextRow : ℚ) := by exact_mod_cast h0
  have hnq : (0 : ℚ) ≤ (n : ℚ) := by rcases hn with h | h <;> rw [h] <;> norm_num
  have hnrb : nextRow ≤ 65535 := by rcases hn with h | h <;> omega
  have hp100 : pow2 (-100) = 1 / 1267650600228229401496703205376 := by
    rw [pow2_eq, zpow_neg]; norm_num
  -- the sums are exact in double
  have ha : roundBinary64 ((1 / 2 : ℚ) + (nextRow : ℚ)) = (1 / 2 : ℚ) + (nextRow : ℚ) := by
    have := roundBinary64_half (2 * nextRow + 1) (by rw [abs_lt]; constructor <;> omega)
    push_cast at this
    have e : (2 * (nextRow : ℚ) + 1) / 2 = (1 / 2 : ℚ) + (nextRow : ℚ) := by ring
    rw [e] at this
    exact this
  have hb : roundBinary64 ((1 / 2 : ℚ) + (nextRow : ℚ) + (n : ℚ)) =
      (1 / 2 : ℚ) + (nextRow : ℚ) + (n : ℚ) := by
    have := roundBinary64_half (2 * nextRow + 2 * n + 1)
      (by rw [abs_lt]; rcases hn with h | h <;> constructor <;> omega)
    push_cast at this
    have e : (2 * (nextRow : ℚ) + 2 * (n : ℚ) + 1) / 2 =
        (1 / 2 : ℚ) + (nextRow : ℚ) + (n : ℚ) := by ring
    rw [e] at this
    exact this
  have hc : roundBinary64 (2 * (n : ℚ)) = 2 * (n : ℚ) := by
    have := roundBinary64_half (4 * n)
      (by rw [abs_lt]; rcases hn with h | h <;> constructor <;> omega)
    push_cast at this
    have e : (4 * (n : ℚ)) / 2 = 2 * (n : ℚ) := by ring
    rw [e] at this
    exact this
  have hY : pow2 (-100) ≤ ((1 / 2 : ℚ) + (nextRow : ℚ) + (n : ℚ)) / (height : ℚ) := by
    rw [hp100, le_div_iff₀ hq]
    nlinarith
  obtain ⟨y1, y2⟩ := round_quotient _ hY
  simp only [positionR, ha, hb, hc]
  refine ⟨y1, y2, ?_, ?_, trivial⟩
  · rcases hn with h | h
    · rw [h]
      simp [roundBinary64, roundBinary32, roundFloat]
    · have hH : pow2 (-100) ≤ (2 * (n : ℚ)) / (height : ℚ) := by
        rw [hp100, le_div_iff₀ hq, h]
        push_cast
        nlinarith
      exact (round_quotient _ hH).1
  · rcases hn with h | h
    · intro _
      rw [h]
      simp [roundBinary64, roundBinary32, roundFloat]
    · have hH : pow2 (-100) ≤ (2 * (n : ℚ)) / (height : ℚ) := by
        rw [hp100, le_div_iff₀ hq, h]
        push_cast
        nlinarith
      exact (round_quotient _ hH).2

/-- The position of the model is the one of lines 111-114 without rounding. -/
theorem positionR_id (nextRow n : Int) (height : Nat) (length : ℚ) :
    positionR id id nextRow n height length =
      { y := ((1 / 2 : ℚ) + (nextRow : ℚ) + (n : ℚ)) / (height : ℚ)
        height := (2 * (n : ℚ)) / (height : ℚ)
        width := length } := rfl

/-- The position computed in binary32 for a band inside the atlas has the form of
`NearRowRange`. -/
theorem position_nearRowRange (startRow n : Int) (height : Nat) (length : ℚ)
    (h0 : 0 ≤ startRow) (hn : n = 0 ∨ n = 7)
    (hfit : startRow + 2 * n + 1 ≤ (height : Int)) (hh : height ≤ 65535) :
    NearRowRange height (positionR roundBinary32 roundBinary64 startRow n height length) := by
  obtain ⟨y1, _, g1, _, _⟩ := position_binary32 startRow n height length h0 hn
    (by omega) hh
  have hhpos : (0 : Int) < (height : Int) := by rcases hn with h | h <;> omega
  have hq : (0 : ℚ) < (height : ℚ) := by exact_mod_cast hhpos
  have hf : ((startRow + 2 * n + 1 : Int) : ℚ) ≤ (height : ℚ) := by exact_mod_cast hfit
  push_cast at hf
  have hs : (0 : ℚ) ≤ (startRow : ℚ) := by exact_mod_cast h0
  have hnq : (0 : ℚ) ≤ (n : ℚ) := by rcases hn with h | h <;> rw [h] <;> norm_num
  have hY : ((1 / 2 : ℚ) + (startRow : ℚ) + (n : ℚ)) / (height : ℚ) ≤ 1 := by
    rw [div_le_one hq]
    linarith
  have hY0 : 0 ≤ ((1 / 2 : ℚ) + (startRow : ℚ) + (n : ℚ)) / (height : ℚ) := by positivity
  have hH : (2 * (n : ℚ)) / (height : ℚ) ≤ 1 := by
    rw [div_le_one hq]
    linarith
  have hH0 : 0 ≤ (2 * (n : ℚ)) / (height : ℚ) := by positivity
  refine ⟨startRow, n, hn, h0, hfit, le_trans y1 ?_, le_trans g1 ?_⟩
  · linarith
  · linarith

theorem roundBinary32_zero : roundBinary32 0 = 0 := by
  simp [roundBinary32, roundFloat]

/-- C1. Stability of `getDashPosition`: when a call with a pattern and cap style has
returned a position, a second call with the same pattern and cap style returns the
same position and leaves the cursor `nextRow`, the image, the dirty flag and the cache
map (indeed the whole atlas) unchanged. -/
theorem getDashPosition_stable (hc : Nat → ℚ → Nat) (s : LineAtlas) (dasharray : List ℚ)
    (patternCap : LinePatternCap) (p1 : LinePatternPos) (s1 : LineAtlas)
    (h : getDashPosition hc s dasharray patternCap = some (p1, s1)) :
    ∃ p2 s2, getDashPosition hc s1 dasharray patternCap = some (p2, s2) ∧
      p2 = p1 ∧ s2.nextRow = s1.nextRow ∧ s2.image = s1.image ∧ s2.dirty = s1.dirty ∧
      s2.positions = s1.positions ∧ s2 = s1 := by
  exact ⟨p1, s1, getDashPosition_again hc s dasharray patternCap p1 s1 h, rfl, rfl, rfl, rfl,
    rfl, rfl⟩

/-- Witness of C1 on the scenario of the spec: on a fresh 256 × 64 atlas the first
lookup of `[2, 2]` with a round cap returns a position and leaves the cursor at 15; the
second lookup returns the same position and the cursor is still 15. -/
theorem getDashPosition_stable_witness :
    ∃ p1 s1, getDashPosition sampleHashCombine (LineAtlas.create 256 64) [2, 2]
        LinePatternCap.Round = some (p1, s1) ∧ s1.nextRow = 15 ∧
      ∃ p2 s2, getDashPosition sampleHashCombine s1 [2, 2] LinePatternCap.Round =
          some (p2, s2) ∧
        p2 = p1 ∧ s2.nextRow = s1.nextRow ∧ s2.image = s1.image ∧ s2.dirty = s1.dirty ∧
        s2.positions = s1.positions ∧ s2 = s1 := by
  obtain ⟨s1, h1, h2⟩ := scenario_first sampleHashCombine
  exact ⟨_, s1, h1, h2,
    getDashPosition_stable sampleHashCombine _ [2, 2] LinePatternCap.Round _ s1 h1⟩

/-- C3. Overflow safety: if `nextRow + bandHeight > height` (`bandHeight` is 15 for Round
and 1 for Butt), `addDash` returns the all-zero position and leaves `nextRow`, every
byte of the image, the dirty flag (and the cache map and the texture) unchanged; it
appends one warning to the log. -/
theorem addDash_overflow (s : LineAtlas) (dasharray : List ℚ) (patternCap : LinePatternCap)
    (h : s.nextRow + (if patternCap = LinePatternCap.Round then 15 else 1) >
      (s.height : Int)) :
    ∃ s1, addDash s dasharray patternCap =
        some ({ width := 0, height := 0, y := 0 }, s1) ∧
      s1.nextRow = s.nextRow ∧ (∀ i, s1.image.data i = s.image.data i) ∧
      s1.image = s.image ∧ s1.dirty = s.dirty ∧ s1.positions = s.positions ∧
      s1.texture = s.texture ∧ s1.log = s.log ++ [overflowWarning] := by
  rw [← capN_cases] at h
  exact ⟨_, addDash_overflow_eq s dasharray patternCap h, rfl, fun _ => rfl, rfl, rfl, rfl,
    rfl, rfl⟩

/-- Witness of C3: a round-cap request on a fresh 256 × 10 atlas overflows. -/
theorem addDash_overflow_witness :
    (LineAtlas.create 256 10).nextRow + 15 > ((LineAtlas.create 256 10).height : Int) ∧
    ∃ s1, addDash (LineAtlas.create 256 10) [2, 2] LinePatternCap.Round =
        some ({ width := 0, height := 0, y := 0 }, s1) ∧
      s1.nextRow = 0 ∧ (∀ i, s1.image.data i = (LineAtlas.create 256 10).image.data i) ∧
      s1.image = (LineAtlas.create 256 10).image ∧ s1.dirty = true ∧ s1.positions = [] ∧
      s1.texture = none ∧ s1.log = [overflowWarning] :=
  ⟨by decide, addDash_overflow (LineAtlas.create 256 10) [2, 2] LinePatternCap.Round
    (by decide)⟩

/-- C4, counterexample.  On a fresh 256 × 10 atlas a round-cap request overflows
(`0 + 15 > 10`).  Two lookups of `[2, 2]` both return the empty position, but only one
warning is logged: the second lookup is answered from the cache and `addDash` is not
invoked again, so two lookups do not perform two allocation attempts. -/
theorem overflow_retry_counterexample :
    (LineAtlas.create 256 10).nextRow + 15 > ((LineAtlas.create 256 10).height : Int) ∧
    ∃ s2, lookups sampleHashCombine [2, 2] LinePatternCap.Round 2 (LineAtlas.create 256 10) =
        some ([LinePatternPos.empty, LinePatternPos.empty], s2) ∧
      s2.log = [overflowWarning] ∧ ¬ (s2.log.length = 2) := by
  refine ⟨by decide, _, lookups_overflow sampleHashCombine (LineAtlas.create 256 10) [2, 2]
    LinePatternCap.Round rfl (by decide) 1, ?_, ?_⟩
  · rfl
  · simp [LineAtlas.create]

/-- C4, amended.  When the allocation for a pattern whose key is not cached overflows,
`getDashPosition` returns the empty position, logs one warning and stores the empty
position under the key.  Every later `getDashPosition` call with the same pattern and
cap style, after any further `getDashPosition` and `upload` calls, returns the cached
empty position without invoking `addDash`: the atlas, and with it the warning log, is
unchanged by that call.  So `k + 1` lookups in a row return the empty position `k + 1`
times and log exactly one warning. -/
theorem overflow_cached (hc : Nat → ℚ → Nat) (s : LineAtlas) (dasharray : List ℚ)
    (patternCap : LinePatternCap)
    (hmiss : s.positions.lookup (dashKey hc dasharray patternCap) = none)
    (hov : s.nextRow + (if patternCap = LinePatternCap.Round then 15 else 1) >
      (s.height : Int)) :
    ∃ s1, getDashPosition hc s dasharray patternCap = some (LinePatternPos.empty, s1) ∧
      s1.log = s.log ++ [overflowWarning] ∧
      s1.positions.lookup (dashKey hc dasharray patternCap) = some LinePatternPos.empty ∧
      (∀ (ops : List Op) (context : Context) (st : LineAtlas × Context),
        run hc (s1, context) ops = some st →
        getDashPosition hc st.1 dasharray patternCap = some (LinePatternPos.empty, st.1)) ∧
      (∀ k : Nat, lookups hc dasharray patternCap (k + 1) s =
        some (List.replicate (k + 1) LinePatternPos.empty, s1)) := by
  rw [← capN_cases] at hov
  have h1 := getDashPosition_overflow hc s dasharray patternCap hmiss hov
  have hk : ({ s with
        log := s.log ++ [overflowWarning]
        positions := (dashKey hc dasharray patternCap, LinePatternPos.empty) ::
          s.positions } : LineAtlas).positions.lookup (dashKey hc dasharray patternCap) =
      some LinePatternPos.empty := by
    simp [List.lookup]
  refine ⟨_, h1, rfl, hk, ?_, ?_⟩
  · intro ops context st hrun
    exact getDashPosition_hit hc st.1 dasharray patternCap _
      (run_lookup hc _ _ ops _ st hrun hk)
  · intro k
    exact lookups_overflow hc s dasharray patternCap hmiss hov k

/-- Witness of the amended C4 on a fresh 256 × 10 atlas with `[2, 2]` and a round cap. -/
theorem overflow_cached_witness :
    ∃ s1, getDashPosition sampleHashCombine (LineAtlas.create 256 10) [2, 2]
        LinePatternCap.Round = some (LinePatternPos.empty, s1) ∧
      s1.log = [] ++ [overflowWarning] ∧
      s1.positions.lookup (dashKey sampleHashCombine [2, 2] LinePatternCap.Round) =
        some LinePatternPos.empty ∧
      (∀ (ops : List Op) (context : Context) (st : LineAtlas × Context),
        run sampleHashCombine (s1, context) ops = some st →
        getDashPosition sampleHashCombine st.1 [2, 2] LinePatternCap.Round =
          some (LinePatternPos.empty, st.1)) ∧
      (∀ k : Nat, lookups sampleHashCombine [2, 2] LinePatternCap.Round (k + 1)
          (LineAtlas.create 256 10) =
        some (List.replicate (k + 1) LinePatternPos.empty, s1)) :=
  overflow_cached sampleHashCombine (LineAtlas.create 256 10) [2, 2] LinePatternCap.Round rfl
    (by decide)

/-- C5. Cursor invariant: in every state reachable from a freshly constructed atlas
(`nextRow = 0`) by `getDashPosition` and `upload` calls, `0 ≤ nextRow ≤ height`, where
`height` is the height given at construction; and no call decreases `nextRow`. -/
theorem cursor_invariant (hc : Nat → ℚ → Nat) (w h : Nat) (st : LineAtlas × Context)
    (hr : Reachable hc w h st) :
    (LineAtlas.create w h).nextRow = 0 ∧ st.1.height = h ∧ 0 ≤ st.1.nextRow ∧
      st.1.nextRow ≤ (h : Int) ∧
      ∀ (op : Op) (st1 : LineAtlas × Context), step hc st op = some st1 →
        st.1.nextRow ≤ st1.1.nextRow := by
  obtain ⟨h1, h2, h3⟩ := reachable_cursor hc w h st hr
  refine ⟨rfl, h1, h2, by rw [← h1]; exact h3, ?_⟩
  intro op st1 hs
  exact (step_cursor hc st st1 op hs).2.1

/-- Witness of C5: the state after the scenario of the spec (two lookups of `[2, 2]` with
a round cap on a fresh 256 × 64 atlas) and an upload. -/
theorem cursor_invariant_witness :
    ∃ st, Reachable sampleHashCombine 256 64 st ∧ st.1.nextRow = 15 ∧
      (LineAtlas.create 256 64).nextRow = 0 ∧ st.1.height = 64 ∧ 0 ≤ st.1.nextRow ∧
      st.1.nextRow ≤ ((64 : Nat) : Int) ∧
      ∀ (op : Op) (st1 : LineAtlas × Context), step sampleHashCombine st op = some st1 →
        st.1.nextRow ≤ st1.1.nextRow := by
  obtain ⟨st, hrun, hn⟩ := scenario_reachable sampleHashCombine
  exact ⟨st, ⟨_, hrun⟩, hn, cursor_invariant sampleHashCombine 256 64 st ⟨_, hrun⟩⟩

/-- C6, counterexample.  On a fresh 256 × 10 atlas one lookup of `[2, 2]` with a round
cap overflows and stores the all-zero position in the map; that entry is not of the
form `y = (0.5 + startRow + n) / height` with its rows inside the atlas. -/
theorem cache_range_counterexample :
    ∃ st, Reachable sampleHashCombine 256 10 st ∧ ∃ e ∈ st.1.positions, ¬ RowRange 10 e.2 := by
  obtain ⟨st, hrun, hpos⟩ := overflow_reachable sampleHashCombine
  refine ⟨st, ⟨_, hrun⟩, _, by rw [hpos]; exact List.mem_singleton.mpr rfl, ?_⟩
  exact not_rowRange_empty 10

/-- C6, amended.  In every state reachable from a fresh atlas by `getDashPosition` and
`upload` calls, every entry of the positions map is either the all-zero position (the
value stored by a call whose allocation overflowed), or a position that is, up to the
rounding of its `float` fields (each within `2^-23`), of the form
`y = (0.5 + startRow + n) / height`, `height = 2n / height` for integers `startRow` and
`n ∈ {0, 7}` with `0 ≤ startRow` and `startRow + 2n + 1 ≤` atlas height; for an atlas
height that a `uint16_t` holds the two cases exclude each other.  The position that
lines 111-114 compute in binary32 for such a band is of that form. -/
theorem cache_range (hc : Nat → ℚ → Nat) (w h : Nat) (st : LineAtlas × Context)
    (hr : Reachable hc w h st) :
    (∀ e ∈ st.1.positions,
      (e.2 = LinePatternPos.empty ∨ NearRowRange h e.2) ∧
      (h ≤ 65535 → ¬ (e.2 = LinePatternPos.empty ∧ NearRowRange h e.2))) ∧
    ∀ (startRow n : Int) (length : ℚ), 0 ≤ startRow → (n = 0 ∨ n = 7) →
      startRow + 2 * n + 1 ≤ (h : Int) → h ≤ 65535 →
      NearRowRange h (positionR roundBinary32 roundBinary64 startRow n h length) := by
  refine ⟨?_, ?_⟩
  · intro e he
    refine ⟨?_, ?_⟩
    · rcases reachable_range hc w h st hr e he with h1 | h1
      · exact Or.inl h1
      · exact Or.inr (nearRowRange_of_rowRange h e.2 h1)
    · rintro hh ⟨h1, h2⟩
      rw [h1] at h2
      exact not_nearRowRange_empty h hh h2
  · intro startRow n length h0 hn hfit hh
    exact position_nearRowRange startRow n h length h0 hn hfit hh

/-- Witness of the amended C6: the state after the scenario of the spec. -/
theorem cache_range_witness :
    ∃ st, Reachable sampleHashCombine 256 64 st ∧
      ∀ e ∈ st.1.positions,
        (e.2 = LinePatternPos.empty ∨ NearRowRange 64 e.2) ∧
        ¬ (e.2 = LinePatternPos.empty ∧ NearRowRange 64 e.2) := by
  obtain ⟨st, hrun, _⟩ := scenario_reachable sampleHashCombine
  refine ⟨st, ⟨_, hrun⟩, ?_⟩
  intro e he
  obtain ⟨h1, h2⟩ := (cache_range sampleHashCombine 256 64 st ⟨_, hrun⟩).1 e he
  exact ⟨h1, h2 (by norm_num)⟩

/-- C7. The empty position signals failure exactly: for an atlas with `height > 0` and a
non-empty pattern of positive lengths whose key is not cached, `getDashPosition`
returns, and the returned position is all-zero if and only if
`nextRow + bandHeight > height` (`bandHeight` is 15 for Round, 1 for Butt).  A
successful allocation, also with the butt cap whose `height` field is 0, has `y ≠ 0`,
and `y > 0` when the cursor is not negative (as in every reachable state). -/
theorem empty_iff_overflow (hc : Nat → ℚ → Nat) (s : LineAtlas) (dasharray : List ℚ)
    (patternCap : LinePatternCap) (hh : 0 < s.height) (hv : ValidPattern dasharray)
    (hmiss : s.positions.lookup (dashKey hc dasharray patternCap) = none) :
    ∃ p s1, getDashPosition hc s dasharray patternCap = some (p, s1) ∧
      (p = { width := 0, height := 0, y := 0 } ↔
        s.nextRow + (if patternCap = LinePatternCap.Round then 15 else 1) >
          (s.height : Int)) ∧
      (s.nextRow + (if patternCap = LinePatternCap.Round then 15 else 1) ≤ (s.height : Int) →
        p.y ≠ 0 ∧ (0 ≤ s.nextRow → 0 < p.y) ∧
        (patternCap = LinePatternCap.Butt → p.height = 0)) := by
  rw [← capN_cases]
  by_cases hov : s.nextRow + (2 * capN patternCap + 1) > (s.height : Int)
  · refine ⟨_, _, getDashPosition_overflow hc s dasharray patternCap hmiss hov, ?_, ?_⟩
    · exact ⟨fun _ => hov, fun _ => rfl⟩
    · intro hfit
      omega
  · have hfit : s.nextRow + (2 * capN patternCap + 1) ≤ (s.height : Int) := by omega
    obtain ⟨s1, h1, _⟩ := getDashPosition_fits hc s dasharray patternCap hv hmiss hfit
    obtain ⟨hy, hypos⟩ := alloc_y s.nextRow (capN patternCap) s.height hh
      (capN_nonneg patternCap)
    refine ⟨_, s1, h1, ?_, ?_⟩
    · constructor
      · intro hp
        have := congrArg LinePatternPos.y hp
        exact absurd this hy
      · intro h
        exact absurd h hov
    · intro _
      refine ⟨hy, hypos, ?_⟩
      intro hb
      subst hb
      simp [capN]

/-- Witness of C7: on a fresh 1 × 1 atlas a butt-cap lookup of `[1, 1]` succeeds with a
non-empty position whose `height` field is 0 and whose `y` is `1/2`. -/
theorem empty_iff_overflow_witness :
    0 < (LineAtlas.create 1 1).height ∧ ValidPattern [1, 1] ∧
    ∃ p s1, getDashPosition sampleHashCombine (LineAtlas.create 1 1) [1, 1]
        LinePatternCap.Butt = some (p, s1) ∧
      (p = { width := 0, height := 0, y := 0 } ↔
        (LineAtlas.create 1 1).nextRow +
          (if LinePatternCap.Butt = LinePatternCap.Round then 15 else 1) >
          ((LineAtlas.create 1 1).height : Int)) ∧
      ((LineAtlas.create 1 1).nextRow +
          (if LinePatternCap.Butt = LinePatternCap.Round then 15 else 1) ≤
          ((LineAtlas.create 1 1).height : Int) →
        p.y ≠ 0 ∧ (0 ≤ (LineAtlas.create 1 1).nextRow → 0 < p.y) ∧
        (LinePatternCap.Butt = LinePatternCap.Butt → p.height = 0)) :=
  have hv : ValidPattern [1, 1] := ⟨by simp, by intro d hd; simp at hd; subst hd; norm_num⟩
  ⟨by decide, hv, empty_iff_overflow sampleHashCombine (LineAtlas.create 1 1) [1, 1]
    LinePatternCap.Butt (by decide) hv rfl⟩

/-- C8. The upload step `LineAtlas::upload`.  If `dirty` is false it makes no call on the
context and leaves the atlas unchanged.  If `dirty` is true and no texture exists it
calls `createTexture(image, unit)` and then `bindTexture`, and nothing else (no
`updateTexture`).  If `dirty` is true and a texture `t` exists it calls
`updateTexture(t, image, unit)` and then `bindTexture`, and nothing else (no
`createTexture`).  In both dirty cases it ends with `dirty = false` and a texture
present, the rest of the atlas unchanged, and `bindTexture` gets that texture with the
Linear filter, no mip-map, wrap-x Repeat and wrap-y Clamp. -/
theorem upload_spec (s : LineAtlas) (context : Context) (unit : TextureUnit) :
    (s.dirty = false → upload s context unit = (s, context)) ∧
    (s.dirty = true → s.texture = none →
      ∃ t, (upload s context unit).1 = { s with texture := some t, dirty := false } ∧
        (upload s context unit).2.calls = context.calls ++
          [GLCall.createTexture s.image unit,
           GLCall.bindTexture t unit TextureFilter.Linear TextureMipMap.No
             TextureWrap.Repeat TextureWrap.Clamp] ∧
        t = (context.createTexture s.image unit).1) ∧
    (s.dirty = true → ∀ t, s.texture = some t →
      (upload s context unit).1 = { s with dirty := false } ∧
        (upload s context unit).2.calls = context.calls ++
          [GLCall.updateTexture t s.image unit,
           GLCall.bindTexture t unit TextureFilter.Linear TextureMipMap.No
             TextureWrap.Repeat TextureWrap.Clamp]) ∧
    (s.dirty = true → (upload s context unit).1.dirty = false ∧
      (upload s context unit).1.texture.isSome = true) := by
  refine ⟨?_, ?_, ?_, ?_⟩
  · intro hd
    rcases upload_cases s context unit with ⟨_, h⟩ | ⟨h1, _⟩ | ⟨h1, _⟩
    · exact h
    · rw [hd] at h1; exact absurd h1 (by simp)
    · rw [hd] at h1; exact absurd h1 (by simp)
  · intro hd ht
    rcases upload_cases s context unit with ⟨h1, _⟩ | ⟨_, _, h⟩ | ⟨_, t, ht1, _⟩
    · rw [hd] at h1; exact absurd h1 (by simp)
    · exact ⟨context.nextTexture, by rw [h], by rw [h], rfl⟩
    · rw [ht] at ht1; exact absurd ht1 (by simp)
  · intro hd t ht
    rcases upload_cases s context unit with ⟨h1, _⟩ | ⟨_, ht1, _⟩ | ⟨_, t1, ht1, h⟩
    · rw [hd] at h1; exact absurd h1 (by simp)
    · rw [ht] at ht1; exact absurd ht1 (by simp)
    · rw [ht] at ht1
      simp only [Option.some.injEq] at ht1
      subst ht1
      exact ⟨by rw [h], by rw [h]⟩
  · intro hd
    rcases upload_cases s context unit with ⟨h1, _⟩ | ⟨_, _, h⟩ | ⟨_, t, ht, h⟩
    · rw [hd] at h1; exact absurd h1 (by simp)
    · rw [h]; exact ⟨rfl, rfl⟩
    · rw [h]; exact ⟨rfl, by simp [ht]⟩

/-- Witness of C8: the first upload of a fresh atlas creates the texture and binds it;
a second upload makes no call; after the atlas is marked dirty again, the next upload
updates the texture and binds it. -/
theorem upload_spec_witness :
    (upload (LineAtlas.create 256 64) Context.fresh 3).2.calls =
      [GLCall.createTexture (LineAtlas.create 256 64).image 3,
       GLCall.bindTexture 0 3 TextureFilter.Linear TextureMipMap.No
         TextureWrap.Repeat TextureWrap.Clamp] ∧
    (upload (LineAtlas.create 256 64) Context.fresh 3).1.dirty = false ∧
    upload { LineAtlas.create 256 64 with dirty := false } Context.fresh 3 =
      ({ LineAtlas.create 256 64 with dirty := false }, Context.fresh) ∧
    (upload { LineAtlas.create 256 64 with texture := some 0 } Context.fresh 3).2.calls =
      [GLCall.updateTexture 0 (LineAtlas.create 256 64).image 3,
       GLCall.bindTexture 0 3 TextureFilter.Linear TextureMipMap.No
         TextureWrap.Repeat TextureWrap.Clamp] := by
  refine ⟨?_, ?_, ?_, ?_⟩
  · obtain ⟨t, _, h2, h3⟩ := (upload_spec (LineAtlas.create 256 64) Context.fresh 3).2.1 rfl rfl
    rw [h2, h3]
    rfl
  · exact ((upload_spec (LineAtlas.create 256 64) Context.fresh 3).2.2.2 rfl).1
  · exact (upload_spec { LineAtlas.create 256 64 with dirty := false } Context.fresh 3).1 rfl
  · exact ((upload_spec { LineAtlas.create 256 64 with texture := some 0 } Context.fresh
      3).2.2.1 rfl 0 rfl).2

/-- C9. The texture is created at most once.  After any sequence `ops` of
`getDashPosition` and `upload` calls on a freshly constructed atlas (which is dirty and
has no texture) and a fresh context, the number of `createTexture` calls is at most 1:
it is 0 if `ops` contains no upload and 1 otherwise, and the texture exists exactly in
the second case.  So the creation happens exactly on the first upload call: as long as
no upload was called, the next upload calls `createTexture` and `bindTexture`.  Once a
texture exists, every further sequence of calls keeps the same handle and creates
nothing. -/
theorem createTexture_once (hc : Nat → ℚ → Nat) (w h : Nat) (ops : List Op)
    (st : LineAtlas × Context)
    (hrun : run hc (LineAtlas.create w h, Context.fresh) ops = some st) :
    (LineAtlas.create w h).dirty = true ∧
    createCount st.2 ≤ 1 ∧
    createCount st.2 = (if ops.any Op.isUpload then 1 else 0) ∧
    st.1.texture.isSome = ops.any Op.isUpload ∧
    (ops.any Op.isUpload = false → ∀ unit, ∃ t,
      (upload st.1 st.2 unit).2.calls = st.2.calls ++
        [GLCall.createTexture st.1.image unit,
         GLCall.bindTexture t unit TextureFilter.Linear TextureMipMap.No
           TextureWrap.Repeat TextureWrap.Clamp]) ∧
    (∀ t, st.1.texture = some t → ∀ (ops1 : List Op) (st1 : LineAtlas × Context),
      run hc st ops1 = some st1 →
      st1.1.texture = some t ∧ createCount st1.2 = createCount st.2) := by
  obtain ⟨h1, h2⟩ := run_create hc ops _ st hrun rfl rfl
  have hc0 : createCount Context.fresh = 0 := rfl
  cases hu : ops.any Op.isUpload with
  | false =>
    obtain ⟨ht, hd, hctx⟩ := h1 hu
    refine ⟨rfl, ?_, ?_, ?_, ?_, ?_⟩
    · rw [hctx]; simp [hc0]
    · rw [hctx]; simp [hc0]
    · simp [ht]
    · intro _ unit
      rcases upload_cases st.1 st.2 unit with ⟨h3, _⟩ | ⟨_, _, h⟩ | ⟨_, t, h3, _⟩
      · rw [hd] at h3; exact absurd h3 (by simp)
      · exact ⟨st.2.nextTexture, by rw [h]⟩
      · rw [ht] at h3; exact absurd h3 (by simp)
    · intro t ht1
      rw [ht] at ht1
      exact absurd ht1 (by simp)
  | true =>
    obtain ⟨ht, hcnt⟩ := h2 hu
    rw [hc0] at hcnt
    refine ⟨rfl, by omega, by simp [hcnt], ht, fun h => by simp at h, ?_⟩
    intro t ht1 ops1 st1 hrun1
    exact run_texture hc t ops1 st st1 hrun1 ht1

/-- Witness of C9: the scenario of the spec followed by an upload makes exactly one
`createTexture` call. -/
theorem createTexture_once_witness :
    ∃ st, run sampleHashCombine (LineAtlas.create 256 64, Context.fresh)
        [Op.getDashPosition [2, 2] LinePatternCap.Round,
         Op.getDashPosition [2, 2] LinePatternCap.Round, Op.upload 0] = some st ∧
      createCount st.2 ≤ 1 ∧ createCount st.2 = 1 ∧ st.1.texture.isSome = true := by
  obtain ⟨st, hrun, _⟩ := scenario_reachable sampleHashCombine
  obtain ⟨_, h1, h2, h3, _⟩ := createTexture_once sampleHashCombine 256 64 _ st hrun
  exact ⟨st, hrun, h1, h2, h3⟩

/-- C10. Dirty-flag invariant.  In every state reachable from a fresh atlas and a fresh
context by `getDashPosition` and `upload` calls: if `dirty` is false, the image is the
one that was last passed to `createTexture` or `updateTexture`, byte for byte.  And
for every `getDashPosition` call that returns from that state: a genuine new allocation
(key not cached, rows fit) ends with `dirty = true`; a cache hit or an overflowing call
leaves `dirty` and the image unchanged. -/
theorem dirty_invariant (hc : Nat → ℚ → Nat) (w h : Nat) (st : LineAtlas × Context)
    (hr : Reachable hc w h st) :
    (st.1.dirty = false → ∃ image, lastUploaded st.2.calls = some image ∧
      image = st.1.image ∧ ∀ i, image.data i = st.1.image.data i) ∧
    ∀ (dasharray : List ℚ) (patternCap : LinePatternCap) (p : LinePatternPos)
      (s1 : LineAtlas), getDashPosition hc st.1 dasharray patternCap = some (p, s1) →
      (st.1.positions.lookup (dashKey hc dasharray patternCap) = none →
        st.1.nextRow + (if patternCap = LinePatternCap.Round then 15 else 1) ≤
          (st.1.height : Int) → s1.dirty = true) ∧
      (st.1.positions.lookup (dashKey hc dasharray patternCap) ≠ none ∨
        st.1.nextRow + (if patternCap = LinePatternCap.Round then 15 else 1) >
          (st.1.height : Int) → s1.dirty = st.1.dirty ∧ s1.image = st.1.image) := by
  constructor
  · intro hd
    obtain ⟨ops, hrun⟩ := hr
    have key := run_invariant hc
      (fun st0 => st0.1.dirty = false → lastUploaded st0.2.calls = some st0.1.image)
      (fun st0 op st1 hp hs => step_synced hc st0 st1 op hs hp) ops _ st
      (fun h0 => by simp [LineAtlas.create] at h0) hrun
    exact ⟨st.1.image, key hd, rfl, fun _ => rfl⟩
  · intro dasharray patternCap p s1 hg
    rw [← capN_cases]
    rcases getDashPosition_cases hc st.1 dasharray patternCap p s1 hg with
      ⟨hl, hs⟩ | ⟨hl, hov, _, hs⟩ | ⟨hl, hfit, _, _, hs⟩
    · refine ⟨fun hm => ?_, fun _ => by rw [hs]; exact ⟨rfl, rfl⟩⟩
      rw [hm] at hl
      exact absurd hl (by simp)
    · refine ⟨fun _ hfit => ?_, fun _ => by rw [hs]; exact ⟨rfl, rfl⟩⟩
      omega
    · refine ⟨fun _ _ => by rw [hs], fun hor => ?_⟩
      rcases hor with hne | hov
      · exact absurd hl hne
      · omega

/-- Witness of C10: after the scenario of the spec and an upload the atlas is clean and
the image is the one last handed to the context. -/
theorem dirty_invariant_witness :
    ∃ st, Reachable sampleHashCombine 256 64 st ∧ st.1.dirty = false ∧
      ∃ image, lastUploaded st.2.calls = some image ∧ image = st.1.image ∧
        ∀ i, image.data i = st.1.image.data i := by
  obtain ⟨st, hrun, hd⟩ := scenario_clean sampleHashCombine
  exact ⟨st, ⟨_, hrun⟩, hd, (dirty_invariant sampleHashCombine 256 64 st ⟨_, hrun⟩).1 hd⟩

/-- C14. A miss stores the result under the key: when the key of the request is not in
the positions map and the call returns, `addDash` was run on the atlas, the call
returns exactly the value `addDash` returned (also when that is the empty all-zero
position of an overflow), and afterwards the map holds that value under the key, the
entries of all other keys are unchanged, and the map has one key more (one entry
more). -/
theorem miss_stores (hc : Nat → ℚ → Nat) (s : LineAtlas) (dasharray : List ℚ)
    (patternCap : LinePatternCap) (p : LinePatternPos) (s1 : LineAtlas)
    (hmiss : s.positions.lookup (dashKey hc dasharray patternCap) = none)
    (h : getDashPosition hc s dasharray patternCap = some (p, s1)) :
    ∃ s0, addDash s dasharray patternCap = some (p, s0) ∧
      s1.positions.lookup (dashKey hc dasharray patternCap) = some p ∧
      (∀ k, k ≠ dashKey hc dasharray patternCap →
        s1.positions.lookup k = s.positions.lookup k) ∧
      mapSize s1.positions = mapSize s.positions + 1 ∧
      s1.positions.length = s.positions.length + 1 ∧
      (s.nextRow + (if patternCap = LinePatternCap.Round then 15 else 1) > (s.height : Int) →
        p = { width := 0, height := 0, y := 0 }) := by
  rw [← capN_cases]
  have hnot : dashKey hc dasharray patternCap ∉ s.positions.map (fun e => e.1) :=
    (lookup_eq_none_iff _ _).mp hmiss
  have hlk : ∀ (v : LinePatternPos) (k : Nat), k ≠ dashKey hc dasharray patternCap →
      List.lookup k ((dashKey hc dasharray patternCap, v) :: s.positions) =
        s.positions.lookup k := by
    intro v k hk
    have hb : (k == dashKey hc dasharray patternCap) = false := by simpa using hk
    simp only [List.lookup_cons, hb]
  have hsz : ∀ v : LinePatternPos,
      mapSize ((dashKey hc dasharray patternCap, v) :: s.positions) =
        mapSize s.positions + 1 := by
    intro v
    simp only [mapSize, List.map_cons]
    rw [List.dedup_cons_of_not_mem hnot]
    rfl
  rcases getDashPosition_cases hc s dasharray patternCap p s1 h with
    ⟨hl, _⟩ | ⟨_, hov, hp, hs⟩ | ⟨_, hfit, data, hp, hs⟩
  · rw [hmiss] at hl
    exact absurd hl (by simp)
  · subst hs hp
    refine ⟨_, addDash_overflow_eq s dasharray patternCap hov, by simp [List.lookup],
      hlk _, hsz _, rfl, fun _ => rfl⟩
  · have ha : addDash s dasharray patternCap = some (p,
        { s with
          image := { s.image with data := data }
          nextRow := s.nextRow + (2 * capN patternCap + 1)
          dirty := true }) := by
      unfold getDashPosition at h
      simp only [hmiss] at h
      cases ha : addDash s dasharray patternCap with
      | none => simp [ha] at h
      | some r =>
        obtain ⟨v, s0⟩ := r
        rcases addDash_cases s dasharray patternCap v s0 ha with ⟨hov, _, _⟩ | ⟨_, data1, hv, hs0⟩
        · omega
        · simp only [ha, emplace] at h
          rw [hs0] at h
          simp only [hmiss, Option.some.injEq, Prod.mk.injEq] at h
          obtain ⟨h1, h2⟩ := h
          subst h1
          rw [hs0]
          rw [hs] at h2
          have hdat := congrArg (fun a => a.image.data) h2
          simp only at hdat
          rw [hdat]
    subst hs
    refine ⟨_, ha, by simp [List.lookup], hlk _, hsz _, rfl, fun hov => ?_⟩
    omega

/-- Witness of C14: an overflowing miss on a fresh 256 × 10 atlas stores the empty
position under the key. -/
theorem miss_stores_witness :
    ∃ s1 s0, getDashPosition sampleHashCombine (LineAtlas.create 256 10) [2, 2]
        LinePatternCap.Round = some (LinePatternPos.empty, s1) ∧
      addDash (LineAtlas.create 256 10) [2, 2] LinePatternCap.Round =
        some (LinePatternPos.empty, s0) ∧
      s1.positions.lookup (dashKey sampleHashCombine [2, 2] LinePatternCap.Round) =
        some LinePatternPos.empty ∧
      mapSize s1.positions = 1 := by
  have h1 := getDashPosition_overflow sampleHashCombine (LineAtlas.create 256 10) [2, 2]
    LinePatternCap.Round rfl (by decide)
  obtain ⟨s0, h2, h3, _, h4, _⟩ := miss_stores sampleHashCombine (LineAtlas.create 256 10)
    [2, 2] LinePatternCap.Round _ _ rfl h1
  exact ⟨_, s0, h1, h2, h3, h4⟩

/-- C15. Key collisions are not detected: when two requests have equal hash keys and the
first has returned a position, the second, called next, returns the position stored for
the first without running `addDash`: the atlas, with `nextRow`, the image, the dirty
flag and the warning log, is unchanged, even when the patterns or the cap styles
differ.  The same holds after any further calls in between. -/
theorem collision_shares (hc : Nat → ℚ → Nat) (s : LineAtlas) (dasharray1 dasharray2 : List ℚ)
    (cap1 cap2 : LinePatternCap) (p1 : LinePatternPos) (s1 : LineAtlas)
    (hkey : dashKey hc dasharray1 cap1 = dashKey hc dasharray2 cap2)
    (h : getDashPosition hc s dasharray1 cap1 = some (p1, s1)) :
    (∃ s2, getDashPosition hc s1 dasharray2 cap2 = some (p1, s2) ∧ s2 = s1 ∧
      s2.nextRow = s1.nextRow ∧ s2.image = s1.image ∧ s2.dirty = s1.dirty ∧
      s2.log = s1.log) ∧
    ∀ (ops : List Op) (context : Context) (st : LineAtlas × Context),
      run hc (s1, context) ops = some st →
      getDashPosition hc st.1 dasharray2 cap2 = some (p1, st.1) := by
  have hk : s1.positions.lookup (dashKey hc dasharray2 cap2) = some p1 := by
    rw [← hkey]
    rcases getDashPosition_cases hc s dasharray1 cap1 p1 s1 h with
      ⟨hl, hs⟩ | ⟨_, _, hp, hs⟩ | ⟨_, _, _, _, hs⟩
    · rw [hs]; exact hl
    · rw [hs, hp]; simp [List.lookup]
    · rw [hs]; simp [List.lookup]
  refine ⟨⟨s1, getDashPosition_hit hc s1 dasharray2 cap2 p1 hk, rfl, rfl, rfl, rfl, rfl⟩, ?_⟩
  intro ops context st hrun
  exact getDashPosition_hit hc st.1 dasharray2 cap2 p1 (run_lookup hc _ _ ops _ st hrun hk)

/-- Witness of C15: under the sample hash the patterns `[3]` and `[1/3]` have the same
key; on a fresh 256 × 64 atlas the lookup of `[1/3]` after `[3]` returns the position
of `[3]`, whose width is 3. -/
theorem collision_shares_witness :
    dashKey sampleHashCombine [3] LinePatternCap.Round =
      dashKey sampleHashCombine [1 / 3] LinePatternCap.Round ∧
    ∃ p1 s1, getDashPosition sampleHashCombine (LineAtlas.create 256 64) [3]
        LinePatternCap.Round = some (p1, s1) ∧ p1.width = 3 ∧
      getDashPosition sampleHashCombine s1 [1 / 3] LinePatternCap.Round = some (p1, s1) := by
  have hkey : dashKey sampleHashCombine [3] LinePatternCap.Round =
      dashKey sampleHashCombine [1 / 3] LinePatternCap.Round := by decide!
  obtain ⟨s1, h1, _⟩ := getDashPosition_fits sampleHashCombine (LineAtlas.create 256 64) [3]
    LinePatternCap.Round (validPattern_singleton 3 (by norm_num)) rfl (by decide)
  obtain ⟨⟨s2, h2, h3, _⟩, _⟩ := collision_shares sampleHashCombine (LineAtlas.create 256 64)
    [3] [1 / 3] LinePatternCap.Round LinePatternCap.Round _ s1 hkey h1
  rw [h3] at h2
  exact ⟨hkey, _, s1, h1, by simp, h2⟩

/-- C11, failing input.  On a 65535 × 65535 atlas the 2184 round-cap requests `[1]`, ...,
`[2184]` are allocated with every store inside the image and leave the cursor at row
32760.  The next round-cap request `[2185]` is not cached, fits
(`32760 + 15 ≤ 65535`) and is allocated in rows 32760 to 32774.  Its stores up to column
32767 of row 32768 (`y = 1`) are computed without overflow and are inside the image; the
store of column 32768 of that row goes to `index + x = 65535 * 32768 + 32768 = 2^31`, which leaves the range of `int`:
the wrapped index is `-2147483648`, outside the image. -/
theorem band_index_overflow :
    ∃ st, run sampleHashCombine (LineAtlas.create 65535 65535, Context.fresh)
        (roundOps 2184) = some st ∧
      runInImage sampleHashCombine (LineAtlas.create 65535 65535, Context.fresh)
        (roundOps 2184) ∧
      st.1.nextRow = 32760 ∧ st.1.width = 65535 ∧ st.1.height = 65535 ∧
      st.1.positions.lookup (dashKey sampleHashCombine [2185] LinePatternCap.Round) = none ∧
      ∃ p s1 stores, addDash st.1 [2185] LinePatternCap.Round = some (p, s1) ∧
        p ≠ LinePatternPos.empty ∧ s1.nextRow = 32775 ∧
        addDashStores st.1 [2185] LinePatternCap.Round = some stores ∧
        s1.image.data = applyStores st.1.image.data stores ∧
        (∀ e ∈ stores, e.y < 1 ∨ (e.y = 1 ∧ e.x < 32768) →
          e.index = 65535 * (32760 + 7 + e.y) + e.x ∧
          0 ≤ e.index ∧ e.index < 65535 * 65535) ∧
        ∃ e ∈ stores, e.y = 1 ∧ e.x = 32768 ∧
          e.index = wrapInt32 (wrapInt32 (65535 * 32768) + 32768) ∧
          wrapInt32 (65535 * 32768) = 2147450880 ∧ e.index = -2147483648 ∧
          ¬ (0 ≤ e.index ∧ e.index < 65535 * 65535) := by
  obtain ⟨st, hrun, h1, h2, h3, h4⟩ := roundOps_run 2184 (by omega)
  have hn : st.1.nextRow = 32760 := by rw [h1]; norm_num
  have hcap : capN LinePatternCap.Round = 7 := rfl
  have hv : ValidPattern [(2185 : ℚ)] := validPattern_singleton _ (by norm_num)
  have hkey : dashKey sampleHashCombine [(2185 : ℚ)] LinePatternCap.Round = 2186 := by
    have := sampleKey_round 2184 (by omega)
    norm_num at this
    exact this
  have hmiss : st.1.positions.lookup
      (dashKey sampleHashCombine [(2185 : ℚ)] LinePatternCap.Round) = none := by
    rw [lookup_eq_none_iff, hkey]
    intro hm
    obtain ⟨e, he, hk⟩ := List.mem_map.mp hm
    have := (h4 e he).2
    omega
  have hfit : st.1.nextRow + (2 * capN LinePatternCap.Round + 1) ≤ (st.1.height : Int) := by
    rw [hn, h3, hcap]
    norm_num
  obtain ⟨data, ha⟩ := addDash_fits st.1 [2185] LinePatternCap.Round hv hfit
  obtain ⟨stores, hs, g1, g2⟩ := addDashStores_spec st.1 [2185] LinePatternCap.Round hv hfit
  obtain ⟨stores1, hs1, hdata⟩ := addDash_eq_stores st.1 [2185] LinePatternCap.Round _ _ ha
  rw [hs] at hs1
  simp only [Option.some.injEq] at hs1
  subst hs1
  obtain ⟨e, he, hy, hx⟩ := g2 1 32768 (by rw [hcap]; norm_num) (by rw [hcap]; norm_num)
    (by norm_num) (by rw [h2]; norm_num)
  obtain ⟨_, _, _, _, hidx, _⟩ := g1 e he
  have hidx1 : e.index = wrapInt32 (wrapInt32 (65535 * 32768) + 32768) := by
    rw [hidx, hy, hx, hn, h2, hcap]
    norm_num
  have hval : e.index = -2147483648 := by
    rw [hidx1]
    simp [wrapInt32]
  have hsafe := roundOps_inImage 2184 (by omega)
  refine ⟨st, hrun, hsafe, hn, h2, h3, hmiss, _, _, stores, ha,
    ?_, ?_, hs, hdata, ?_, e, he, hy, hx, hidx1, by simp [wrapInt32], hval, ?_⟩
  · intro hp
    have hy0 := congrArg LinePatternPos.y hp
    simp only [LinePatternPos.empty] at hy0
    rw [hn, h3, hcap] at hy0
    norm_num at hy0
  · show st.1.nextRow + (2 * capN LinePatternCap.Round + 1) = 32775
    rw [hn, hcap]
    norm_num
  · intro e1 he1 hpos
    obtain ⟨b1, b2, b3, b4, b5, _⟩ := g1 e1 he1
    rw [hcap] at b1 b2
    rw [h2] at b4
    rw [b5, hn, h2, hcap]
    rcases hpos with hy1 | ⟨hy1, hx1⟩
    · obtain ⟨c1, c2, c3⟩ := cell_index_rows 65535 32768 (32760 + 7 + e1.y) e1.x
        (by norm_num) (by omega) (by omega) b3 b4
      rw [c1]
      push_cast at c2 c3 ⊢
      exact ⟨rfl, c2, by omega⟩
    · rw [hy1]
      have hr : wrapInt32 (((65535 : ℕ) : Int) * (32760 + 7 + 1)) = 2147450880 := by
        simp [wrapInt32]
      rw [hr, wrapInt32_eq _ (by omega) (by omega)]
      omega
  · rw [hval]
    omega

/-- C18. The segment walk stays in bounds and terminates.  For a non-empty pattern of
positive lengths (odd or even count) and any atlas width:
at every column `x` in `[0, width)` the target `x / stretch` lies before `length`; from
every walk state that fits the column, the loop `while (right < x / stretch)` returns,
and each index it has read, from the old `partIndex` up to the new one, is smaller than
`dasharray.size()`; and the loop over the columns of a row returns with one store for
each column, `partIndex` never exceeding the size.  (The model returns `none` exactly
when a read is out of bounds, and every iteration of the loop reads and increments
`partIndex`.) -/
theorem walk_in_bounds (width : Nat) (nextRow : Int) (dasharray : List ℚ)
    (patternCap : LinePatternCap) (n y : Int) (halfWidth : ℚ) (data : Int → Nat)
    (hv : ValidPattern dasharray) :
    (∀ x : Int, 0 ≤ x → x < (width : Int) →
      (x : ℚ) / ((width : ℚ) / dasharray.sum) < dasharray.sum ∧
      ∀ seg : Segment,
        WalkAt dasharray (dasharray.length % 2 == 1)
          ((x : ℚ) / ((width : ℚ) / dasharray.sum)) seg →
        ∃ seg1, advance dasharray (dasharray.length % 2 == 1)
            ((x : ℚ) / ((width : ℚ) / dasharray.sum)) seg = some seg1 ∧
          ¬ seg1.right < (x : ℚ) / ((width : ℚ) / dasharray.sum) ∧
          seg.partIndex ≤ seg1.partIndex ∧ seg1.partIndex ≤ dasharray.length ∧
          ∀ i : Nat, seg.partIndex ≤ i → i < seg1.partIndex → i < dasharray.length) ∧
    (∃ stores, rasterRowStores width nextRow dasharray (dasharray.length % 2 == 1)
        patternCap n y ((width : ℚ) / dasharray.sum) halfWidth = some stores ∧
      rasterRow width nextRow dasharray (dasharray.length % 2 == 1) patternCap n y
        ((width : ℚ) / dasharray.sum) halfWidth data = some (applyStores data stores) ∧
      stores.map (fun st => st.x) = (List.range width).map (fun (j : Nat) => (j : Int)) ∧
      stores.length = width ∧
      ∀ st ∈ stores, 1 ≤ st.seg.partIndex ∧ st.seg.partIndex ≤ dasharray.length) := by
  constructor
  · intro x hx0 hx
    have ht := target_lt_sum width x _ (sum_pos_of_valid hv) hx0 hx
    refine ⟨ht, ?_⟩
    intro seg hwalk
    obtain ⟨seg1, h1, h2, h3, h4⟩ := advanceLoop_walk dasharray (dasharray.length % 2 == 1)
      _ hv.2 ht (dasharray.length - seg.partIndex) seg (le_refl _) hwalk
    refine ⟨seg1, h1, not_lt.mpr h3, h4, h2.2.1, ?_⟩
    intro i _ hi
    have := h2.2.1
    omega
  · obtain ⟨stores, h1, h2, h3⟩ := rasterRowStores_walk width nextRow dasharray
      (dasharray.length % 2 == 1) patternCap n y halfWidth hv
    refine ⟨stores, h1, ?_, h2, ?_, h3⟩
    · rw [rasterRow_eq_stores, h1]
      rfl
    · have := congrArg List.length h2
      simpa using this

/-- Witness of C18: the odd-length pattern `[3, 1, 3]` on width 256, and the even-length
pattern `[2, 2]` on width 1. -/
theorem walk_in_bounds_witness :
    (∃ stores, rasterRowStores 256 0 [3, 1, 3] ([3, 1, 3].length % 2 == 1)
        LinePatternCap.Round 7 (-7) ((256 : ℕ) / [3, 1, 3].sum) 1 = some stores ∧
      stores.length = 256 ∧ ∀ st ∈ stores, st.seg.partIndex ≤ 3) ∧
    (∃ stores, rasterRowStores 1 0 [2, 2] ([2, 2].length % 2 == 1)
        LinePatternCap.Butt 0 0 ((1 : ℕ) / [2, 2].sum) 1 = some stores ∧
      stores.length = 1 ∧ ∀ st ∈ stores, st.seg.partIndex ≤ 2) := by
  have hv : ValidPattern [3, 1, 3] :=
    ⟨by simp, by intro d hd; simp at hd; rcases hd with h | h | h <;> subst h <;> norm_num⟩
  constructor
  · obtain ⟨_, stores, h1, _, _, h4, h5⟩ := walk_in_bounds 256 0 [3, 1, 3]
      LinePatternCap.Round 7 (-7) 1 (fun _ => 0) hv
    exact ⟨stores, h1, h4, fun st hst => (h5 st hst).2⟩
  · obtain ⟨_, stores, h1, _, _, h4, h5⟩ := walk_in_bounds 1 0 [2, 2]
      LinePatternCap.Butt 0 0 1 (fun _ => 0) validPattern_two_two
    exact ⟨stores, h1, h4, fun st hst => (h5 st hst).2⟩

/-- C17. Disjoint bands.  Take any sequence of `getDashPosition` (and `upload`) calls on a
fresh atlas that runs to a state `st`, and the row bands `[startRow, startRow + 2n + 1)`
of its successful allocations (the calls that missed the cache and got a non-empty
position from `addDash`), in order.  Each band has `n` 0 or 7 and its position
`y = (0.5 + startRow + n) / height`, `height = 2n / height` is in the map; each band ends
where the next starts, so the bands are pairwise disjoint (no row lies in two of them);
a row lies in `[0, nextRow)` exactly when it lies in a band; and `nextRow` is 15 times
the number of bands with `n = 7` (round cap) plus the number of bands with `n = 0`
(butt cap). -/
theorem bands_tile (hc : Nat → ℚ → Nat) (w h : Nat) (ops : List Op)
    (st : LineAtlas × Context)
    (hrun : run hc (LineAtlas.create w h, Context.fresh) ops = some st) :
    (∀ b ∈ runBands hc (LineAtlas.create w h, Context.fresh) ops,
      (b.2 = 0 ∨ b.2 = 7) ∧ 0 ≤ b.1 ∧ b.1 + (2 * b.2 + 1) ≤ st.1.nextRow ∧
      ∃ e ∈ st.1.positions,
        e.2.y = ((1 / 2 : ℚ) + (b.1 : ℚ) + (b.2 : ℚ)) / (h : ℚ) ∧
        e.2.height = (2 * (b.2 : ℚ)) / (h : ℚ)) ∧
    (runBands hc (LineAtlas.create w h, Context.fresh) ops).Pairwise
      (fun a b => a.1 + (2 * a.2 + 1) ≤ b.1) ∧
    (∀ (r : Int), ∀ a ∈ runBands hc (LineAtlas.create w h, Context.fresh) ops,
      ∀ b ∈ runBands hc (LineAtlas.create w h, Context.fresh) ops,
      a.1 ≤ r → r < a.1 + (2 * a.2 + 1) → b.1 ≤ r → r < b.1 + (2 * b.2 + 1) → a = b) ∧
    (∀ r : Int, (0 ≤ r ∧ r < st.1.nextRow) ↔
      ∃ b ∈ runBands hc (LineAtlas.create w h, Context.fresh) ops,
        b.1 ≤ r ∧ r < b.1 + (2 * b.2 + 1)) ∧
    st.1.nextRow =
      15 * ((runBands hc (LineAtlas.create w h, Context.fresh) ops).countP
        (fun b => b.2 = 7) : Int) +
      1 * ((runBands hc (LineAtlas.create w h, Context.fresh) ops).countP
        (fun b => b.2 = 0) : Int) := by
  obtain ⟨hcons, hpos⟩ := run_bands hc ops _ st (le_refl _) hrun
  obtain ⟨_, f2, f3, f4, f5⟩ := consecutive_facts _ _ _ hcons
  refine ⟨?_, f3, ?_, f4, ?_⟩
  · intro b hb
    obtain ⟨b1, b2, b3⟩ := f2 b hb
    exact ⟨b3, b1, b2, hpos b hb⟩
  · intro r a ha b hb a1 a2 b1 b2
    by_contra hne
    have hsym : Symmetric (fun a b : Int × Int =>
        a.1 + (2 * a.2 + 1) ≤ b.1 ∨ b.1 + (2 * b.2 + 1) ≤ a.1) :=
      fun x y hxy => hxy.symm
    have hpw : (runBands hc (LineAtlas.create w h, Context.fresh) ops).Pairwise
        (fun a b : Int × Int => a.1 + (2 * a.2 + 1) ≤ b.1 ∨ b.1 + (2 * b.2 + 1) ≤ a.1) :=
      f3.imp (fun hxy => Or.inl hxy)
    rcases hpw.forall hsym ha hb hne with h1 | h1 <;> omega
  · have : (LineAtlas.create w h, Context.fresh).1.nextRow = 0 := rfl
    rw [f5, this]
    ring

/-- Witness of C17: a round-cap and a butt-cap allocation, a repeated lookup and an upload
on a fresh 16 × 64 atlas give the bands `[0, 15)` and `[15, 16)` and the cursor 16. -/
theorem bands_tile_witness :
    runBands sampleHashCombine (LineAtlas.create 16 64, Context.fresh)
      [Op.getDashPosition [2, 2] LinePatternCap.Round,
       Op.getDashPosition [1, 1] LinePatternCap.Butt,
       Op.getDashPosition [2, 2] LinePatternCap.Round, Op.upload 0] = [(0, 7), (15, 0)] ∧
    ∃ st, run sampleHashCombine (LineAtlas.create 16 64, Context.fresh)
      [Op.getDashPosition [2, 2] LinePatternCap.Round,
       Op.getDashPosition [1, 1] LinePatternCap.Butt,
       Op.getDashPosition [2, 2] LinePatternCap.Round, Op.upload 0] = some st ∧
      st.1.nextRow = 16 ∧
      ∀ r : Int, (0 ≤ r ∧ r < st.1.nextRow) ↔
        ∃ b ∈ [((0 : Int), (7 : Int)), (15, 0)], b.1 ≤ r ∧ r < b.1 + (2 * b.2 + 1) := by
  have hb : runBands sampleHashCombine (LineAtlas.create 16 64, Context.fresh)
      [Op.getDashPosition [2, 2] LinePatternCap.Round,
       Op.getDashPosition [1, 1] LinePatternCap.Butt,
       Op.getDashPosition [2, 2] LinePatternCap.Round, Op.upload 0] = [(0, 7), (15, 0)] := by
    decide!
  have hsome : (run sampleHashCombine (LineAtlas.create 16 64, Context.fresh)
      [Op.getDashPosition [2, 2] LinePatternCap.Round,
       Op.getDashPosition [1, 1] LinePatternCap.Butt,
       Op.getDashPosition [2, 2] LinePatternCap.Round, Op.upload 0]).isSome = true := by
    decide!
  obtain ⟨st, hrun⟩ := Option.isSome_iff_exists.mp hsome
  obtain ⟨_, _, _, h4, h5⟩ := bands_tile sampleHashCombine 16 64 _ st hrun
  rw [hb] at h4 h5
  exact ⟨hb, st, hrun, by rw [h5]; decide, h4⟩

end mbgl
